import Mathlib

/-!
The outline pass of `window::window` (brush_outline, src/window.cpp): a shallow embedding
of the per-pixel pass and the facts proved about it.

Number model.

`qreal` is IEEE-754 binary64 (`double`).  A finite double is a rational number, so a
`qreal` value is modelled as a `ℚ`, and every arithmetic operation of the source
(`+`, `-`, `*`, `/`) is the exact rational operation followed by `fl`, rounding to the
nearest binary64 value with ties to even (53 significant bits, least exponent `-1074`).
`std::abs`, `std::min`, `std::max` and the comparisons are exact in binary64 and are the
rational ones; `std::sqrt` is `fsqrt`, the binary64 value nearest to the exact root.  No
value computed by the pass exceeds `2 ^ 18` in magnitude, so overflow to infinity is not
modelled; each operation is rounded on its own (no fused multiply-add).

`quint8` is a natural number below 256; `static_cast<quint8>` of a double truncates
toward zero and is taken modulo 256.

Image model.

A `QImage` in `Format_Grayscale8` is its `width`, `height`, `bytesPerLine` and the list of
its bytes.  A pointer into an image is the (integer) offset from the first byte; reading or
writing outside the byte buffer is an error (`none`).
-/

namespace BrushOutline

/-! ## binary64 rounding -/

/-- Floor of the base-2 logarithm of `n`, by repeated halving (`0` for `n < 2`);
`fuel` bounds the number of halvings and `fuel = n` always suffices. -/
def log2Fuel : ℕ → ℕ → ℕ
  | 0, _ => 0
  | fuel + 1, n => if n < 2 then 0 else log2Fuel fuel (n / 2) + 1

/-- Floor of the base-2 logarithm of `n` for `0 < n < 2 ^ 2 ^ j`, by binary search on the
exponent: `j` comparisons with powers of two. -/
def log2Search : ℕ → ℕ → ℕ
  | 0, _ => 0
  | j + 1, n =>
    if 2 ^ 2 ^ j ≤ n then 2 ^ j + log2Search j (n / 2 ^ 2 ^ j) else log2Search j n

/-- Floor of the base-2 logarithm of `n` (`0` for `n < 2`). -/
@[irreducible] def natLog2 (n : ℕ) : ℕ :=
  if n < 2 ^ 2 ^ 11 then log2Search 11 n else log2Fuel n n

/-- The power `2 ^ e` of two with an integer exponent, as a rational. -/
def pow2 (e : ℤ) : ℚ :=
  if 0 ≤ e then ((2 ^ e.toNat : ℕ) : ℚ) else 1 / ((2 ^ (-e).toNat : ℕ) : ℚ)

/-- Floor of the base-2 logarithm of `|x|` for a rational `x ≠ 0`: the exponent of the
binade `[2 ^ e, 2 ^ (e + 1))` that contains `|x|`. -/
def ilog2 (x : ℚ) : ℤ :=
  let n := x.num.natAbs
  let c : ℤ := (natLog2 n : ℤ) - (natLog2 x.den : ℤ)
  if x.den * 2 ^ c.toNat ≤ n * 2 ^ (-c).toNat then c else c - 1

/-- Round a rational to the nearest integer, ties to the even integer. -/
def roundHalfEven (x : ℚ) : ℤ :=
  let f := ⌊x⌋
  let r := x - f
  if r < 1 / 2 then f else if 1 / 2 < r then f + 1 else if f % 2 = 0 then f else f + 1

/-- Round the quotient `n / d` of an integer by a positive natural number to the nearest
integer, ties to the even integer, from the quotient and remainder of the division. -/
def roundDivHalfEven (n : ℤ) (d : ℕ) : ℤ :=
  let q := n / (d : ℤ)
  let r := n % (d : ℤ)
  if 2 * r < d then q else if (d : ℤ) < 2 * r then q + 1 else if q % 2 = 0 then q else q + 1

/-- Exponent of the unit in the last place of the binary64 binade of `x`:
53 significant bits, and never below `-1074` (the subnormal spacing). -/
def ulpExp (x : ℚ) : ℤ := max (ilog2 x - 52) (-1074)

/-- Round a rational to the nearest binary64 value, ties to even: with `e = ulpExp x`,
the integer nearest to `x / 2 ^ e` (ties to even) times `2 ^ e`. -/
@[irreducible] def fl (x : ℚ) : ℚ :=
  let e := ulpExp x
  if 0 ≤ e then
    ((roundDivHalfEven x.num (x.den * 2 ^ e.toNat) * 2 ^ e.toNat : ℤ) : ℚ)
  else
    mkRat (roundDivHalfEven (x.num * 2 ^ (-e).toNat) x.den) (2 ^ (-e).toNat)

/-- Binary64 addition `a + b`. -/
def fadd (a b : ℚ) : ℚ := fl (a + b)

/-- Binary64 subtraction `a - b`. -/
def fsub (a b : ℚ) : ℚ := fl (a - b)

/-- Binary64 multiplication `a * b`. -/
def fmul (a b : ℚ) : ℚ := fl (a * b)

/-- Binary64 division `a / b`. -/
def fdiv (a b : ℚ) : ℚ := fl (a / b)

/-- Conversion `static_cast<quint8>(x)` of a double: truncate toward zero, keep the low
eight bits. -/
def toQuint8 (x : ℚ) : ℕ :=
  ((if 0 ≤ x then ⌊x⌋ else -⌊-x⌋) % 256).toNat

/-! ## Free functions of window.cpp -/

/-- Width of the canvas (`constexpr int canvasWidth {512}`). -/
def canvasWidth : ℕ := 512

/-- Height of the canvas (`constexpr int canvasHeight {512}`). -/
def canvasHeight : ℕ := 512

/-- The function `clamp` of window.cpp: `std::max(std::min(v, max), min)`. -/
def clamp (v lo hi : ℚ) : ℚ := max (min v hi) lo

/-! ## Images -/

/-- A `QImage` in `Format_Grayscale8`. -/
structure QImage where
  /-- Number of pixels in a row. -/
  width : ℕ
  /-- Number of rows. -/
  height : ℕ
  /-- Number of bytes from one row to the next (`bytesPerLine()`). -/
  bytesPerLine : ℕ
  /-- The byte buffer, row after row. -/
  bits : List ℕ
deriving DecidableEq, Repr

/-- A well-formed image: rows are at least `width` bytes long and the buffer holds
`height` rows. -/
def QImage.WF (img : QImage) : Prop :=
  img.width ≤ img.bytesPerLine ∧ img.bits.length = img.bytesPerLine * img.height

instance (img : QImage) : Decidable img.WF := by
  unfold QImage.WF; infer_instance

/-- Offset of the first byte of row `y` (`scanLine(y)`). -/
def QImage.scanLine (img : QImage) (y : ℕ) : ℤ := (y : ℤ) * img.bytesPerLine

/-- Read the byte at a pointer (`*p`); `none` outside the buffer. -/
def QImage.read (img : QImage) (p : ℤ) : Option ℕ :=
  if 0 ≤ p then img.bits[p.toNat]? else none

/-- Write a byte through a pointer (`*p = v`); `none` outside the buffer. -/
def QImage.write (img : QImage) (p : ℤ) (v : ℕ) : Option QImage :=
  if 0 ≤ p ∧ p.toNat < img.bits.length then
    some { img with bits := img.bits.set p.toNat v }
  else none

/-- The byte of pixel `(x, y)`, `none` outside the buffer. -/
def QImage.pixel (img : QImage) (x y : ℕ) : Option ℕ :=
  img.bits[y * img.bytesPerLine + x]?

/-! ## The 3×3 sample window -/

/-- The nine samples around a pixel, named as in the source. -/
structure Window where
  /-- Top-left sample. -/
  tlv : ℚ
  /-- Top sample. -/
  tv : ℚ
  /-- Top-right sample. -/
  trv : ℚ
  /-- Left sample. -/
  lv : ℚ
  /-- Centre sample. -/
  cv : ℚ
  /-- Right sample. -/
  rv : ℚ
  /-- Bottom-left sample. -/
  blv : ℚ
  /-- Bottom sample. -/
  bv : ℚ
  /-- Bottom-right sample. -/
  brv : ℚ
deriving DecidableEq, Repr

/-- Every sample of the window is `0` or `1`. -/
def Window.Binary (w : Window) : Prop :=
  (w.tlv = 0 ∨ w.tlv = 1) ∧ (w.tv = 0 ∨ w.tv = 1) ∧ (w.trv = 0 ∨ w.trv = 1) ∧
  (w.lv = 0 ∨ w.lv = 1) ∧ (w.cv = 0 ∨ w.cv = 1) ∧ (w.rv = 0 ∨ w.rv = 1) ∧
  (w.blv = 0 ∨ w.blv = 1) ∧ (w.bv = 0 ∨ w.bv = 1) ∧ (w.brv = 0 ∨ w.brv = 1)

instance (w : Window) : Decidable w.Binary := by
  unfold Window.Binary; infer_instance

/-- The window whose nine samples all equal `a`. -/
def Window.const (a : ℚ) : Window := ⟨a, a, a, a, a, a, a, a, a⟩

/-- The conversion of the comparison `*p > 0` to `qreal`: `1.0` when the byte is
non-zero, `0.0` otherwise. -/
def gtZero (b : ℕ) : ℚ := if b > 0 then 1 else 0

/-- Mask sampling (`USE_BRUSH_MASK`, window.cpp lines 86-99) at the pixel `(x, y)`:
`src` is the value of the pointer `brushMask.scanLine(y) + 2` after the `x - 2`
increments `++src` the inner loop has made when it reaches column `x`. -/
def sampleMask (brushMask : QImage) (x y : ℕ) : Option Window := do
  let brushStride : ℤ := brushMask.bytesPerLine
  let src : ℤ := brushMask.scanLine y + 2 + ((x : ℤ) - 2)
  let tl ← brushMask.read (src - brushStride - 1)
  let t ← brushMask.read (src - brushStride)
  let tr ← brushMask.read (src - brushStride + 1)
  let l ← brushMask.read (src - 1)
  let c ← brushMask.read src
  let r ← brushMask.read (src + 1)
  let bl ← brushMask.read (src + brushStride - 1)
  let b ← brushMask.read (src + brushStride)
  let br ← brushMask.read (src + brushStride + 1)
  some ⟨gtZero tl, gtZero t, gtZero tr, gtZero l, gtZero c, gtZero r,
        gtZero bl, gtZero b, gtZero br⟩

/-! ## Contour estimator, alpha mapping, compositing -/

/-- The 3×3 blur of window.cpp lines 116-118, every product and every sum rounded to
binary64, the sum associated to the left as C++ evaluates it. -/
def estimate (w : Window) : ℚ :=
  fadd (fadd (fadd (fadd (fadd (fadd (fadd (fadd
    (fmul w.tlv 0.0625) (fmul w.tv 0.1250)) (fmul w.trv 0.0625))
    (fmul w.lv 0.1250)) (fmul w.cv 0.2500)) (fmul w.rv 0.1250))
    (fmul w.blv 0.0625)) (fmul w.bv 0.1250)) (fmul w.brv 0.0625)

/-- The two outline styles: `bw` is the build with `USE_BW_OUTLINE` defined (the
"black & white outline", Policy A of the specification), `normal` the build without it
(the "normal outline", Policy B). -/
inductive Outline where
  | bw
  | normal
deriving DecidableEq, Repr

/-- The alpha of the outline for the blurred value `v`: window.cpp line 146 (`bw`) and
line 174 (`normal`). -/
def alpha : Outline → ℚ → ℚ
  | .bw, v => min (fmul (fsub 1.0 |fsub (fmul 2.0 v) 1.0|) 2.0) 1.0
  | .normal, v => max (fsub 1.0 |fsub (fmul 4.0 v) 1.0|) 0.0

/-- The colour of the outline for the blurred value `v`: window.cpp line 150 (`bw`) and
line 177 (`normal`). -/
def srcColor : Outline → ℚ → ℚ
  | .bw, v => clamp (fsub (fmul v 1.5) 0.25) 0.0 1.0
  | .normal, _ => 0.0

/-- The linear interpolation of window.cpp lines 151-153 (and 178-180) for the byte `d`
read from `*dst`. -/
def blend (srcColor alpha : ℚ) (d : ℕ) : ℚ :=
  let dstColor := fdiv d 255.0
  fadd dstColor (fmul (fsub srcColor dstColor) alpha)

/-- The byte stored by `*dst = static_cast<quint8>(blend * 255.0)`. -/
def composite (srcColor alpha : ℚ) (d : ℕ) : ℕ :=
  toQuint8 (fmul (blend srcColor alpha d) 255.0)

/-- The value the loop body (window.cpp lines 116-184) leaves in `*dst` for the sample
window `w` when `*dst` held `d`: `d` itself when the body skips the pixel (`continue`,
or `alpha > 0.0` false), the composited byte otherwise. -/
def pixelValue (style : Outline) (w : Window) (d : ℕ) : ℕ :=
  let v := estimate w
  if v ≤ 0.0 ∨ v ≥ 1.0 then d
  else
    let a := alpha style v
    if a > 0.0 then composite (srcColor style v) a d else d

/-- One iteration of the inner loop at column `x` of row `y` (window.cpp lines 87-185):
`dst` is the value of the pointer `m_canvas.scanLine(y) + 2` after `x - 2` increments. -/
def pixelStep (style : Outline) (sampler : ℕ → ℕ → Option Window) (y : ℕ)
    (canvas : QImage) (x : ℕ) : Option QImage := do
  let dst : ℤ := canvas.scanLine y + 2 + ((x : ℤ) - 2)
  let w ← sampler x y
  let v := estimate w
  if v ≤ 0.0 ∨ v ≥ 1.0 then
    some canvas
  else
    let a := alpha style v
    if a > 0.0 then do
      let d ← canvas.read dst
      canvas.write dst (composite (srcColor style v) a d)
    else
      some canvas

/-- The loop `for (int i = lo; i < hi; ++i) s = body(s, i)`, stopping at the first
error. -/
def forRange {σ : Type} (lo hi : ℕ) (body : σ → ℕ → Option σ) (s : σ) : Option σ :=
  (List.range' lo (hi - lo)).foldlM body s

/-- The outline pass of `window::window` (window.cpp lines 82-186) over a canvas of any
size, for the outline style and the sampler the build selects. -/
def outlinePass (style : Outline) (sampler : ℕ → ℕ → Option Window)
    (canvas : QImage) : Option QImage :=
  forRange 2 (canvas.height - 2)
    (fun cv y => forRange 2 (canvas.width - 2) (fun cv' x => pixelStep style sampler y cv' x) cv)
    canvas

/-- The pixel `(x, y)` is one the two loops visit: `2 ≤ x < width - 2` and
`2 ≤ y < height - 2`. -/
def visited (canvas : QImage) (x y : ℕ) : Prop :=
  2 ≤ x ∧ x < canvas.width - 2 ∧ 2 ≤ y ∧ y < canvas.height - 2

instance (canvas : QImage) (x y : ℕ) : Decidable (visited canvas x y) := by
  unfold visited; infer_instance



/-- The state of the canvas `cur` in the middle of the pass over the canvas `c0`, when
exactly the pixels in `done` have been processed: same geometry, every processed pixel
holds `pixelValue` of the byte `c0` held there, every other byte is the one of `c0`. -/
def PassInv (style : Outline) (sampler : ℕ → ℕ → Option Window) (c0 : QImage)
    (done : ℕ → ℕ → Prop) (cur : QImage) : Prop :=
  cur.width = c0.width ∧ cur.height = c0.height ∧ cur.bytesPerLine = c0.bytesPerLine ∧
  cur.bits.length = c0.bits.length ∧
  ∀ x y, x < c0.bytesPerLine → y < c0.height →
    (done x y → ∃ w d, sampler x y = some w ∧ c0.pixel x y = some d ∧
      cur.pixel x y = some (pixelValue style w d)) ∧
    (¬ done x y → cur.pixel x y = c0.pixel x y)

/-! ## Small concrete images -/

/-- A 7×7 canvas (rows padded to 8 bytes) holding a vertical gradient: row `y` is filled
with `32 + 32 * y`. -/
def demoCanvas : QImage :=
  ⟨7, 7, 8, (List.range 7).flatMap fun y => List.replicate 8 (32 + 32 * y)⟩

/-- A 7×7 mask (rows padded to 8 bytes) whose two leftmost columns are inside the shape
(`255`) and whose other columns are outside (`0`). -/
def demoMask : QImage :=
  ⟨7, 7, 8, (List.range 7).flatMap fun _ => [255, 255, 0, 0, 0, 0, 0, 0]⟩

/-- A 7×7 mask (rows of exactly 7 bytes) with every pixel inside the shape. -/
def fullMask : QImage := ⟨7, 7, 7, List.replicate 49 255⟩

/-! ## The response curves as the specification writes them (exact arithmetic) -/

/-- Policy A alpha as the specification writes it, `min((1 − |2v − 1|)·2, 1)`, in exact
rational arithmetic (no rounding). -/
def specAlphaA (v : ℚ) : ℚ := min ((1 - |2 * v - 1|) * 2) 1

/-- Policy B alpha as the specification writes it, `max(1 − |4v − 1|, 0)`, in exact
rational arithmetic (no rounding). -/
def specAlphaB (v : ℚ) : ℚ := max (1 - |4 * v - 1|) 0

/-- Policy A source colour as the specification writes it, `clamp(v·1.5 − 0.25, 0, 1)`,
in exact rational arithmetic (no rounding). -/
def specSrcColorA (v : ℚ) : ℚ := clamp (v * 1.5 - 0.25) 0 1

/-! ## The analytic circle (the build without `USE_BRUSH_MASK`) -/

/-- A `QPointF`: a point with `qreal` coordinates. -/
structure QPointF where
  /-- Abscissa `x()`. -/
  x : ℚ
  /-- Ordinate `y()`. -/
  y : ℚ
deriving DecidableEq, Repr

/-- The struct `Circle` of window.cpp. -/
structure Circle where
  /-- Centre of the circle. -/
  center : QPointF
  /-- Radius of the circle. -/
  radius : ℚ
deriving DecidableEq, Repr

/-- Binary64 square root `std::sqrt(x)` of a positive value: the double nearest to the exact
root, ties to even.  With `e` the unit-in-the-last-place exponent of the root and
`z = x / 4 ^ e`, the result is `m · 2 ^ e` for the integer `m` nearest to `√z`, found from
the integer square root `f` of `⌊z⌋` by comparing `z` with `(f + 1/2)²`.  The root of `0`
is `0`; negative arguments (NaN in C++) are not modelled and give `0`. -/
def fsqrt (x : ℚ) : ℚ :=
  if x ≤ 0 then 0
  else
    let e : ℤ := max (ilog2 x / 2 - 52) (-1074)
    let z : ℚ := x / pow2 (2 * e)
    let f : ℕ := Nat.sqrt ⌊z⌋₊
    let m : ℕ :=
      if z < (f : ℚ) * f + f + 1 / 4 then f
      else if (f : ℚ) * f + f + 1 / 4 < z then f + 1
      else if f % 2 = 0 then f else f + 1
    (m : ℚ) * pow2 e

/-- The function `squaredDistanceToPoint` of window.cpp: `delta = p2 - p1`, then
`delta.x() * delta.x() + delta.y() * delta.y()`. -/
def squaredDistanceToPoint (p1 p2 : QPointF) : ℚ :=
  let delta : QPointF := ⟨fsub p2.x p1.x, fsub p2.y p1.y⟩
  fadd (fmul delta.x delta.x) (fmul delta.y delta.y)

/-- The function `distanceToPoint` of window.cpp. -/
def distanceToPoint (p1 p2 : QPointF) : ℚ :=
  fsqrt (squaredDistanceToPoint p1 p2)

/-- The function `isInsideCircle` of window.cpp. -/
def isInsideCircle (p : QPointF) (c : Circle) : Bool :=
  let distanceToCenter := distanceToPoint p c.center
  decide (distanceToCenter ≤ c.radius)

/-- The function `sampleCircleFunction` of window.cpp: the `bool` returned by
`isInsideCircle` converted to `qreal`. -/
def sampleCircleFunction (p : QPointF) (c : Circle) : ℚ :=
  if isInsideCircle p c then 1 else 0

/-- Circle sampling (window.cpp lines 101-111) at the pixel `(x, y)`: the circle function at
the centres of the nine pixels around it.  `x - 1` and `x + 1` are integer operations, the
addition of `0.5` is a binary64 addition. -/
def sampleCircle (c : Circle) (x y : ℕ) : Option Window :=
  let xm : ℚ := fadd (((x : ℤ) - 1 : ℤ) : ℚ) 0.5
  let x0 : ℚ := fadd (x : ℚ) 0.5
  let xp : ℚ := fadd (((x : ℤ) + 1 : ℤ) : ℚ) 0.5
  let ym : ℚ := fadd (((y : ℤ) - 1 : ℤ) : ℚ) 0.5
  let y0 : ℚ := fadd (y : ℚ) 0.5
  let yp : ℚ := fadd (((y : ℤ) + 1 : ℤ) : ℚ) 0.5
  some ⟨sampleCircleFunction ⟨xm, ym⟩ c, sampleCircleFunction ⟨x0, ym⟩ c,
        sampleCircleFunction ⟨xp, ym⟩ c, sampleCircleFunction ⟨xm, y0⟩ c,
        sampleCircleFunction ⟨x0, y0⟩ c, sampleCircleFunction ⟨xp, y0⟩ c,
        sampleCircleFunction ⟨xm, yp⟩ c, sampleCircleFunction ⟨x0, yp⟩ c,
        sampleCircleFunction ⟨xp, yp⟩ c⟩

/-- The circle of window.cpp line 79:
`Circle c {{canvasWidth / 2, canvasHeight / 2}, 100}` (integer divisions). -/
def windowCircle : Circle :=
  ⟨⟨((canvasWidth / 2 : ℕ) : ℚ), ((canvasHeight / 2 : ℕ) : ℚ)⟩, 100⟩

/-! ## The pass as a pointwise map, and in another order -/

/-- The loop body applied to the pixels of `order`, one after the other, stopping at the
first error: the pass with its pixels visited in the order of the list. -/
def passInOrder (style : Outline) (sampler : ℕ → ℕ → Option Window)
    (order : List (ℕ × ℕ)) (canvas : QImage) : Option QImage :=
  order.foldlM (fun cv p => pixelStep style sampler p.2 cv p.1) canvas

/-- The pass as a pointwise map over the pre-pass canvas: the byte at offset `i`, pixel
`(i % bytesPerLine, i / bytesPerLine)`, becomes `pixelValue` of itself and of the sample
window of that pixel when the pixel is one the loops visit, and is kept otherwise. -/
def pointwisePass (style : Outline) (sampler : ℕ → ℕ → Option Window)
    (canvas : QImage) : QImage :=
  { canvas with
    bits := canvas.bits.mapIdx fun i d =>
      let x := i % canvas.bytesPerLine
      let y := i / canvas.bytesPerLine
      if visited canvas x y then
        match sampler x y with
        | some w => pixelValue style w d
        | none => d
      else d }

/-- A 5×7 mask, narrower than the 7×7 demo canvas, in a buffer of 8 bytes per line.  Its
five pixels per row are `0`; the first padding byte of each row holds `255`. -/
def smallMask : QImage :=
  ⟨5, 7, 8, (List.range 7).flatMap fun _ => [0, 0, 0, 0, 0, 255, 0, 0]⟩

/-- The buffer of `smallMask` declared as an 8×7 mask. -/
def wideMask : QImage := { smallMask with width := 8 }

/-- The inner loop of the pass (window.cpp lines 87-185) for the row `y` of a canvas of the
given width. -/
def rowLoop (style : Outline) (sampler : ℕ → ℕ → Option Window) (width y : ℕ)
    (canvas : QImage) : Option QImage :=
  forRange 2 (width - 2) (fun cv x => pixelStep style sampler y cv x) canvas

/-- The inner loop run for the rows of `rows`, one row after the other in the order of the
list: the pass with its rows handed out in another order. -/
def passRows (style : Outline) (sampler : ℕ → ℕ → Option Window) (rows : List ℕ)
    (canvas : QImage) : Option QImage :=
  rows.foldlM (fun cv y => rowLoop style sampler canvas.width y cv) canvas

/-- A 7×7 mask, 8 bytes per line, whose only non-zero pixel is `(3, 3)`. -/
def dotMask : QImage :=
  ⟨7, 7, 8, (List.range 7).flatMap fun y =>
    (List.range 8).map fun x => if x = 3 ∧ y = 3 then 255 else 0⟩

/-- The circle of window.cpp as an exact predicate on pixels: `1` when the centre
`(n + 1/2, m + 1/2)` of the pixel `(n, m)` is at distance at most `100` from `(256, 256)`,
compared through the squares and without rounding; `0` otherwise. -/
def exactCircle (n m : ℤ) : ℚ :=
  if ((n : ℚ) + 1 / 2 - 256) ^ 2 + ((m : ℚ) + 1 / 2 - 256) ^ 2 ≤ 100 ^ 2 then 1 else 0

/-- A 512×512 canvas of the size of the window's canvas, every byte `128`. -/
def grayCanvas : QImage :=
  ⟨canvasWidth, canvasHeight, canvasWidth, List.replicate (canvasWidth * canvasHeight) 128⟩

/-! # Lemmas and theorems -/

theorem log2Fuel_spec (fuel n : ℕ) (hf : n ≤ fuel) (hn : n ≠ 0) :
    2 ^ log2Fuel fuel n ≤ n ∧ n < 2 ^ (log2Fuel fuel n + 1) := by
  induction fuel generalizing n with
  | zero => omega
  | succ f ih =>
    unfold log2Fuel
    split_ifs with h
    · constructor <;> simp <;> omega
    · have h2 : n / 2 ≤ f := by omega
      have h3 : n / 2 ≠ 0 := by omega
      obtain ⟨h4, h5⟩ := ih (n / 2) h2 h3
      constructor
      · rw [pow_succ]; omega
      · rw [pow_succ]; omega

theorem log2Search_spec (j n : ℕ) (hlt : n < 2 ^ 2 ^ j) (hn : n ≠ 0) :
    2 ^ log2Search j n ≤ n ∧ n < 2 ^ (log2Search j n + 1) := by
  induction j generalizing n with
  | zero =>
    unfold log2Search
    simp at hlt ⊢
    omega
  | succ j ih =>
    unfold log2Search
    have hpos : 0 < 2 ^ 2 ^ j := by positivity
    split_ifs with h
    · have h1 : n / 2 ^ 2 ^ j < 2 ^ 2 ^ j := by
        rw [Nat.div_lt_iff_lt_mul hpos]
        calc n < 2 ^ 2 ^ (j + 1) := hlt
          _ = 2 ^ 2 ^ j * 2 ^ 2 ^ j := by rw [← pow_add, pow_succ]; congr 1; omega
      have h2 : n / 2 ^ 2 ^ j ≠ 0 := by
        have := Nat.div_pos h hpos
        omega
      obtain ⟨a, b⟩ := ih _ h1 h2
      constructor
      · rw [pow_add]
        calc 2 ^ 2 ^ j * 2 ^ log2Search j (n / 2 ^ 2 ^ j)
            ≤ 2 ^ 2 ^ j * (n / 2 ^ 2 ^ j) := Nat.mul_le_mul_left _ a
          _ ≤ n := Nat.mul_div_le n _
      · rw [add_assoc, pow_add]
        have := Nat.lt_mul_of_div_lt b hpos
        rw [Nat.mul_comm]
        exact this
    · exact ih n (by omega) hn

theorem natLog2_spec (n : ℕ) (hn : n ≠ 0) :
    2 ^ natLog2 n ≤ n ∧ n < 2 ^ (natLog2 n + 1) := by
  unfold natLog2
  split_ifs with h
  · exact log2Search_spec 11 n h hn
  · exact log2Fuel_spec n n le_rfl hn

theorem pow2_eq (e : ℤ) : pow2 e = (2 : ℚ) ^ e := by
  unfold pow2
  split_ifs with h
  · conv_rhs => rw [← Int.toNat_of_nonneg h]
    rw [zpow_natCast]; push_cast; rfl
  · have h' : 0 ≤ -e := by omega
    have : e = -((-e).toNat : ℤ) := by rw [Int.toNat_of_nonneg h']; ring
    conv_rhs => rw [this]
    rw [zpow_neg, zpow_natCast]; push_cast; simp

theorem pow2_pos (e : ℤ) : 0 < pow2 e := by
  rw [pow2_eq]; positivity

theorem abs_eq_natAbs_div_den (x : ℚ) : |x| = (x.num.natAbs : ℚ) / (x.den : ℚ) := by
  conv_lhs => rw [← Rat.num_div_den x]
  rw [abs_div, Nat.abs_cast, Nat.cast_natAbs, Int.cast_abs]

theorem ilog2_spec (x : ℚ) (hx : x ≠ 0) :
    (2 : ℚ) ^ ilog2 x ≤ |x| ∧ |x| < (2 : ℚ) ^ (ilog2 x + 1) := by
  have hn : x.num.natAbs ≠ 0 := by
    simpa using hx
  have hd : x.den ≠ 0 := x.den_nz
  obtain ⟨a1, a2⟩ := natLog2_spec _ hn
  obtain ⟨b1, b2⟩ := natLog2_spec _ hd
  have a1' : (2 : ℚ) ^ (natLog2 x.num.natAbs : ℤ) ≤ (x.num.natAbs : ℚ) := by
    rw [zpow_natCast]; exact_mod_cast a1
  have a2' : (x.num.natAbs : ℚ) < (2 : ℚ) ^ ((natLog2 x.num.natAbs : ℤ) + 1) := by
    have : ((natLog2 x.num.natAbs : ℤ) + 1) = ((natLog2 x.num.natAbs + 1 : ℕ) : ℤ) := by
      push_cast; ring
    rw [this, zpow_natCast]; exact_mod_cast a2
  have b1' : (2 : ℚ) ^ (natLog2 x.den : ℤ) ≤ (x.den : ℚ) := by
    rw [zpow_natCast]; exact_mod_cast b1
  have b2' : (x.den : ℚ) < (2 : ℚ) ^ ((natLog2 x.den : ℤ) + 1) := by
    have : ((natLog2 x.den : ℤ) + 1) = ((natLog2 x.den + 1 : ℕ) : ℤ) := by
      push_cast; ring
    rw [this, zpow_natCast]; exact_mod_cast b2
  have hdpos : (0 : ℚ) < x.den := by exact_mod_cast Nat.pos_of_ne_zero hd
  set a : ℤ := (natLog2 x.num.natAbs : ℤ) with ha
  set b : ℤ := (natLog2 x.den : ℤ) with hb
  have two_ne : (2 : ℚ) ≠ 0 := by norm_num
  -- the comparison made by `ilog2` is `2 ^ (a - b) ≤ |x|`
  have htest : (x.den * 2 ^ (a - b).toNat ≤ x.num.natAbs * 2 ^ (-(a - b)).toNat) ↔
      (2 : ℚ) ^ (a - b) ≤ |x| := by
    rw [abs_eq_natAbs_div_den, le_div_iff₀ hdpos]
    have key : (2 : ℚ) ^ (a - b) = pow2 (a - b) := (pow2_eq _).symm
    rw [key]; unfold pow2
    split_ifs with h
    · have h0 : (-(a - b)).toNat = 0 := by
        apply Int.toNat_eq_zero.mpr; omega
      rw [h0, pow_zero, mul_one]
      constructor
      · intro hh
        have : ((x.den * 2 ^ (a - b).toNat : ℕ) : ℚ) ≤ (x.num.natAbs : ℚ) := by exact_mod_cast hh
        push_cast at this ⊢; linarith
      · intro hh
        have : ((x.den * 2 ^ (a - b).toNat : ℕ) : ℚ) ≤ (x.num.natAbs : ℚ) := by
          push_cast at hh ⊢; linarith
        exact_mod_cast this
    · have h0 : (a - b).toNat = 0 := by
        apply Int.toNat_eq_zero.mpr; omega
      rw [h0, pow_zero, mul_one]
      have hp : (0 : ℚ) < ((2 ^ (-(a - b)).toNat : ℕ) : ℚ) := by positivity
      rw [div_mul_eq_mul_div, div_le_iff₀ hp, one_mul]
      constructor
      · intro hh
        exact_mod_cast hh
      · intro hh
        exact_mod_cast hh
  have hxabs : |x| = (x.num.natAbs : ℚ) / (x.den : ℚ) := abs_eq_natAbs_div_den x
  have hbpos : (0 : ℚ) < (2 : ℚ) ^ b := by positivity
  have hb1pos : (0 : ℚ) < (2 : ℚ) ^ (b + 1) := by positivity
  unfold ilog2
  simp only
  rw [← ha, ← hb]
  split_ifs with h
  · refine ⟨htest.mp h, ?_⟩
    rw [hxabs, div_lt_iff₀ hdpos]
    calc (x.num.natAbs : ℚ) < (2 : ℚ) ^ (a + 1) := a2'
      _ = (2 : ℚ) ^ (a - b + 1) * (2 : ℚ) ^ b := by
          rw [← zpow_add₀ two_ne]; congr 1; ring
      _ ≤ (2 : ℚ) ^ (a - b + 1) * x.den := by
          apply mul_le_mul_of_nonneg_left b1'; positivity
  · have hlt : |x| < (2 : ℚ) ^ (a - b) := by
      by_contra hc
      exact h (htest.mpr (not_lt.mp hc))
    constructor
    · rw [hxabs, le_div_iff₀ hdpos]
      calc (2 : ℚ) ^ (a - b - 1) * x.den ≤ (2 : ℚ) ^ (a - b - 1) * (2 : ℚ) ^ (b + 1) := by
            apply mul_le_mul_of_nonneg_left b2'.le; positivity
        _ = (2 : ℚ) ^ a := by
            rw [← zpow_add₀ two_ne]; congr 1; ring
        _ ≤ x.num.natAbs := a1'
    · have : a - b - 1 + 1 = a - b := by ring
      rw [this]; exact hlt


theorem roundHalfEven_bounds (x : ℚ) :
    (⌊x⌋ : ℤ) ≤ roundHalfEven x ∧ roundHalfEven x ≤ ⌊x⌋ + 1 := by
  unfold roundHalfEven
  simp only
  split_ifs <;> constructor <;> omega

theorem roundHalfEven_intCast (z : ℤ) : roundHalfEven (z : ℚ) = z := by
  unfold roundHalfEven
  simp

theorem roundHalfEven_mono {x y : ℚ} (h : x ≤ y) : roundHalfEven x ≤ roundHalfEven y := by
  have hf : ⌊x⌋ ≤ ⌊y⌋ := Int.floor_mono h
  rcases hf.lt_or_eq with hlt | heq
  · have := (roundHalfEven_bounds x).2
    have := (roundHalfEven_bounds y).1
    omega
  · unfold roundHalfEven
    simp only
    rw [← heq]
    have hxy : x - (⌊x⌋ : ℚ) ≤ y - (⌊x⌋ : ℚ) := by linarith
    split_ifs <;> first | omega | (exfalso; linarith)

theorem roundHalfEven_nonneg {x : ℚ} (h : 0 ≤ x) : 0 ≤ roundHalfEven x := by
  have := roundHalfEven_mono h
  rwa [show ((0 : ℚ)) = ((0 : ℤ) : ℚ) by simp, roundHalfEven_intCast] at this

theorem roundHalfEven_nonpos {x : ℚ} (h : x ≤ 0) : roundHalfEven x ≤ 0 := by
  have := roundHalfEven_mono h
  rwa [show ((0 : ℚ)) = ((0 : ℤ) : ℚ) by simp, roundHalfEven_intCast] at this

theorem roundHalfEven_neg (x : ℚ) : roundHalfEven (-x) = -roundHalfEven x := by
  by_cases hx : (⌊x⌋ : ℚ) = x
  · rw [← hx, ← Int.cast_neg, roundHalfEven_intCast, roundHalfEven_intCast]
  · have h1 : (⌊x⌋ : ℚ) < x := lt_of_le_of_ne (Int.floor_le x) hx
    have h2 : x < (⌊x⌋ : ℚ) + 1 := Int.lt_floor_add_one x
    have hfl : ⌊-x⌋ = -⌊x⌋ - 1 := by
      rw [Int.floor_eq_iff]
      push_cast
      constructor <;> linarith
    unfold roundHalfEven
    simp only
    rw [hfl]
    push_cast
    split_ifs <;> first | omega | (exfalso; linarith)


theorem ilog2_neg (x : ℚ) : ilog2 (-x) = ilog2 x := by
  unfold ilog2
  simp only [Rat.neg_num, Rat.neg_den, Int.natAbs_neg]

theorem ulpExp_neg (x : ℚ) : ulpExp (-x) = ulpExp x := by
  unfold ulpExp; rw [ilog2_neg]

theorem roundDivHalfEven_eq (n : ℤ) (d : ℕ) (hd : 0 < d) :
    roundDivHalfEven n d = roundHalfEven ((n : ℚ) / (d : ℚ)) := by
  have hdq : (0 : ℚ) < (d : ℚ) := by exact_mod_cast hd
  have hfloor : ⌊((n : ℚ) / (d : ℚ))⌋ = n / (d : ℤ) := Rat.floor_intCast_div_natCast n d
  have hfrac : (n : ℚ) / (d : ℚ) - ((n / (d : ℤ) : ℤ) : ℚ) = ((n % (d : ℤ) : ℤ) : ℚ) / (d : ℚ) := by
    have h := Int.emod_add_ediv n (d : ℤ)
    have h' : (n : ℚ) = ((n % (d : ℤ) : ℤ) : ℚ) + (d : ℚ) * ((n / (d : ℤ) : ℤ) : ℚ) := by
      exact_mod_cast h.symm
    field_simp
    linarith
  have c1 : ((n % (d : ℤ) : ℤ) : ℚ) / (d : ℚ) < 1 / 2 ↔ 2 * (n % (d : ℤ)) < (d : ℤ) := by
    rw [div_lt_div_iff₀ hdq (by norm_num : (0 : ℚ) < 2)]
    constructor
    · intro h
      have : ((2 * (n % (d : ℤ)) : ℤ) : ℚ) < ((d : ℤ) : ℚ) := by push_cast; linarith
      exact_mod_cast this
    · intro h
      have : ((2 * (n % (d : ℤ)) : ℤ) : ℚ) < ((d : ℤ) : ℚ) := by exact_mod_cast h
      push_cast at this; linarith
  have c2 : 1 / 2 < ((n % (d : ℤ) : ℤ) : ℚ) / (d : ℚ) ↔ (d : ℤ) < 2 * (n % (d : ℤ)) := by
    rw [div_lt_div_iff₀ (by norm_num : (0 : ℚ) < 2) hdq]
    constructor
    · intro h
      have : ((d : ℤ) : ℚ) < ((2 * (n % (d : ℤ)) : ℤ) : ℚ) := by push_cast; linarith
      exact_mod_cast this
    · intro h
      have : ((d : ℤ) : ℚ) < ((2 * (n % (d : ℤ)) : ℤ) : ℚ) := by exact_mod_cast h
      push_cast at this; linarith
  unfold roundDivHalfEven roundHalfEven
  simp only [hfloor, hfrac, c1, c2]

theorem num_div_den_mul (x : ℚ) (k : ℕ) :
    (x.num : ℚ) / ((x.den * k : ℕ) : ℚ) = x / (k : ℚ) := by
  have h := Rat.num_div_den x
  push_cast
  rw [← div_div, h]

theorem num_mul_div_den (x : ℚ) (k : ℕ) :
    ((x.num * (k : ℤ) : ℤ) : ℚ) / (x.den : ℚ) = x / (1 / (k : ℚ)) := by
  have h := Rat.num_div_den x
  push_cast
  rw [div_div_eq_mul_div, div_one, mul_div_right_comm, h]

/-- The rounding `fl` in terms of the scaled mantissa: the integer nearest to
`x / 2 ^ ulpExp x`, times `2 ^ ulpExp x`. -/
theorem fl_def (x : ℚ) :
    fl x = (roundHalfEven (x / pow2 (ulpExp x)) : ℚ) * pow2 (ulpExp x) := by
  have hden : (0 : ℚ) < (x.den : ℚ) := by exact_mod_cast x.den_pos
  unfold fl
  simp only
  split_ifs with h
  · have hp : pow2 (ulpExp x) = ((2 ^ (ulpExp x).toNat : ℕ) : ℚ) := by
      unfold pow2; rw [if_pos h]
    have hk : 0 < x.den * 2 ^ (ulpExp x).toNat := by
      have := x.den_pos
      positivity
    rw [roundDivHalfEven_eq _ _ hk, hp]
    have hx := num_div_den_mul x (2 ^ (ulpExp x).toNat)
    rw [hx]
    push_cast
    ring
  · have hp : pow2 (ulpExp x) = 1 / ((2 ^ (-ulpExp x).toNat : ℕ) : ℚ) := by
      unfold pow2; rw [if_neg h]
    rw [roundDivHalfEven_eq _ _ x.den_pos, hp, Rat.mkRat_eq_div]
    have hx : ((x.num * 2 ^ (-ulpExp x).toNat : ℤ) : ℚ) / (x.den : ℚ) =
        x / (1 / ((2 ^ (-ulpExp x).toNat : ℕ) : ℚ)) := by
      have := num_mul_div_den x (2 ^ (-ulpExp x).toNat)
      push_cast at this ⊢
      exact this
    rw [hx]
    push_cast
    ring

theorem fl_neg (x : ℚ) : fl (-x) = -fl x := by
  rw [fl_def, fl_def, ulpExp_neg, neg_div, roundHalfEven_neg]
  push_cast; ring

theorem fl_zero : fl 0 = 0 := by
  rw [fl_def, zero_div, show ((0 : ℚ)) = ((0 : ℤ) : ℚ) by simp, roundHalfEven_intCast]
  simp

theorem fl_nonneg {x : ℚ} (h : 0 ≤ x) : 0 ≤ fl x := by
  rw [fl_def]
  have hp := pow2_pos (ulpExp x)
  have : 0 ≤ roundHalfEven (x / pow2 (ulpExp x)) :=
    roundHalfEven_nonneg (div_nonneg h hp.le)
  have : (0 : ℚ) ≤ (roundHalfEven (x / pow2 (ulpExp x)) : ℚ) := by exact_mod_cast this
  positivity

theorem fl_nonpos {x : ℚ} (h : x ≤ 0) : fl x ≤ 0 := by
  have := fl_nonneg (neg_nonneg.mpr h)
  rw [fl_neg] at this
  linarith

theorem ilog2_mono {x y : ℚ} (hx : x ≠ 0) (hy : y ≠ 0) (h : |x| ≤ |y|) :
    ilog2 x ≤ ilog2 y := by
  by_contra hc
  have hc' : ilog2 y + 1 ≤ ilog2 x := by omega
  have h1 := (ilog2_spec y hy).2
  have h2 := (ilog2_spec x hx).1
  have h3 : (2 : ℚ) ^ (ilog2 y + 1) ≤ (2 : ℚ) ^ ilog2 x :=
    zpow_le_zpow_right₀ (by norm_num) hc'
  linarith

theorem ulpExp_mono {x y : ℚ} (hx : x ≠ 0) (hy : y ≠ 0) (h : |x| ≤ |y|) :
    ulpExp x ≤ ulpExp y := by
  unfold ulpExp
  have := ilog2_mono hx hy h
  omega

theorem fl_mono_pos {x y : ℚ} (hx : 0 < x) (h : x ≤ y) : fl x ≤ fl y := by
  have hy : 0 < y := lt_of_lt_of_le hx h
  have hE : ulpExp x ≤ ulpExp y :=
    ulpExp_mono hx.ne' hy.ne' (by rw [abs_of_pos hx, abs_of_pos hy]; exact h)
  have two_ne : (2 : ℚ) ≠ 0 := by norm_num
  rcases hE.eq_or_lt with heq | hlt
  · rw [fl_def, fl_def, ← heq]
    have hp := pow2_pos (ulpExp x)
    have : roundHalfEven (x / pow2 (ulpExp x)) ≤ roundHalfEven (y / pow2 (ulpExp x)) :=
      roundHalfEven_mono (div_le_div_of_nonneg_right h hp.le)
    have : (roundHalfEven (x / pow2 (ulpExp x)) : ℚ) ≤ roundHalfEven (y / pow2 (ulpExp x)) := by
      exact_mod_cast this
    exact mul_le_mul_of_nonneg_right this hp.le
  · -- `x` and `y` lie in different binades, separated by a power of two
    have hpx := pow2_pos (ulpExp x)
    have hpy := pow2_pos (ulpExp y)
    have hx1 : x / pow2 (ulpExp x) ≤ (((2 : ℤ) ^ 53 : ℤ) : ℚ) := by
      rw [div_le_iff₀ hpx, pow2_eq]
      have h1 := (ilog2_spec x hx.ne').2
      rw [abs_of_pos hx] at h1
      have h2 : ilog2 x + 1 ≤ ulpExp x + 53 := by unfold ulpExp; omega
      have h3 : (2 : ℚ) ^ (ilog2 x + 1) ≤ (2 : ℚ) ^ (ulpExp x + 53) :=
        zpow_le_zpow_right₀ (by norm_num) h2
      have h4 : (2 : ℚ) ^ (ulpExp x + 53) = (((2 : ℤ) ^ 53 : ℤ) : ℚ) * (2 : ℚ) ^ ulpExp x := by
        rw [zpow_add₀ two_ne]; push_cast
        rw [mul_comm]; norm_cast
      linarith
    have hx2 : fl x ≤ (((2 : ℤ) ^ 53 : ℤ) : ℚ) * pow2 (ulpExp x) := by
      rw [fl_def]
      have := roundHalfEven_mono hx1
      rw [roundHalfEven_intCast] at this
      have : (roundHalfEven (x / pow2 (ulpExp x)) : ℚ) ≤ (((2 : ℤ) ^ 53 : ℤ) : ℚ) := by
        exact_mod_cast this
      exact mul_le_mul_of_nonneg_right this hpx.le
    have hEy : ulpExp y = ilog2 y - 52 := by
      have : -1074 ≤ ulpExp x := by unfold ulpExp; omega
      unfold ulpExp at hlt ⊢
      omega
    have hy1 : (((2 : ℤ) ^ 52 : ℤ) : ℚ) ≤ y / pow2 (ulpExp y) := by
      rw [le_div_iff₀ hpy, pow2_eq]
      have h1 := (ilog2_spec y hy.ne').1
      rw [abs_of_pos hy] at h1
      have h4 : (2 : ℚ) ^ ilog2 y = (((2 : ℤ) ^ 52 : ℤ) : ℚ) * (2 : ℚ) ^ ulpExp y := by
        rw [hEy, show ilog2 y = (ilog2 y - 52) + 52 by ring, zpow_add₀ two_ne]
        push_cast
        rw [mul_comm]
        simp only [add_sub_cancel_right]
        norm_cast
      linarith
    have hy2 : (((2 : ℤ) ^ 52 : ℤ) : ℚ) * pow2 (ulpExp y) ≤ fl y := by
      rw [fl_def]
      have := roundHalfEven_mono hy1
      rw [roundHalfEven_intCast] at this
      have : (((2 : ℤ) ^ 52 : ℤ) : ℚ) ≤ (roundHalfEven (y / pow2 (ulpExp y)) : ℚ) := by
        exact_mod_cast this
      exact mul_le_mul_of_nonneg_right this hpy.le
    have hstep : (((2 : ℤ) ^ 53 : ℤ) : ℚ) * pow2 (ulpExp x) ≤
        (((2 : ℤ) ^ 52 : ℤ) : ℚ) * pow2 (ulpExp y) := by
      have h5 : (2 : ℚ) ^ (ulpExp x + 1) ≤ (2 : ℚ) ^ ulpExp y :=
        zpow_le_zpow_right₀ (by norm_num) (by omega)
      rw [zpow_add₀ two_ne, zpow_one] at h5
      rw [pow2_eq, pow2_eq]
      have h6 : (((2 : ℤ) ^ 53 : ℤ) : ℚ) = (((2 : ℤ) ^ 52 : ℤ) : ℚ) * 2 := by norm_num
      rw [h6, mul_assoc]
      apply mul_le_mul_of_nonneg_left _ (by positivity)
      linarith
    linarith

theorem fl_mono {x y : ℚ} (h : x ≤ y) : fl x ≤ fl y := by
  rcases lt_or_le 0 x with hx | hx
  · exact fl_mono_pos hx h
  · rcases le_or_lt 0 y with hy | hy
    · exact le_trans (fl_nonpos hx) (fl_nonneg hy)
    · have := fl_mono_pos (neg_pos.mpr hy) (neg_le_neg h)
      rw [fl_neg, fl_neg] at this
      linarith


/-! ## The loops -/

theorem foldlM_range'_inv {σ : Type} (P : ℕ → σ → Prop) (body : σ → ℕ → Option σ) :
    ∀ (n lo : ℕ) (s : σ), P lo s →
      (∀ i s, lo ≤ i → i < lo + n → P i s → ∃ s', body s i = some s' ∧ P (i + 1) s') →
      ∃ s', (List.range' lo n).foldlM body s = some s' ∧ P (lo + n) s' := by
  intro n
  induction n with
  | zero =>
    intro lo s h0 _
    exact ⟨s, by simp [List.range'], by simpa using h0⟩
  | succ k ih =>
    intro lo s h0 hstep
    obtain ⟨s1, hs1, hP1⟩ := hstep lo s le_rfl (by omega) h0
    obtain ⟨s2, hs2, hP2⟩ := ih (lo + 1) s1 hP1 (fun i t hi1 hi2 hPi =>
      hstep i t (by omega) (by omega) hPi)
    refine ⟨s2, ?_, ?_⟩
    · rw [List.range'_succ, List.foldlM_cons, hs1]
      exact hs2
    · have : lo + (k + 1) = lo + 1 + k := by omega
      rw [this]; exact hP2

theorem forRange_inv {σ : Type} (P : ℕ → σ → Prop) (lo hi : ℕ) (body : σ → ℕ → Option σ)
    (s : σ) (h0 : P lo s)
    (hstep : ∀ i s, lo ≤ i → i < hi → P i s → ∃ s', body s i = some s' ∧ P (i + 1) s') :
    ∃ s', forRange lo hi body s = some s' ∧ P (max lo hi) s' := by
  unfold forRange
  obtain ⟨s', h1, h2⟩ := foldlM_range'_inv P body (hi - lo) lo s h0
    (fun i t hi1 hi2 hPi => hstep i t hi1 (by omega) hPi)
  refine ⟨s', h1, ?_⟩
  have : max lo hi = lo + (hi - lo) := by omega
  rw [this]; exact h2

theorem set_of_getElem? {l : List ℕ} {i d : ℕ} (h : l[i]? = some d) : l.set i d = l := by
  apply List.ext_getElem?
  intro n
  rw [List.getElem?_set]
  split_ifs with h1 h2
  · subst h1; exact h.symm
  · subst h1
    rw [List.getElem?_eq_none (by omega)]
  · rfl

/-- What one iteration of the inner loop does to the canvas: the byte of the pixel becomes
`pixelValue` of the byte it held, nothing else changes. -/
theorem pixelStep_spec (style : Outline) (sampler : ℕ → ℕ → Option Window) (x y : ℕ)
    (cur : QImage) (w : Window) (d : ℕ) (hw : sampler x y = some w)
    (hd : cur.pixel x y = some d) :
    pixelStep style sampler y cur x =
      some { cur with bits := cur.bits.set (y * cur.bytesPerLine + x) (pixelValue style w d) } := by
  have hdst : cur.scanLine y + 2 + ((x : ℤ) - 2) = ((y * cur.bytesPerLine + x : ℕ) : ℤ) := by
    unfold QImage.scanLine; push_cast; ring
  unfold QImage.pixel at hd
  have hlen : y * cur.bytesPerLine + x < cur.bits.length := by
    by_contra hc
    rw [List.getElem?_eq_none (by omega)] at hd
    exact Option.noConfusion hd
  have hself : cur = { cur with bits := cur.bits.set (y * cur.bytesPerLine + x) d } := by
    rw [set_of_getElem? hd]
  unfold pixelStep pixelValue
  simp only [hw, hdst, Option.bind_eq_bind, Option.some_bind, Option.pure_def]
  split_ifs with h1 h2
  · exact congrArg some hself
  · unfold QImage.read QImage.write
    simp only [Int.toNat_ofNat, Int.ofNat_nonneg, if_true, hd, Option.some_bind, hlen, and_self]
  · exact congrArg some hself


theorem offset_inj {s x y x' y' : ℕ} (hx : x < s) (hx' : x' < s) :
    y' * s + x' = y * s + x ↔ x' = x ∧ y' = y := by
  constructor
  · intro h
    rcases lt_trichotomy y y' with hlt | heq | hgt
    · exfalso
      have := Nat.mul_le_mul_right s (show y + 1 ≤ y' from hlt)
      rw [Nat.add_mul, Nat.one_mul] at this
      linarith
    · subst heq; exact ⟨by omega, rfl⟩
    · exfalso
      have := Nat.mul_le_mul_right s (show y' + 1 ≤ y from hgt)
      rw [Nat.add_mul, Nat.one_mul] at this
      linarith
  · rintro ⟨rfl, rfl⟩; rfl

theorem pixel_some_of_lt (img : QImage) (hwf : img.WF) {x y : ℕ} (hx : x < img.bytesPerLine)
    (hy : y < img.height) : ∃ d, img.pixel x y = some d := by
  unfold QImage.pixel
  have hlen : y * img.bytesPerLine + x < img.bits.length := by
    rw [hwf.2]
    have := Nat.mul_le_mul_right img.bytesPerLine (show y + 1 ≤ img.height from hy)
    rw [Nat.add_mul, Nat.one_mul] at this
    rw [Nat.mul_comm img.bytesPerLine img.height]
    linarith
  exact ⟨img.bits[y * img.bytesPerLine + x], List.getElem?_eq_getElem hlen⟩

theorem PassInv_step (style : Outline) (sampler : ℕ → ℕ → Option Window) (c0 : QImage)
    (hwf : c0.WF) (done : ℕ → ℕ → Prop) (cur : QImage) (x y : ℕ) (w : Window)
    (hinv : PassInv style sampler c0 done cur) (hx : x < c0.bytesPerLine) (hy : y < c0.height)
    (hnd : ¬ done x y) (hw : sampler x y = some w) :
    ∃ cur', pixelStep style sampler y cur x = some cur' ∧
      PassInv style sampler c0 (fun x' y' => done x' y' ∨ (x' = x ∧ y' = y)) cur' := by
  obtain ⟨h1, h2, h3, h4, h5⟩ := hinv
  obtain ⟨d, hd⟩ := pixel_some_of_lt c0 hwf hx hy
  have hcur : cur.pixel x y = some d := by rw [(h5 x y hx hy).2 hnd, hd]
  refine ⟨_, pixelStep_spec style sampler x y cur w d hw hcur, h1, h2, h3, ?_, ?_⟩
  · simp [h4]
  · intro x' y' hx' hy'
    have hlen : y * cur.bytesPerLine + x < cur.bits.length := by
      unfold QImage.pixel at hcur
      by_contra hc
      rw [List.getElem?_eq_none (by omega)] at hcur
      exact Option.noConfusion hcur
    by_cases heq : x' = x ∧ y' = y
    · obtain ⟨rfl, rfl⟩ := heq
      constructor
      · intro _
        refine ⟨w, d, hw, hd, ?_⟩
        unfold QImage.pixel
        simp only
        rw [List.getElem?_set_self hlen]
      · intro hc
        exact absurd (Or.inr ⟨rfl, rfl⟩) hc
    · have hne : y * cur.bytesPerLine + x ≠ y' * cur.bytesPerLine + x' := by
        intro hc
        rw [h3] at hc
        exact heq ((offset_inj hx hx').mp hc.symm)
      have hpix : QImage.pixel
          { cur with bits := cur.bits.set (y * cur.bytesPerLine + x) (pixelValue style w d) }
          x' y' = cur.pixel x' y' := by
        unfold QImage.pixel
        simp only
        rw [List.getElem?_set_ne hne]
      rw [hpix]
      constructor
      · intro hdone
        rcases hdone with hdone | hdone
        · exact (h5 x' y' hx' hy').1 hdone
        · exact absurd hdone heq
      · intro hdone
        exact (h5 x' y' hx' hy').2 (fun hc => hdone (Or.inl hc))

theorem PassInv_congr (style : Outline) (sampler : ℕ → ℕ → Option Window) (c0 : QImage)
    (done done' : ℕ → ℕ → Prop) (cur : QImage) (h : ∀ x y, done x y ↔ done' x y)
    (hinv : PassInv style sampler c0 done cur) : PassInv style sampler c0 done' cur := by
  have : done = done' := funext fun x => funext fun y => propext (h x y)
  rw [← this]; exact hinv

/-- The pass, pixel by pixel: when the sampler succeeds at every visited pixel, the pass
over a well-formed canvas returns a canvas in which every visited pixel holds
`pixelValue` of its pre-pass byte and every other byte is untouched. -/
theorem outlinePass_spec (style : Outline) (sampler : ℕ → ℕ → Option Window) (c0 : QImage)
    (hwf : c0.WF)
    (hs : ∀ x y, visited c0 x y → ∃ w, sampler x y = some w) :
    ∃ c', outlinePass style sampler c0 = some c' ∧
      PassInv style sampler c0 (visited c0) c' := by
  -- one row: the inner loop processes the pixels `2 ≤ x < width - 2` of row `y`
  have hrow : ∀ y cur, 2 ≤ y → y < c0.height - 2 →
      PassInv style sampler c0 (fun x' y' => 2 ≤ x' ∧ x' < c0.width - 2 ∧ 2 ≤ y' ∧ y' < y) cur →
      ∃ cur', forRange 2 (c0.width - 2) (fun cv' x => pixelStep style sampler y cv' x) cur
          = some cur' ∧
        PassInv style sampler c0
          (fun x' y' => 2 ≤ x' ∧ x' < c0.width - 2 ∧ 2 ≤ y' ∧ y' < y + 1) cur' := by
    intro y cur hy1 hy2 hinv
    have h0 : PassInv style sampler c0
        (fun x' y' => 2 ≤ x' ∧ x' < c0.width - 2 ∧ ((2 ≤ y' ∧ y' < y) ∨ (y' = y ∧ x' < 2)))
        cur := by
      apply PassInv_congr _ _ _ _ _ _ _ hinv
      intro x' y'
      constructor
      · rintro ⟨a, b, c, d⟩; exact ⟨a, b, Or.inl ⟨c, d⟩⟩
      · rintro ⟨a, b, c | c⟩
        · exact ⟨a, b, c.1, c.2⟩
        · omega
    have hstep : ∀ x cur', 2 ≤ x → x < c0.width - 2 →
        PassInv style sampler c0
          (fun x' y' => 2 ≤ x' ∧ x' < c0.width - 2 ∧ ((2 ≤ y' ∧ y' < y) ∨ (y' = y ∧ x' < x)))
          cur' →
        ∃ s', pixelStep style sampler y cur' x = some s' ∧
          PassInv style sampler c0
            (fun x' y' => 2 ≤ x' ∧ x' < c0.width - 2 ∧
              ((2 ≤ y' ∧ y' < y) ∨ (y' = y ∧ x' < x + 1))) s' := by
      intro x cur' hx1 hx2 hinv'
      have hxs : x < c0.bytesPerLine := by have := hwf.1; omega
      have hyh : y < c0.height := by omega
      obtain ⟨w, hw⟩ := hs x y ⟨hx1, hx2, hy1, hy2⟩
      obtain ⟨cur'', h1, h2⟩ := PassInv_step style sampler c0 hwf _ cur' x y w hinv' hxs hyh
        (by rintro ⟨_, _, c | c⟩ <;> omega) hw
      refine ⟨cur'', h1, ?_⟩
      apply PassInv_congr _ _ _ _ _ _ _ h2
      intro x' y'
      constructor
      · rintro (⟨a, b, c | c⟩ | ⟨rfl, rfl⟩)
        · exact ⟨a, b, Or.inl c⟩
        · exact ⟨a, b, Or.inr ⟨c.1, by omega⟩⟩
        · exact ⟨hx1, hx2, Or.inr ⟨rfl, by omega⟩⟩
      · rintro ⟨a, b, c | c⟩
        · exact Or.inl ⟨a, b, Or.inl c⟩
        · by_cases hxx : x' = x
          · exact Or.inr ⟨hxx, c.1⟩
          · exact Or.inl ⟨a, b, Or.inr ⟨c.1, by omega⟩⟩
    obtain ⟨c1, hc1, hP1⟩ := forRange_inv
      (fun x cur' => PassInv style sampler c0
        (fun x' y' => 2 ≤ x' ∧ x' < c0.width - 2 ∧ ((2 ≤ y' ∧ y' < y) ∨ (y' = y ∧ x' < x))) cur')
      2 (c0.width - 2) (fun cv' x => pixelStep style sampler y cv' x) cur h0 hstep
    refine ⟨c1, hc1, ?_⟩
    apply PassInv_congr _ _ _ _ _ _ _ hP1
    intro x' y'
    constructor
    · rintro ⟨a, b, c | c⟩
      · exact ⟨a, b, by omega, by omega⟩
      · exact ⟨a, b, by omega, by omega⟩
    · rintro ⟨a, b, c, d⟩
      refine ⟨a, b, ?_⟩
      by_cases hyy : y' = y
      · right; exact ⟨hyy, by omega⟩
      · left; exact ⟨c, by omega⟩
  have h0 : PassInv style sampler c0
      (fun x' y' => 2 ≤ x' ∧ x' < c0.width - 2 ∧ 2 ≤ y' ∧ y' < 2) c0 := by
    refine ⟨rfl, rfl, rfl, rfl, ?_⟩
    intro x y _ _
    constructor
    · rintro ⟨_, _, h1, h2⟩; omega
    · intro _; rfl
  unfold outlinePass
  obtain ⟨c', hc', hP⟩ := forRange_inv
    (fun y cur => PassInv style sampler c0
      (fun x' y' => 2 ≤ x' ∧ x' < c0.width - 2 ∧ 2 ≤ y' ∧ y' < y) cur)
    2 (c0.height - 2)
    (fun cv y => forRange 2 (c0.width - 2) (fun cv' x => pixelStep style sampler y cv' x) cv)
    c0 h0 hrow
  refine ⟨c', hc', ?_⟩
  apply PassInv_congr _ _ _ _ _ _ _ hP
  intro x y
  unfold visited
  constructor
  · rintro ⟨a, b, c, d⟩; exact ⟨a, b, c, by omega⟩
  · rintro ⟨a, b, c, d⟩; exact ⟨a, b, c, by omega⟩


/-! ## The estimator on binary windows -/

theorem fl_grid16 (n : ℕ) (h : n ≤ 16) : fl ((n : ℚ) / 16) = (n : ℚ) / 16 := by
  interval_cases n <;> decide!

theorem fmul_bit (a : ℚ) (ha : a = 0 ∨ a = 1) (k : ℕ) (hk : k ≤ 4) :
    ∃ n : ℕ, n ≤ k ∧ fmul a ((k : ℚ) / 16) = (n : ℚ) / 16 ∧ (n : ℚ) = a * k := by
  rcases ha with rfl | rfl
  · refine ⟨0, by omega, ?_, by simp⟩
    unfold fmul
    simp [fl_zero]
  · refine ⟨k, le_rfl, ?_, by simp⟩
    unfold fmul
    rw [one_mul]
    exact fl_grid16 k (by omega)

theorem fadd_grid (m n : ℕ) (h : m + n ≤ 16) :
    fadd ((m : ℚ) / 16) ((n : ℚ) / 16) = ((m + n : ℕ) : ℚ) / 16 := by
  unfold fadd
  have : (m : ℚ) / 16 + (n : ℚ) / 16 = ((m + n : ℕ) : ℚ) / 16 := by push_cast; ring
  rw [this]
  exact fl_grid16 _ h

/-- On a binary window no operation of the blur rounds: the estimator is the exact
weighted sum, a multiple of `1/16` between `0` and `1`. -/
theorem estimate_binary (w : Window) (hb : w.Binary) :
    estimate w = 0.0625 * (w.tlv + w.trv + w.blv + w.brv) +
      0.125 * (w.tv + w.lv + w.rv + w.bv) + 0.25 * w.cv ∧
    ∃ k : ℕ, k ≤ 16 ∧ estimate w = (k : ℚ) / 16 := by
  obtain ⟨h1, h2, h3, h4, h5, h6, h7, h8, h9⟩ := hb
  obtain ⟨n1, b1, e1, c1⟩ := fmul_bit w.tlv h1 1 (by omega)
  obtain ⟨n2, b2, e2, c2⟩ := fmul_bit w.tv h2 2 (by omega)
  obtain ⟨n3, b3, e3, c3⟩ := fmul_bit w.trv h3 1 (by omega)
  obtain ⟨n4, b4, e4, c4⟩ := fmul_bit w.lv h4 2 (by omega)
  obtain ⟨n5, b5, e5, c5⟩ := fmul_bit w.cv h5 4 (by omega)
  obtain ⟨n6, b6, e6, c6⟩ := fmul_bit w.rv h6 2 (by omega)
  obtain ⟨n7, b7, e7, c7⟩ := fmul_bit w.blv h7 1 (by omega)
  obtain ⟨n8, b8, e8, c8⟩ := fmul_bit w.bv h8 2 (by omega)
  obtain ⟨n9, b9, e9, c9⟩ := fmul_bit w.brv h9 1 (by omega)
  have k1 : (0.0625 : ℚ) = ((1 : ℕ) : ℚ) / 16 := by norm_num
  have k2 : (0.1250 : ℚ) = ((2 : ℕ) : ℚ) / 16 := by norm_num
  have k4 : (0.2500 : ℚ) = ((4 : ℕ) : ℚ) / 16 := by norm_num
  have hest : estimate w = ((n1 + n2 + n3 + n4 + n5 + n6 + n7 + n8 + n9 : ℕ) : ℚ) / 16 := by
    unfold estimate
    rw [k1, k2, k4, e1, e2, e3, e4, e5, e6, e7, e8, e9]
    rw [fadd_grid _ _ (by omega), fadd_grid _ _ (by omega), fadd_grid _ _ (by omega),
      fadd_grid _ _ (by omega), fadd_grid _ _ (by omega), fadd_grid _ _ (by omega),
      fadd_grid _ _ (by omega), fadd_grid _ _ (by omega)]
  refine ⟨?_, _, by omega, hest⟩
  rw [hest]
  push_cast
  rw [c1, c2, c3, c4, c5, c6, c7, c8, c9]
  norm_num
  ring

theorem estimate_const_zero : estimate (Window.const 0) = 0 := by decide!

theorem estimate_const_one : estimate (Window.const 1) = 1 := by decide!


/-! ## The mask sampler -/

theorem read_offset (m : QImage) (p : ℤ) (x y : ℕ)
    (hp : p = ((y * m.bytesPerLine + x : ℕ) : ℤ)) : m.read p = m.pixel x y := by
  subst hp
  unfold QImage.read QImage.pixel
  rw [if_pos (Int.ofNat_nonneg _), Int.toNat_ofNat]

theorem gtZero_binary (b : ℕ) : gtZero b = 0 ∨ gtZero b = 1 := by
  unfold gtZero
  split_ifs
  · right; rfl
  · left; rfl

/-- Away from the one-pixel border of a well-formed mask the nine reads of the sampler are
in bounds: the sampler returns the window of the nine comparisons `> 0`. -/
theorem sampleMask_spec (m : QImage) (hwf : m.WF) (x y : ℕ) (hx1 : 1 ≤ x)
    (hx2 : x + 1 < m.width) (hy1 : 1 ≤ y) (hy2 : y + 1 < m.height) :
    ∃ tl t tr l c r bl b br : ℕ,
      m.pixel (x - 1) (y - 1) = some tl ∧ m.pixel x (y - 1) = some t ∧
      m.pixel (x + 1) (y - 1) = some tr ∧ m.pixel (x - 1) y = some l ∧
      m.pixel x y = some c ∧ m.pixel (x + 1) y = some r ∧
      m.pixel (x - 1) (y + 1) = some bl ∧ m.pixel x (y + 1) = some b ∧
      m.pixel (x + 1) (y + 1) = some br ∧
      sampleMask m x y = some ⟨gtZero tl, gtZero t, gtZero tr, gtZero l, gtZero c, gtZero r,
        gtZero bl, gtZero b, gtZero br⟩ := by
  obtain ⟨x', rfl⟩ : ∃ x', x = x' + 1 := ⟨x - 1, by omega⟩
  obtain ⟨y', rfl⟩ : ∃ y', y = y' + 1 := ⟨y - 1, by omega⟩
  have hs := hwf.1
  obtain ⟨tl, htl⟩ := pixel_some_of_lt m hwf (show x' < m.bytesPerLine by omega)
    (show y' < m.height by omega)
  obtain ⟨t, ht⟩ := pixel_some_of_lt m hwf (show x' + 1 < m.bytesPerLine by omega)
    (show y' < m.height by omega)
  obtain ⟨tr, htr⟩ := pixel_some_of_lt m hwf (show x' + 1 + 1 < m.bytesPerLine by omega)
    (show y' < m.height by omega)
  obtain ⟨l, hl⟩ := pixel_some_of_lt m hwf (show x' < m.bytesPerLine by omega)
    (show y' + 1 < m.height by omega)
  obtain ⟨c, hc⟩ := pixel_some_of_lt m hwf (show x' + 1 < m.bytesPerLine by omega)
    (show y' + 1 < m.height by omega)
  obtain ⟨r, hr⟩ := pixel_some_of_lt m hwf (show x' + 1 + 1 < m.bytesPerLine by omega)
    (show y' + 1 < m.height by omega)
  obtain ⟨bl, hbl⟩ := pixel_some_of_lt m hwf (show x' < m.bytesPerLine by omega)
    (show y' + 1 + 1 < m.height by omega)
  obtain ⟨b, hb⟩ := pixel_some_of_lt m hwf (show x' + 1 < m.bytesPerLine by omega)
    (show y' + 1 + 1 < m.height by omega)
  obtain ⟨br, hbr⟩ := pixel_some_of_lt m hwf (show x' + 1 + 1 < m.bytesPerLine by omega)
    (show y' + 1 + 1 < m.height by omega)
  refine ⟨tl, t, tr, l, c, r, bl, b, br, by simpa using htl, by simpa using ht,
    by simpa using htr, by simpa using hl, hc, hr, by simpa using hbl, hb, hbr, ?_⟩
  unfold sampleMask
  simp only [Option.bind_eq_bind, Option.pure_def]
  rw [read_offset m _ x' y' (by unfold QImage.scanLine; push_cast; ring), htl,
    read_offset m _ (x' + 1) y' (by unfold QImage.scanLine; push_cast; ring), ht,
    read_offset m _ (x' + 1 + 1) y' (by unfold QImage.scanLine; push_cast; ring), htr,
    read_offset m _ x' (y' + 1) (by unfold QImage.scanLine; push_cast; ring), hl,
    read_offset m _ (x' + 1) (y' + 1) (by unfold QImage.scanLine; push_cast; ring), hc,
    read_offset m _ (x' + 1 + 1) (y' + 1) (by unfold QImage.scanLine; push_cast; ring), hr,
    read_offset m _ x' (y' + 1 + 1) (by unfold QImage.scanLine; push_cast; ring), hbl,
    read_offset m _ (x' + 1) (y' + 1 + 1) (by unfold QImage.scanLine; push_cast; ring), hb,
    read_offset m _ (x' + 1 + 1) (y' + 1 + 1) (by unfold QImage.scanLine; push_cast; ring), hbr]
  rfl

theorem sampleMask_visited (canvas m : QImage) (hwf : m.WF) (hw : canvas.width ≤ m.width)
    (hh : canvas.height ≤ m.height) (x y : ℕ) (hv : visited canvas x y) :
    ∃ w, sampleMask m x y = some w ∧ w.Binary := by
  obtain ⟨a, b, c, d⟩ := hv
  obtain ⟨tl, t, tr, l, c', r, bl, b', br, -, -, -, -, -, -, -, -, -, h⟩ :=
    sampleMask_spec m hwf x y (by omega) (by omega) (by omega) (by omega)
  exact ⟨_, h, gtZero_binary _, gtZero_binary _, gtZero_binary _, gtZero_binary _,
    gtZero_binary _, gtZero_binary _, gtZero_binary _, gtZero_binary _, gtZero_binary _⟩


/-! ## The claims -/

theorem pixelValue_skip (style : Outline) (w : Window) (d : ℕ)
    (h : estimate w ≤ 0 ∨ estimate w ≥ 1 ∨ alpha style (estimate w) ≤ 0) :
    pixelValue style w d = d := by
  have z : (0.0 : ℚ) = 0 := by norm_num
  have o : (1.0 : ℚ) = 1 := by norm_num
  unfold pixelValue
  simp only [z, o]
  split_ifs with h1 h2
  · rfl
  · exfalso
    rcases h with h | h | h
    · exact h1 (Or.inl h)
    · exact h1 (Or.inr h)
    · linarith
  · rfl

theorem pixelValue_ne (style : Outline) (w : Window) (d : ℕ)
    (h : pixelValue style w d ≠ d) :
    0 < estimate w ∧ estimate w < 1 ∧ 0 < alpha style (estimate w) := by
  by_contra hc
  apply h
  apply pixelValue_skip
  by_cases h1 : estimate w ≤ 0
  · exact Or.inl h1
  · by_cases h2 : estimate w ≥ 1
    · exact Or.inr (Or.inl h2)
    · right; right
      by_contra h3
      exact hc ⟨by linarith, by linarith, by linarith⟩

/-- C1: for every well-formed canvas and every well-formed mask at least as large, the
outline pass returns a canvas in which a pixel holds exactly its pre-pass value whenever
the estimator value `v` of its sample window satisfies `v ≤ 0` or `v ≥ 1`, or the alpha of
the selected style for `v` is `≤ 0`; equivalently, a pixel whose value changed was sampled
with `0 < v < 1` and has a positive alpha. -/
theorem outlinePass_frame (style : Outline) (canvas mask : QImage) (hc : canvas.WF)
    (hm : mask.WF) (hw : canvas.width ≤ mask.width) (hh : canvas.height ≤ mask.height) :
    ∃ c', outlinePass style (sampleMask mask) canvas = some c' ∧
      ∀ x y, x < canvas.width → y < canvas.height →
        ((∀ w, sampleMask mask x y = some w →
            estimate w ≤ 0 ∨ estimate w ≥ 1 ∨ alpha style (estimate w) ≤ 0) →
          c'.pixel x y = canvas.pixel x y) ∧
        (c'.pixel x y ≠ canvas.pixel x y →
          ∃ w, sampleMask mask x y = some w ∧ 0 < estimate w ∧ estimate w < 1 ∧
            0 < alpha style (estimate w)) := by
  obtain ⟨c', hc', -, -, -, -, hpix⟩ := outlinePass_spec style (sampleMask mask) canvas hc
    (fun x y hv => (sampleMask_visited canvas mask hm hw hh x y hv).imp fun _ h => h.1)
  refine ⟨c', hc', ?_⟩
  intro x y hx hy
  have hxs : x < canvas.bytesPerLine := lt_of_lt_of_le hx hc.1
  obtain ⟨hdone, hnot⟩ := hpix x y hxs hy
  by_cases hv : visited canvas x y
  · obtain ⟨w, d, hw', hd, hcur⟩ := hdone hv
    constructor
    · intro hcond
      rw [hcur, hd, pixelValue_skip style w d (hcond w hw')]
    · intro hne
      refine ⟨w, hw', pixelValue_ne style w d ?_⟩
      intro heq
      apply hne
      rw [hcur, hd, heq]
  · constructor
    · intro _; exact hnot hv
    · intro hne; exact absurd (hnot hv) hne

theorem outlinePass_frame_witness :
    demoCanvas.WF ∧ demoMask.WF ∧ demoCanvas.width ≤ demoMask.width ∧
    demoCanvas.height ≤ demoMask.height ∧
    ∃ c', outlinePass Outline.normal (sampleMask demoMask) demoCanvas = some c' ∧
      ∀ x y, x < demoCanvas.width → y < demoCanvas.height →
        ((∀ w, sampleMask demoMask x y = some w →
            estimate w ≤ 0 ∨ estimate w ≥ 1 ∨ alpha Outline.normal (estimate w) ≤ 0) →
          c'.pixel x y = demoCanvas.pixel x y) ∧
        (c'.pixel x y ≠ demoCanvas.pixel x y →
          ∃ w, sampleMask demoMask x y = some w ∧ 0 < estimate w ∧ estimate w < 1 ∧
            0 < alpha Outline.normal (estimate w)) :=
  ⟨by decide, by decide, by decide, by decide,
    outlinePass_frame Outline.normal demoCanvas demoMask (by decide) (by decide) (by decide)
      (by decide)⟩


/-- C2: on nine binary samples the contour estimator computes exactly
`0.0625·(tl+tr+bl+br) + 0.125·(t+l+r+b) + 0.25·c` (no binary64 operation rounds); the
weights are non-negative and sum to `1`, and so `0 ≤ v ≤ 1`. -/
theorem estimate_convex (w : Window) (hb : w.Binary) :
    estimate w = 0.0625 * (w.tlv + w.trv + w.blv + w.brv) +
        0.125 * (w.tv + w.lv + w.rv + w.bv) + 0.25 * w.cv ∧
      ((0 : ℚ) ≤ 0.0625 ∧ (0 : ℚ) ≤ 0.125 ∧ (0 : ℚ) ≤ 0.25 ∧
        (4 : ℚ) * 0.0625 + 4 * 0.125 + 0.25 = 1) ∧
      0 ≤ estimate w ∧ estimate w ≤ 1 := by
  obtain ⟨h1, k, hk, h2⟩ := estimate_binary w hb
  refine ⟨h1, by norm_num, ?_, ?_⟩
  · rw [h2]; positivity
  · rw [h2, div_le_one (by norm_num)]
    exact_mod_cast hk

theorem estimate_convex_witness :
    (Window.mk 1 0 1 0 1 0 0 0 1).Binary ∧
    estimate (Window.mk 1 0 1 0 1 0 0 0 1) =
        0.0625 * ((1 : ℚ) + 1 + 0 + 1) + 0.125 * ((0 : ℚ) + 0 + 0 + 0) + 0.25 * 1 ∧
      ((0 : ℚ) ≤ 0.0625 ∧ (0 : ℚ) ≤ 0.125 ∧ (0 : ℚ) ≤ 0.25 ∧
        (4 : ℚ) * 0.0625 + 4 * 0.125 + 0.25 = 1) ∧
      0 ≤ estimate (Window.mk 1 0 1 0 1 0 0 0 1) ∧
      estimate (Window.mk 1 0 1 0 1 0 0 0 1) ≤ 1 :=
  ⟨by decide!, estimate_convex (Window.mk 1 0 1 0 1 0 0 0 1) (by decide!)⟩

theorem pixelStep_skip (style : Outline) (sampler : ℕ → ℕ → Option Window) (x y : ℕ)
    (cur : QImage) (w : Window) (hw : sampler x y = some w)
    (h : estimate w ≤ 0 ∨ estimate w ≥ 1) :
    pixelStep style sampler y cur x = some cur := by
  have z : (0.0 : ℚ) = 0 := by norm_num
  have o : (1.0 : ℚ) = 1 := by norm_num
  unfold pixelStep
  simp only [hw, z, o, Option.bind_eq_bind, Option.some_bind, Option.pure_def, if_pos h]

/-- C3: at a visited pixel whose nine samples are all `0` the estimator value is exactly
`0`, at one whose nine samples are all `1` it is exactly `1`; in both cases the loop body
skips the pixel (it returns the canvas it was given) and the pass leaves the pixel with its
pre-pass value, under either outline style. -/
theorem uniform_window_untouched (style : Outline) (canvas mask : QImage) (hc : canvas.WF)
    (hm : mask.WF) (hw : canvas.width ≤ mask.width) (hh : canvas.height ≤ mask.height)
    (x y : ℕ) (hv : visited canvas x y) (a : ℚ) (ha : a = 0 ∨ a = 1)
    (hs : sampleMask mask x y = some (Window.const a)) :
    estimate (Window.const a) = a ∧
      (∀ cur, pixelStep style (sampleMask mask) y cur x = some cur) ∧
      ∃ c', outlinePass style (sampleMask mask) canvas = some c' ∧
        c'.pixel x y = canvas.pixel x y := by
  have hest : estimate (Window.const a) = a := by
    rcases ha with rfl | rfl
    · exact estimate_const_zero
    · exact estimate_const_one
  have hskip : estimate (Window.const a) ≤ 0 ∨ estimate (Window.const a) ≥ 1 := by
    rw [hest]
    rcases ha with rfl | rfl
    · left; exact le_rfl
    · right; exact le_rfl
  refine ⟨hest, fun cur => pixelStep_skip style _ x y cur _ hs hskip, ?_⟩
  obtain ⟨c', hc', -, -, -, -, hpix⟩ := outlinePass_spec style (sampleMask mask) canvas hc
    (fun x y hv => (sampleMask_visited canvas mask hm hw hh x y hv).imp fun _ h => h.1)
  refine ⟨c', hc', ?_⟩
  have hxs : x < canvas.bytesPerLine := by
    have := hc.1
    have := hv.2.1
    omega
  have hyh : y < canvas.height := by
    have := hv.2.2.2
    omega
  obtain ⟨w, d, hw', hd, hcur⟩ := (hpix x y hxs hyh).1 hv
  rw [hs] at hw'
  cases hw'
  rw [hcur, hd, pixelValue_skip style _ d (by tauto)]

theorem uniform_window_untouched_witness :
    demoCanvas.WF ∧ demoMask.WF ∧ demoCanvas.width ≤ demoMask.width ∧
    demoCanvas.height ≤ demoMask.height ∧ visited demoCanvas 3 3 ∧
    ((0 : ℚ) = 0 ∨ (0 : ℚ) = 1) ∧ sampleMask demoMask 3 3 = some (Window.const 0) ∧
    estimate (Window.const 0) = 0 ∧
      (∀ cur, pixelStep Outline.bw (sampleMask demoMask) 3 cur 3 = some cur) ∧
      ∃ c', outlinePass Outline.bw (sampleMask demoMask) demoCanvas = some c' ∧
        c'.pixel 3 3 = demoCanvas.pixel 3 3 :=
  ⟨by decide, by decide, by decide, by decide, by decide, Or.inl rfl, by decide!,
    uniform_window_untouched Outline.bw demoCanvas demoMask (by decide) (by decide)
      (by decide) (by decide) 3 3 (by decide) 0 (Or.inl rfl) (by decide!)⟩

theorem outlinePass_unchanged (style : Outline) (sampler : ℕ → ℕ → Option Window)
    (c0 : QImage)
    (hs : ∀ x y, visited c0 x y →
      ∃ w, sampler x y = some w ∧ (estimate w ≤ 0 ∨ estimate w ≥ 1)) :
    outlinePass style sampler c0 = some c0 := by
  have hrow : ∀ y cur, 2 ≤ y → y < c0.height - 2 → cur = c0 →
      ∃ cur', forRange 2 (c0.width - 2) (fun cv' x => pixelStep style sampler y cv' x) cur
          = some cur' ∧ cur' = c0 := by
    intro y cur hy1 hy2 hcur
    obtain ⟨c1, h1, h2⟩ := forRange_inv (fun _ cur' => cur' = c0) 2 (c0.width - 2)
      (fun cv' x => pixelStep style sampler y cv' x) cur hcur
      (fun x cur' hx1 hx2 hc' => by
        obtain ⟨w, hw, hskip⟩ := hs x y ⟨hx1, hx2, hy1, hy2⟩
        exact ⟨cur', pixelStep_skip style sampler x y cur' w hw hskip, hc'⟩)
    exact ⟨c1, h1, h2⟩
  obtain ⟨c', h1, h2⟩ := forRange_inv (fun _ cur => cur = c0) 2 (c0.height - 2)
    (fun cv y => forRange 2 (c0.width - 2) (fun cv' x => pixelStep style sampler y cv' x) cv)
    c0 rfl hrow
  unfold outlinePass
  rw [h1, h2]

/-- C4: for every canvas and every well-formed mask at least as large as the canvas, all of
whose pixels are non-zero, the outline pass under either outline style returns the canvas
unchanged (every byte of it). -/
theorem full_mask_unchanged (style : Outline) (canvas mask : QImage) (hm : mask.WF)
    (hw : canvas.width ≤ mask.width) (hh : canvas.height ≤ mask.height)
    (hnz : ∀ x, x < mask.width → ∀ y, y < mask.height → mask.pixel x y ≠ some 0) :
    outlinePass style (sampleMask mask) canvas = some canvas := by
  apply outlinePass_unchanged
  intro x y hv
  obtain ⟨a, b, c, d⟩ := hv
  obtain ⟨tl, t, tr, l, c', r, bl, b', br, p1, p2, p3, p4, p5, p6, p7, p8, p9, h⟩ :=
    sampleMask_spec mask hm x y (by omega) (by omega) (by omega) (by omega)
  have one : ∀ (x' y' v : ℕ), x' < mask.width → y' < mask.height →
      mask.pixel x' y' = some v → gtZero v = 1 := by
    intro x' y' v hx' hy' hp
    have : v ≠ 0 := by
      rintro rfl
      exact hnz x' hx' y' hy' hp
    unfold gtZero
    rw [if_pos (Nat.pos_of_ne_zero this)]
  refine ⟨_, h, Or.inr ?_⟩
  rw [one _ _ _ (by omega) (by omega) p1, one _ _ _ (by omega) (by omega) p2,
    one _ _ _ (by omega) (by omega) p3, one _ _ _ (by omega) (by omega) p4,
    one _ _ _ (by omega) (by omega) p5, one _ _ _ (by omega) (by omega) p6,
    one _ _ _ (by omega) (by omega) p7, one _ _ _ (by omega) (by omega) p8,
    one _ _ _ (by omega) (by omega) p9]
  exact estimate_const_one.ge

theorem full_mask_unchanged_witness :
    fullMask.WF ∧ demoCanvas.width ≤ fullMask.width ∧ demoCanvas.height ≤ fullMask.height ∧
    (∀ x, x < fullMask.width → ∀ y, y < fullMask.height → fullMask.pixel x y ≠ some 0) ∧
    outlinePass Outline.bw (sampleMask fullMask) demoCanvas = some demoCanvas :=
  ⟨by decide, by decide, by decide, by decide,
    full_mask_unchanged Outline.bw demoCanvas fullMask (by decide) (by decide) (by decide)
      (by decide)⟩


/-! ## The response curves -/

theorem lit_zero : (0.0 : ℚ) = 0 := by norm_num

theorem lit_one : (1.0 : ℚ) = 1 := by norm_num

theorem lit_two : (2.0 : ℚ) = 2 := by norm_num

theorem lit_four : (4.0 : ℚ) = 4 := by norm_num

theorem fl_one : fl 1 = 1 := by decide!

theorem fl_two : fl 2 = 2 := by decide!

theorem fl_half : fl (1 / 2) = 1 / 2 := by decide!

theorem fl_three_halves : fl (3 / 2) = 3 / 2 := by decide!

theorem fl_neg_one : fl (-1) = -1 := by rw [fl_neg, fl_one]

theorem fl_neg_half : fl (-(1 / 2)) = -(1 / 2) := by rw [fl_neg, fl_half]

theorem estimate_grid (w : Window) (hb : w.Binary) :
    ∃ k : ℕ, k ≤ 16 ∧ estimate w = (k : ℚ) / 16 :=
  (estimate_binary w hb).2

theorem alpha_bw_grid (k : ℕ) (hk : k ≤ 16) :
    alpha Outline.bw ((k : ℚ) / 16) = specAlphaA ((k : ℚ) / 16) := by
  interval_cases k <;> decide!

theorem alpha_normal_grid (k : ℕ) (hk : k ≤ 16) :
    alpha Outline.normal ((k : ℚ) / 16) = specAlphaB ((k : ℚ) / 16) := by
  interval_cases k <;> decide!

theorem srcColor_bw_grid (k : ℕ) (hk : k ≤ 16) :
    srcColor Outline.bw ((k : ℚ) / 16) = specSrcColorA ((k : ℚ) / 16) := by
  interval_cases k <;> decide!

/-- The binary64 alpha of the black & white outline on `[0, 1]`: it lies in `[0, 1]` and is
`1` on the whole plateau `[1/4, 3/4]`. -/
theorem alpha_bw_range (v : ℚ) (h0 : 0 ≤ v) (h1 : v ≤ 1) :
    0 ≤ alpha Outline.bw v ∧ alpha Outline.bw v ≤ 1 ∧
      (1 / 4 ≤ v → v ≤ 3 / 4 → alpha Outline.bw v = 1) := by
  simp only [alpha, fmul, fsub, lit_one, lit_two]
  have ha0 : 0 ≤ fl (2 * v) := fl_nonneg (by linarith)
  have ha2 : fl (2 * v) ≤ 2 := by
    have := fl_mono (show 2 * v ≤ 2 by linarith)
    rwa [fl_two] at this
  have hb1 : fl (fl (2 * v) - 1) ≤ 1 := by
    have := fl_mono (show fl (2 * v) - 1 ≤ 1 by linarith)
    rwa [fl_one] at this
  have hb2 : -1 ≤ fl (fl (2 * v) - 1) := by
    have := fl_mono (show -1 ≤ fl (2 * v) - 1 by linarith)
    rwa [fl_neg_one] at this
  have hab : |fl (fl (2 * v) - 1)| ≤ 1 := abs_le.mpr ⟨hb2, hb1⟩
  have hc0 : 0 ≤ fl (1 - |fl (fl (2 * v) - 1)|) := fl_nonneg (by linarith)
  have he0 : 0 ≤ fl (fl (1 - |fl (fl (2 * v) - 1)|) * 2) := fl_nonneg (by linarith)
  refine ⟨le_min he0 (by norm_num), min_le_right _ _, ?_⟩
  intro h4 h34
  have ha12 : 1 / 2 ≤ fl (2 * v) := by
    have := fl_mono (show 1 / 2 ≤ 2 * v by linarith)
    rwa [fl_half] at this
  have ha32 : fl (2 * v) ≤ 3 / 2 := by
    have := fl_mono (show 2 * v ≤ 3 / 2 by linarith)
    rwa [fl_three_halves] at this
  have hb12 : fl (fl (2 * v) - 1) ≤ 1 / 2 := by
    have := fl_mono (show fl (2 * v) - 1 ≤ 1 / 2 by linarith)
    rwa [fl_half] at this
  have hb12' : -(1 / 2) ≤ fl (fl (2 * v) - 1) := by
    have := fl_mono (show -(1 / 2) ≤ fl (2 * v) - 1 by linarith)
    rwa [fl_neg_half] at this
  have hab' : |fl (fl (2 * v) - 1)| ≤ 1 / 2 := abs_le.mpr ⟨hb12', hb12⟩
  have hc12 : 1 / 2 ≤ fl (1 - |fl (fl (2 * v) - 1)|) := by
    have := fl_mono (show 1 / 2 ≤ 1 - |fl (fl (2 * v) - 1)| by linarith)
    rwa [fl_half] at this
  have he1 : 1 ≤ fl (fl (1 - |fl (fl (2 * v) - 1)|) * 2) := by
    have := fl_mono (show 1 ≤ fl (1 - |fl (fl (2 * v) - 1)|) * 2 by linarith)
    rwa [fl_one] at this
  exact min_eq_right he1

theorem specAlphaA_props (v : ℚ) (h0 : 0 ≤ v) (h1 : v ≤ 1) :
    0 ≤ specAlphaA v ∧ specAlphaA v ≤ 1 ∧ (specAlphaA v = 1 ↔ 1 / 4 ≤ v ∧ v ≤ 3 / 4) := by
  unfold specAlphaA
  have habs : |2 * v - 1| ≤ 1 := abs_le.mpr ⟨by linarith, by linarith⟩
  refine ⟨le_min (by linarith) (by norm_num), min_le_right _ _, ?_⟩
  rw [min_eq_right_iff]
  constructor
  · intro h
    have h' : |2 * v - 1| ≤ 1 / 2 := by linarith
    obtain ⟨a, b⟩ := abs_le.mp h'
    constructor <;> linarith
  · rintro ⟨a, b⟩
    have h' : |2 * v - 1| ≤ 1 / 2 := abs_le.mpr ⟨by linarith, by linarith⟩
    linarith

/-- C5: Policy A alpha, `min((1 − |2v − 1|)·2, 1)`, satisfies for every `v` in `[0, 1]`:
`0 ≤ alpha(v) ≤ 1`, `alpha(0) = alpha(1) = 0`, and `alpha(v) = 1` exactly when
`1/4 ≤ v ≤ 3/4`.  The alpha the code computes in binary64 equals this formula at every
value the estimator produces (on every binary window), where it is `1` exactly on the
plateau; for every `v` in `[0, 1]` it is itself in `[0, 1]`, `0` at `0` and at `1`, and `1`
on the whole plateau. -/
theorem alphaA_tent_plateau (v : ℚ) (h0 : 0 ≤ v) (h1 : v ≤ 1) :
    (0 ≤ specAlphaA v ∧ specAlphaA v ≤ 1 ∧ (specAlphaA v = 1 ↔ 1 / 4 ≤ v ∧ v ≤ 3 / 4)) ∧
    (specAlphaA 0 = 0 ∧ specAlphaA 1 = 0) ∧
    (∀ w : Window, w.Binary →
      alpha Outline.bw (estimate w) = specAlphaA (estimate w) ∧
      (alpha Outline.bw (estimate w) = 1 ↔ 1 / 4 ≤ estimate w ∧ estimate w ≤ 3 / 4)) ∧
    (0 ≤ alpha Outline.bw v ∧ alpha Outline.bw v ≤ 1 ∧
      (1 / 4 ≤ v → v ≤ 3 / 4 → alpha Outline.bw v = 1)) ∧
    (alpha Outline.bw 0 = 0 ∧ alpha Outline.bw 1 = 0) := by
  refine ⟨specAlphaA_props v h0 h1,
    ⟨by unfold specAlphaA; norm_num, by unfold specAlphaA; norm_num⟩,
    ?_, alpha_bw_range v h0 h1, ⟨by decide!, by decide!⟩⟩
  intro w hb
  obtain ⟨k, hk, he⟩ := estimate_grid w hb
  have hgrid : alpha Outline.bw (estimate w) = specAlphaA (estimate w) := by
    rw [he]; exact alpha_bw_grid k hk
  have hk0 : (0 : ℚ) ≤ estimate w := by rw [he]; positivity
  have hk1 : estimate w ≤ 1 := by
    rw [he, div_le_one (by norm_num)]; exact_mod_cast hk
  exact ⟨hgrid, by rw [hgrid]; exact (specAlphaA_props _ hk0 hk1).2.2⟩

theorem alphaA_tent_plateau_witness :
    (0 : ℚ) ≤ 5 / 16 ∧ (5 / 16 : ℚ) ≤ 1 ∧
    (0 ≤ specAlphaA (5 / 16) ∧ specAlphaA (5 / 16) ≤ 1 ∧
      (specAlphaA (5 / 16) = 1 ↔ (1 / 4 : ℚ) ≤ 5 / 16 ∧ (5 / 16 : ℚ) ≤ 3 / 4)) ∧
    (specAlphaA 0 = 0 ∧ specAlphaA 1 = 0) ∧
    (∀ w : Window, w.Binary →
      alpha Outline.bw (estimate w) = specAlphaA (estimate w) ∧
      (alpha Outline.bw (estimate w) = 1 ↔ 1 / 4 ≤ estimate w ∧ estimate w ≤ 3 / 4)) ∧
    (0 ≤ alpha Outline.bw (5 / 16) ∧ alpha Outline.bw (5 / 16) ≤ 1 ∧
      ((1 / 4 : ℚ) ≤ 5 / 16 → (5 / 16 : ℚ) ≤ 3 / 4 → alpha Outline.bw (5 / 16) = 1)) ∧
    (alpha Outline.bw 0 = 0 ∧ alpha Outline.bw 1 = 0) :=
  ⟨by norm_num, by norm_num, alphaA_tent_plateau (5 / 16) (by norm_num) (by norm_num)⟩

theorem specAlphaA_symm (v : ℚ) : specAlphaA v = specAlphaA (1 - v) := by
  unfold specAlphaA
  have : 2 * (1 - v) - 1 = -(2 * v - 1) := by ring
  rw [this, abs_neg]

/-- C6: Policy A alpha is symmetric around `v = 1/2`: for every `v`,
`alpha(v) = alpha(1 − v)` where `alpha(v) = min((1 − |2v − 1|)·2, 1)`; and at every value
`v` the estimator produces (on every binary window) the alpha the code computes in binary64
is this formula and satisfies `alpha(v) = alpha(1 − v)` too. -/
theorem alphaA_symmetric (v : ℚ) (w : Window) (hb : w.Binary) :
    specAlphaA v = specAlphaA (1 - v) ∧
    alpha Outline.bw (estimate w) = specAlphaA (estimate w) ∧
    alpha Outline.bw (estimate w) = alpha Outline.bw (1 - estimate w) := by
  obtain ⟨k, hk, he⟩ := estimate_grid w hb
  have h1 : alpha Outline.bw (estimate w) = specAlphaA (estimate w) := by
    rw [he]; exact alpha_bw_grid k hk
  refine ⟨specAlphaA_symm v, h1, ?_⟩
  have h2 : 1 - estimate w = ((16 - k : ℕ) : ℚ) / 16 := by
    rw [he, Nat.cast_sub hk]; push_cast; ring
  rw [h1, h2, alpha_bw_grid (16 - k) (by omega), ← h2]
  exact specAlphaA_symm _

theorem alphaA_symmetric_witness :
    (Window.mk 1 1 0 1 1 0 0 0 0).Binary ∧
    specAlphaA (3 / 16) = specAlphaA (1 - 3 / 16) ∧
    alpha Outline.bw (estimate (Window.mk 1 1 0 1 1 0 0 0 0)) =
      specAlphaA (estimate (Window.mk 1 1 0 1 1 0 0 0 0)) ∧
    alpha Outline.bw (estimate (Window.mk 1 1 0 1 1 0 0 0 0)) =
      alpha Outline.bw (1 - estimate (Window.mk 1 1 0 1 1 0 0 0 0)) :=
  ⟨by decide!, alphaA_symmetric (3 / 16) (Window.mk 1 1 0 1 1 0 0 0 0) (by decide!)⟩

/-- C7: Policy A source colour, `clamp(v·1.5 − 0.25, 0, 1)` as the code computes it in
binary64, is monotonically non-decreasing (`v1 ≤ v2` gives
`srcColor(v1) ≤ srcColor(v2)`), its value always lies in `[0, 1]`, and at every value the
estimator produces it equals the formula evaluated without rounding. -/
theorem srcColorA_monotone (v1 v2 : ℚ) (h : v1 ≤ v2) :
    srcColor Outline.bw v1 ≤ srcColor Outline.bw v2 ∧
    (0 ≤ srcColor Outline.bw v1 ∧ srcColor Outline.bw v1 ≤ 1) ∧
    (∀ w : Window, w.Binary →
      srcColor Outline.bw (estimate w) = specSrcColorA (estimate w)) := by
  refine ⟨?_, ?_, ?_⟩
  · simp only [srcColor, clamp, fmul, fsub]
    have h15 : (0 : ℚ) ≤ 1.5 := by norm_num
    have ha : fl (v1 * 1.5) ≤ fl (v2 * 1.5) := fl_mono (mul_le_mul_of_nonneg_right h h15)
    have hb : fl (fl (v1 * 1.5) - 0.25) ≤ fl (fl (v2 * 1.5) - 0.25) :=
      fl_mono (by linarith)
    exact max_le_max (min_le_min hb le_rfl) le_rfl
  · simp only [srcColor, clamp, lit_zero, lit_one]
    exact ⟨le_max_right _ _, max_le (min_le_right _ _) (by norm_num)⟩
  · intro w hb
    obtain ⟨k, hk, he⟩ := estimate_grid w hb
    rw [he]
    exact srcColor_bw_grid k hk

theorem srcColorA_monotone_witness :
    (1 / 4 : ℚ) ≤ 5 / 8 ∧
    srcColor Outline.bw (1 / 4) ≤ srcColor Outline.bw (5 / 8) ∧
    (0 ≤ srcColor Outline.bw (1 / 4) ∧ srcColor Outline.bw (1 / 4) ≤ 1) ∧
    (∀ w : Window, w.Binary →
      srcColor Outline.bw (estimate w) = specSrcColorA (estimate w)) :=
  ⟨by norm_num, srcColorA_monotone (1 / 4) (5 / 8) (by norm_num)⟩

/-- The binary64 alpha of the normal outline is `0` from `1/2` on and up to `0`. -/
theorem alpha_normal_zero (v : ℚ) (h : 1 / 2 ≤ v ∨ v ≤ 0) : alpha Outline.normal v = 0 := by
  simp only [alpha, fmul, fsub, lit_one, lit_four, lit_zero]
  have hb : 1 ≤ |fl (fl (4 * v) - 1)| := by
    rcases h with h | h
    · have ha : 2 ≤ fl (4 * v) := by
        have := fl_mono (show 2 ≤ 4 * v by linarith)
        rwa [fl_two] at this
      have : 1 ≤ fl (fl (4 * v) - 1) := by
        have := fl_mono (show 1 ≤ fl (4 * v) - 1 by linarith)
        rwa [fl_one] at this
      exact le_trans this (le_abs_self _)
    · have ha : fl (4 * v) ≤ 0 := fl_nonpos (by linarith)
      have : fl (fl (4 * v) - 1) ≤ -1 := by
        have := fl_mono (show fl (4 * v) - 1 ≤ -1 by linarith)
        rwa [fl_neg_one] at this
      have h2 := neg_le_abs (fl (fl (4 * v) - 1))
      linarith
  have hc : fl (1 - |fl (fl (4 * v) - 1)|) ≤ 0 := fl_nonpos (by linarith)
  exact max_eq_right hc

theorem specAlphaB_pos (v : ℚ) : 0 < specAlphaB v ↔ 0 < v ∧ v < 1 / 2 := by
  unfold specAlphaB
  rw [lt_max_iff]
  constructor
  · rintro (h | h)
    · have h' : |4 * v - 1| < 1 := by linarith
      obtain ⟨a, b⟩ := abs_lt.mp h'
      constructor <;> linarith
    · exact absurd h (lt_irrefl 0)
  · rintro ⟨a, b⟩
    left
    have h' : |4 * v - 1| < 1 := abs_lt.mpr ⟨by linarith, by linarith⟩
    linarith

/-- C8: Policy B alpha, `max(1 − |4v − 1|, 0)`: the alpha the code computes in binary64 is
`0` for every `v ≥ 1/2` and every `v ≤ 0`, so it is positive only for `0 < v < 1/2`, and the
loop body changes a pixel's byte only when `0 < v < 1/2`; the formula is strictly positive
exactly for `0 < v < 1/2`, and at every value the estimator produces (on every binary
window) the code's alpha equals the formula. -/
theorem alphaB_support (v : ℚ) (w : Window) (hb : w.Binary) (d : ℕ) :
    (1 / 2 ≤ v → alpha Outline.normal v = 0) ∧
    (v ≤ 0 → alpha Outline.normal v = 0) ∧
    (0 < alpha Outline.normal v → 0 < v ∧ v < 1 / 2) ∧
    (0 < specAlphaB v ↔ 0 < v ∧ v < 1 / 2) ∧
    alpha Outline.normal (estimate w) = specAlphaB (estimate w) ∧
    (0 < alpha Outline.normal (estimate w) ↔ 0 < estimate w ∧ estimate w < 1 / 2) ∧
    (pixelValue Outline.normal w d ≠ d → 0 < estimate w ∧ estimate w < 1 / 2) := by
  have hpos : ∀ u : ℚ, 0 < alpha Outline.normal u → 0 < u ∧ u < 1 / 2 := by
    intro u hu
    constructor
    · by_contra hc
      rw [alpha_normal_zero u (Or.inr (not_lt.mp hc))] at hu
      exact lt_irrefl 0 hu
    · by_contra hc
      rw [alpha_normal_zero u (Or.inl (not_lt.mp hc))] at hu
      exact lt_irrefl 0 hu
  obtain ⟨k, hk, he⟩ := estimate_grid w hb
  have hgrid : alpha Outline.normal (estimate w) = specAlphaB (estimate w) := by
    rw [he]; exact alpha_normal_grid k hk
  refine ⟨fun h => alpha_normal_zero v (Or.inl h), fun h => alpha_normal_zero v (Or.inr h),
    hpos v, specAlphaB_pos v, hgrid, ?_, ?_⟩
  · rw [hgrid]; exact specAlphaB_pos _
  · intro hne
    exact hpos _ (pixelValue_ne Outline.normal w d hne).2.2

theorem alphaB_support_witness :
    (Window.mk 1 1 0 0 0 0 0 0 0).Binary ∧
    ((1 / 2 : ℚ) ≤ 3 / 4 → alpha Outline.normal (3 / 4) = 0) ∧
    ((3 / 4 : ℚ) ≤ 0 → alpha Outline.normal (3 / 4) = 0) ∧
    (0 < alpha Outline.normal (3 / 4) → (0 : ℚ) < 3 / 4 ∧ (3 / 4 : ℚ) < 1 / 2) ∧
    (0 < specAlphaB (3 / 4) ↔ (0 : ℚ) < 3 / 4 ∧ (3 / 4 : ℚ) < 1 / 2) ∧
    alpha Outline.normal (estimate (Window.mk 1 1 0 0 0 0 0 0 0)) =
      specAlphaB (estimate (Window.mk 1 1 0 0 0 0 0 0 0)) ∧
    (0 < alpha Outline.normal (estimate (Window.mk 1 1 0 0 0 0 0 0 0)) ↔
      0 < estimate (Window.mk 1 1 0 0 0 0 0 0 0) ∧
        estimate (Window.mk 1 1 0 0 0 0 0 0 0) < 1 / 2) ∧
    (pixelValue Outline.normal (Window.mk 1 1 0 0 0 0 0 0 0) 200 ≠ 200 →
      0 < estimate (Window.mk 1 1 0 0 0 0 0 0 0) ∧
        estimate (Window.mk 1 1 0 0 0 0 0 0 0) < 1 / 2) :=
  ⟨by decide!, alphaB_support (3 / 4) (Window.mk 1 1 0 0 0 0 0 0 0) (by decide!) 200⟩

/-! ## Compositing -/

theorem lit_255 : (255.0 : ℚ) = 255 := by norm_num

theorem fl_255 : fl 255 = 255 := by decide!

/-- The conversion to `quint8` of a double in `[0, 256)` is its integer part: no wrap. -/
theorem toQuint8_of_range (x : ℚ) (h0 : 0 ≤ x) (h1 : x < 256) :
    (toQuint8 x : ℤ) = ⌊x⌋ ∧ toQuint8 x ≤ 255 := by
  have hf0 : 0 ≤ ⌊x⌋ := Int.floor_nonneg.mpr h0
  have hf1 : ⌊x⌋ < 256 := by
    rw [Int.floor_lt]; exact_mod_cast h1
  unfold toQuint8
  rw [if_pos h0, Int.emod_eq_of_lt hf0 hf1]
  constructor
  · exact Int.toNat_of_nonneg hf0
  · omega

/-- The normalised destination colour `d / 255.0` is a fixed point of the rounding, and
adding to it the rounded distance to `1.0` does not exceed `1.0`: checked for each of the
256 bytes, sixteen at a time. -/
theorem dstColor_sweep (d : ℕ) (hd : d < 256) :
    fl (fl ((d : ℚ) / 255)) = fl ((d : ℚ) / 255) ∧
    fl (fl ((d : ℚ) / 255) + fl (fl (1 - fl ((d : ℚ) / 255)))) ≤ 1 := by
  have h : ∀ c : Fin 16, ∀ i : Fin 16,
      fl (fl (((16 * c.val + i.val : ℕ) : ℚ) / 255)) = fl (((16 * c.val + i.val : ℕ) : ℚ) / 255) ∧
      fl (fl (((16 * c.val + i.val : ℕ) : ℚ) / 255) +
        fl (fl (1 - fl (((16 * c.val + i.val : ℕ) : ℚ) / 255)))) ≤ 1 := by
    intro c
    fin_cases c <;> decide!
  have := h ⟨d / 16, by omega⟩ ⟨d % 16, by omega⟩
  simp only at this
  rwa [show 16 * (d / 16) + d % 16 = d by omega] at this

theorem dstColor_range (d : ℕ) (hd : d ≤ 255) :
    0 ≤ fl ((d : ℚ) / 255) ∧ fl ((d : ℚ) / 255) ≤ 1 := by
  have hd' : (d : ℚ) ≤ 255 := by exact_mod_cast hd
  constructor
  · exact fl_nonneg (by positivity)
  · have := fl_mono (show (d : ℚ) / 255 ≤ 1 by rw [div_le_one (by norm_num)]; exact hd')
    rwa [fl_one] at this

/-- The blend of the compositor stays in `[0, 1]` in binary64 arithmetic. -/
theorem blend_range (d : ℕ) (hd : d ≤ 255) (a s : ℚ) (ha0 : 0 ≤ a) (ha1 : a ≤ 1)
    (hs0 : 0 ≤ s) (hs1 : s ≤ 1) : 0 ≤ blend s a d ∧ blend s a d ≤ 1 := by
  obtain ⟨hc0, hc1⟩ := dstColor_range d hd
  obtain ⟨hfix, hsum⟩ := dstColor_sweep d (by omega)
  simp only [blend, fdiv, fadd, fmul, fsub, lit_255]
  set dc := fl ((d : ℚ) / 255) with hdc
  rcases le_or_lt dc s with hsd | hsd
  · have ht0 : 0 ≤ fl (s - dc) := fl_nonneg (by linarith)
    have ht1 : fl (s - dc) ≤ fl (1 - dc) := fl_mono (by linarith)
    have hu0 : 0 ≤ fl (fl (s - dc) * a) := fl_nonneg (mul_nonneg ht0 ha0)
    have hu1 : fl (fl (s - dc) * a) ≤ fl (fl (1 - dc)) := by
      have h1 : fl (s - dc) * a ≤ fl (s - dc) := by nlinarith
      exact le_trans (fl_mono h1) (fl_mono ht1)
    constructor
    · exact fl_nonneg (by linarith)
    · exact le_trans (fl_mono (by linarith)) hsum
  · have ht0 : fl (s - dc) ≤ 0 := fl_nonpos (by linarith)
    have hneg : fl (-dc) = -dc := by rw [fl_neg, hfix]
    have ht1 : -dc ≤ fl (s - dc) := by
      have := fl_mono (show -dc ≤ s - dc by linarith)
      rwa [hneg] at this
    have hu0 : fl (fl (s - dc) * a) ≤ 0 := fl_nonpos (by nlinarith)
    have hu1 : -dc ≤ fl (fl (s - dc) * a) := by
      have h1 : -dc ≤ fl (s - dc) * a := by nlinarith
      have := fl_mono h1
      rwa [hneg] at this
    constructor
    · exact fl_nonneg (by linarith)
    · have := fl_mono (show dc + fl (fl (s - dc) * a) ≤ 1 by linarith)
      rwa [fl_one] at this

/-- C10: for every destination intensity `d` in `0..255`, alpha in `[0, 1]` and
sourceColor in `[0, 1]`, the blend `d/255 + (sourceColor − d/255)·alpha`, as the code
computes it in binary64, lies in `[0, 1]`; `blend·255` lies in `[0, 255]`, and the byte
written is exactly its integer part, an integer in `0..255`: the conversion to 8 bits
never wraps. -/
theorem composite_no_wrap (d : ℕ) (hd : d ≤ 255) (a s : ℚ) (ha0 : 0 ≤ a) (ha1 : a ≤ 1)
    (hs0 : 0 ≤ s) (hs1 : s ≤ 1) :
    (0 ≤ blend s a d ∧ blend s a d ≤ 1) ∧
    (0 ≤ fmul (blend s a d) 255.0 ∧ fmul (blend s a d) 255.0 ≤ 255) ∧
    (composite s a d : ℤ) = ⌊fmul (blend s a d) 255.0⌋ ∧ composite s a d ≤ 255 := by
  obtain ⟨hb0, hb1⟩ := blend_range d hd a s ha0 ha1 hs0 hs1
  have hm0 : 0 ≤ fmul (blend s a d) 255.0 := by
    unfold fmul; exact fl_nonneg (by rw [lit_255]; positivity)
  have hm1 : fmul (blend s a d) 255.0 ≤ 255 := by
    unfold fmul
    have := fl_mono (show blend s a d * 255.0 ≤ 255 by rw [lit_255]; linarith)
    rwa [fl_255] at this
  refine ⟨⟨hb0, hb1⟩, ⟨hm0, hm1⟩, ?_⟩
  unfold composite
  exact toQuint8_of_range _ hm0 (by linarith)

theorem composite_no_wrap_witness :
    200 ≤ 255 ∧ (0 : ℚ) ≤ 1 / 2 ∧ (1 / 2 : ℚ) ≤ 1 ∧ (0 : ℚ) ≤ 1 / 4 ∧ (1 / 4 : ℚ) ≤ 1 ∧
    (0 ≤ blend (1 / 4) (1 / 2) 200 ∧ blend (1 / 4) (1 / 2) 200 ≤ 1) ∧
    (0 ≤ fmul (blend (1 / 4) (1 / 2) 200) 255.0 ∧
      fmul (blend (1 / 4) (1 / 2) 200) 255.0 ≤ 255) ∧
    (composite (1 / 4) (1 / 2) 200 : ℤ) = ⌊fmul (blend (1 / 4) (1 / 2) 200) 255.0⌋ ∧
    composite (1 / 4) (1 / 2) 200 ≤ 255 :=
  ⟨by norm_num, by norm_num, by norm_num, by norm_num, by norm_num,
    composite_no_wrap 200 (by norm_num) (1 / 2) (1 / 4) (by norm_num) (by norm_num)
      (by norm_num) (by norm_num)⟩

/-! ## The rounding error of `fl` -/

theorem roundHalfEven_err (y : ℚ) : |(roundHalfEven y : ℚ) - y| ≤ 1 / 2 := by
  have h1 : (⌊y⌋ : ℚ) ≤ y := Int.floor_le y
  have h2 : y < (⌊y⌋ : ℚ) + 1 := Int.lt_floor_add_one y
  unfold roundHalfEven
  simp only
  split_ifs with c1 c2 c3
  · rw [abs_le]; constructor <;> linarith
  · rw [abs_le]; push_cast; constructor <;> linarith
  · rw [abs_le]; constructor <;> linarith
  · rw [abs_le]; push_cast; constructor <;> linarith

/-- The rounding error of `fl` is at most half a unit in the last place: for
`|x| ≤ 2 ^ a` (in the normal range) it is at most `2 ^ (a - 53)`. -/
theorem fl_err (x : ℚ) (a : ℤ) (ha : -1022 ≤ a) (hx : |x| ≤ (2 : ℚ) ^ a) :
    |fl x - x| ≤ (2 : ℚ) ^ (a - 53) := by
  by_cases h0 : x = 0
  · subst h0; rw [fl_zero]; simp; positivity
  have hp := pow2_pos (ulpExp x)
  have hE : ulpExp x ≤ a - 52 := by
    have h1 := (ilog2_spec x h0).1
    have h2 : (2 : ℚ) ^ ilog2 x ≤ (2 : ℚ) ^ a := le_trans h1 hx
    have h3 : ilog2 x ≤ a := (zpow_le_zpow_iff_right₀ (by norm_num : (1 : ℚ) < 2)).mp h2
    unfold ulpExp
    omega
  have herr := roundHalfEven_err (x / pow2 (ulpExp x))
  have hfl : fl x - x =
      ((roundHalfEven (x / pow2 (ulpExp x)) : ℚ) - x / pow2 (ulpExp x)) * pow2 (ulpExp x) := by
    rw [fl_def]; field_simp
  rw [hfl, abs_mul, abs_of_pos hp]
  have two_ne : (2 : ℚ) ≠ 0 := by norm_num
  have hpow : pow2 (ulpExp x) ≤ (2 : ℚ) ^ (a - 52) := by
    rw [pow2_eq]; exact zpow_le_zpow_right₀ (by norm_num) hE
  have hsplit : (2 : ℚ) ^ (a - 52) = 2 * (2 : ℚ) ^ (a - 53) := by
    rw [show a - 52 = 1 + (a - 53) by ring, zpow_add₀ two_ne, zpow_one]
  calc |(roundHalfEven (x / pow2 (ulpExp x)) : ℚ) - x / pow2 (ulpExp x)| * pow2 (ulpExp x)
      ≤ 1 / 2 * pow2 (ulpExp x) := mul_le_mul_of_nonneg_right herr hp.le
    _ ≤ 1 / 2 * (2 : ℚ) ^ (a - 52) := mul_le_mul_of_nonneg_left hpow (by norm_num)
    _ = (2 : ℚ) ^ (a - 53) := by rw [hsplit]; ring

theorem fl_err_one (x : ℚ) (h : |x| ≤ 1) : |fl x - x| ≤ 1 / 2 ^ 53 := by
  have := fl_err x 0 (by norm_num) (by simpa using h)
  norm_num at this ⊢
  exact this

theorem fl_err_two (x : ℚ) (h : |x| ≤ 2) : |fl x - x| ≤ 1 / 2 ^ 52 := by
  have := fl_err x 1 (by norm_num) (by simpa using h)
  norm_num at this ⊢
  exact this

theorem fl_err_four (x : ℚ) (h : |x| ≤ 4) : |fl x - x| ≤ 1 / 2 ^ 51 := by
  have := fl_err x 2 (by norm_num) (by norm_num; exact h)
  norm_num at this ⊢
  exact this

theorem fl_err_256 (x : ℚ) (h : |x| ≤ 256) : |fl x - x| ≤ 1 / 2 ^ 45 := by
  have := fl_err x 8 (by norm_num) (by norm_num; exact h)
  norm_num at this ⊢
  exact this

/-- With alpha `1.0` the binary64 blend is the source colour up to three roundings. -/
theorem blend_alpha_one_near (d : ℕ) (hd : d ≤ 255) (s : ℚ) (hs0 : 0 ≤ s) (hs1 : s ≤ 1) :
    |blend s 1 d - s| ≤ 1 / 2 ^ 50 := by
  obtain ⟨hc0, hc1⟩ := dstColor_range d hd
  simp only [blend, fdiv, fadd, fmul, fsub, lit_255, mul_one]
  set dc := fl ((d : ℚ) / 255) with hdc
  have e1 := fl_err_one (s - dc) (abs_le.mpr ⟨by linarith, by linarith⟩)
  obtain ⟨e1a, e1b⟩ := abs_le.mp e1
  have e2 := fl_err_two (fl (s - dc)) (abs_le.mpr ⟨by norm_num at e1a ⊢; linarith,
    by norm_num at e1b ⊢; linarith⟩)
  obtain ⟨e2a, e2b⟩ := abs_le.mp e2
  have e3 := fl_err_four (dc + fl (fl (s - dc))) (abs_le.mpr
    ⟨by norm_num at e1a e2a ⊢; linarith, by norm_num at e1b e2b ⊢; linarith⟩)
  obtain ⟨e3a, e3b⟩ := abs_le.mp e3
  rw [abs_le]
  constructor
  · norm_num at e1a e2a e3a ⊢; linarith
  · norm_num at e1b e2b e3b ⊢; linarith

/-- With alpha `1.0` the value converted to a byte is `sourceColor · 255` up to `2^-41`. -/
theorem scaled_alpha_one_near (d : ℕ) (hd : d ≤ 255) (s : ℚ) (hs0 : 0 ≤ s) (hs1 : s ≤ 1) :
    |fmul (blend s 1 d) 255.0 - s * 255| ≤ 1 / 2 ^ 41 := by
  have hb := blend_alpha_one_near d hd s hs0 hs1
  obtain ⟨hba, hbb⟩ := abs_le.mp hb
  simp only [fmul, lit_255]
  have e4 := fl_err_256 (blend s 1 d * 255) (abs_le.mpr
    ⟨by norm_num at hba ⊢; linarith, by norm_num at hbb ⊢; linarith⟩)
  obtain ⟨e4a, e4b⟩ := abs_le.mp e4
  rw [abs_le]
  constructor
  · norm_num at hba e4a ⊢; linarith
  · norm_num at hbb e4b ⊢; linarith

/-- With alpha `1.0`, a source colour `s` in `[0, 1]` whose `s · 255` is at least `2^-41`
above and `2^-40` below the neighbouring integers is stored as the integer part of
`s · 255`. -/
theorem composite_alpha_one_floor (d : ℕ) (hd : d ≤ 255) (s : ℚ) (hs0 : 0 ≤ s) (hs1 : s ≤ 1)
    (q : ℤ) (hq1 : (q : ℚ) + 1 / 2 ^ 41 ≤ s * 255)
    (hq2 : s * 255 ≤ (q : ℚ) + 1 - 1 / 2 ^ 40) :
    (composite s 1 d : ℤ) = q ∧ ⌊s * 255⌋ = q := by
  have hn := scaled_alpha_one_near d hd s hs0 hs1
  obtain ⟨hna, hnb⟩ := abs_le.mp hn
  have hfloor : ⌊s * 255⌋ = q := by
    rw [Int.floor_eq_iff]
    constructor
    · norm_num at hq1 ⊢; linarith
    · norm_num at hq2 ⊢; linarith
  have hq0 : 0 ≤ q := by
    rw [← hfloor]; exact Int.floor_nonneg.mpr (by positivity)
  have hq0' : (0 : ℚ) ≤ (q : ℚ) := by exact_mod_cast hq0
  have hw : ⌊fmul (blend s 1 d) 255.0⌋ = q := by
    rw [Int.floor_eq_iff]
    constructor
    · norm_num at hna hq1 ⊢; linarith
    · norm_num at hnb hq2 ⊢; linarith
  refine ⟨?_, hfloor⟩
  unfold composite
  rw [(toQuint8_of_range _ (by norm_num at hna hq1 ⊢; linarith)
    (by norm_num at hnb hq2 ⊢; linarith)).1, hw]

theorem srcColor_bw_plateau (j : ℕ) (hj : j ≤ 8) :
    srcColor Outline.bw (((j + 4 : ℕ) : ℚ) / 16) = (3 * (j : ℚ) + 4) / 32 := by
  interval_cases j <;> decide!

theorem plateau_colour_frac (j : ℕ) (hj : j ≤ 8) :
    ∃ q : ℤ, (q : ℚ) + 1 / 2 ^ 41 ≤ (3 * (j : ℚ) + 4) / 32 * 255 ∧
      (3 * (j : ℚ) + 4) / 32 * 255 ≤ (q : ℚ) + 1 - 1 / 2 ^ 40 := by
  interval_cases j
  · exact ⟨31, by norm_num, by norm_num⟩
  · exact ⟨55, by norm_num, by norm_num⟩
  · exact ⟨79, by norm_num, by norm_num⟩
  · exact ⟨103, by norm_num, by norm_num⟩
  · exact ⟨127, by norm_num, by norm_num⟩
  · exact ⟨151, by norm_num, by norm_num⟩
  · exact ⟨175, by norm_num, by norm_num⟩
  · exact ⟨199, by norm_num, by norm_num⟩
  · exact ⟨223, by norm_num, by norm_num⟩

theorem fl_fl_zero_sub (d : ℕ) (hd : d ≤ 255) :
    fl (fl ((d : ℚ) / 255) + fl (fl (0 - fl ((d : ℚ) / 255)) * 1)) = 0 := by
  obtain ⟨hfix, -⟩ := dstColor_sweep d (by omega)
  have hneg : fl (-fl ((d : ℚ) / 255)) = -fl ((d : ℚ) / 255) := by rw [fl_neg, hfix]
  rw [zero_sub, mul_one, hneg, hneg, add_neg_cancel, fl_zero]

theorem composite_black_one (d : ℕ) (hd : d ≤ 255) : composite 0.0 1 d = 0 := by
  simp only [composite, blend, fdiv, fadd, fmul, fsub, lit_255, lit_zero]
  rw [fl_fl_zero_sub d hd, zero_mul, fl_zero]
  decide

/-- The source colours the pass composites with alpha `1.0` (on a binary window) are stored
as the integer part of `sourceColor · 255`. -/
theorem composite_pass_colour (style : Outline) (w : Window) (hb : w.Binary) (d : ℕ)
    (hd : d ≤ 255) (ha : alpha style (estimate w) = 1) :
    (composite (srcColor style (estimate w)) (alpha style (estimate w)) d : ℤ) =
      ⌊srcColor style (estimate w) * 255⌋ := by
  obtain ⟨k, hk, he⟩ := estimate_grid w hb
  rw [ha]
  cases style with
  | bw =>
    have hspec : specAlphaA ((k : ℚ) / 16) = 1 := by
      rw [← alpha_bw_grid k hk, ← he]; exact ha
    have hk0 : (0 : ℚ) ≤ (k : ℚ) / 16 := by positivity
    have hk1 : (k : ℚ) / 16 ≤ 1 := by
      rw [div_le_one (by norm_num)]; exact_mod_cast hk
    obtain ⟨h4, h12⟩ := (specAlphaA_props _ hk0 hk1).2.2.mp hspec
    have h4' : 4 ≤ k := by
      have : (4 : ℚ) ≤ (k : ℚ) := by linarith
      exact_mod_cast this
    have h12' : k ≤ 12 := by
      have : (k : ℚ) ≤ 12 := by linarith
      exact_mod_cast this
    obtain ⟨j, rfl⟩ : ∃ j, k = j + 4 := ⟨k - 4, by omega⟩
    have hj : j ≤ 8 := by omega
    have hjq : (j : ℚ) ≤ 8 := by exact_mod_cast hj
    rw [he, srcColor_bw_plateau j hj]
    have hs0 : (0 : ℚ) ≤ (3 * (j : ℚ) + 4) / 32 := by positivity
    have hs1 : (3 * (j : ℚ) + 4) / 32 ≤ 1 := by
      rw [div_le_one (by norm_num)]; linarith
    obtain ⟨q, hq1, hq2⟩ := plateau_colour_frac j hj
    obtain ⟨hc, hf⟩ := composite_alpha_one_floor d hd _ hs0 hs1 q hq1 hq2
    rw [hc, hf]
  | normal =>
    simp only [srcColor]
    rw [composite_black_one d hd, lit_zero]
    simp

/-- C9 (as stated, refuted): with alpha `1.0` the compositor does not store
`round(sourceColor·255)`.  At `v = 1/4` the black & white outline has alpha `1` and source
colour `1/8`; over the destination byte `128` the code stores `31`, while
`round(1/8 · 255) = round(31.875) = 32`.  And for a source colour outside the ones the pass
produces, the double nearest to `33/255`, over the destination byte `1` the code stores
`32` although `sourceColor·255 ≥ 33`. -/
theorem composite_alpha_one_not_round :
    alpha Outline.bw (1 / 4) = 1 ∧ srcColor Outline.bw (1 / 4) = 1 / 8 ∧
    composite (1 / 8) 1 128 = 31 ∧ round ((1 / 8 : ℚ) * 255) = 32 ∧
    composite (fl (33 / 255)) 1 1 = 32 ∧ ⌊fl (33 / 255) * 255⌋ = 33 := by
  refine ⟨by decide!, by decide!, by decide!, ?_, by decide!, by decide!⟩
  rw [round_eq]
  norm_num [Int.floor_eq_iff]

/-- C9 (amended): for every destination intensity `d` in `0..255` and every source colour
`s` in `[0, 1]` whose `s·255` is at least `2^-41` above and `2^-40` below the neighbouring
integers, compositing with alpha `1` sets the destination to the integer part of `s·255`
(`s·255` rounded toward zero); and so it does for every source colour the pass composites
with alpha `1` (the style's source colour for an estimator value whose alpha is `1`). -/
theorem composite_alpha_one_trunc (d : ℕ) (hd : d ≤ 255) (s : ℚ) (hs0 : 0 ≤ s) (hs1 : s ≤ 1)
    (hlo : (⌊s * 255⌋ : ℚ) + 1 / 2 ^ 41 ≤ s * 255)
    (hhi : s * 255 ≤ (⌊s * 255⌋ : ℚ) + 1 - 1 / 2 ^ 40) :
    (composite s 1 d : ℤ) = ⌊s * 255⌋ ∧
    (∀ (style : Outline) (w : Window), w.Binary → alpha style (estimate w) = 1 →
      (composite (srcColor style (estimate w)) (alpha style (estimate w)) d : ℤ) =
        ⌊srcColor style (estimate w) * 255⌋) :=
  ⟨(composite_alpha_one_floor d hd s hs0 hs1 _ hlo hhi).1,
    fun style w hb ha => composite_pass_colour style w hb d hd ha⟩

theorem floor_eighth_255 : ⌊(1 / 8 : ℚ) * 255⌋ = 31 := by
  rw [Int.floor_eq_iff]; norm_num

theorem composite_alpha_one_trunc_witness :
    77 ≤ 255 ∧ (0 : ℚ) ≤ 1 / 8 ∧ (1 / 8 : ℚ) ≤ 1 ∧
    (⌊(1 / 8 : ℚ) * 255⌋ : ℚ) + 1 / 2 ^ 41 ≤ 1 / 8 * 255 ∧
    (1 / 8 : ℚ) * 255 ≤ (⌊(1 / 8 : ℚ) * 255⌋ : ℚ) + 1 - 1 / 2 ^ 40 ∧
    (composite (1 / 8) 1 77 : ℤ) = ⌊(1 / 8 : ℚ) * 255⌋ ∧
    (∀ (style : Outline) (w : Window), w.Binary → alpha style (estimate w) = 1 →
      (composite (srcColor style (estimate w)) (alpha style (estimate w)) 77 : ℤ) =
        ⌊srcColor style (estimate w) * 255⌋) :=
  ⟨by norm_num, by norm_num, by norm_num,
    by rw [floor_eighth_255]; norm_num, by rw [floor_eighth_255]; norm_num,
    composite_alpha_one_trunc 77 (by norm_num) (1 / 8) (by norm_num) (by norm_num)
      (by rw [floor_eighth_255]; norm_num) (by rw [floor_eighth_255]; norm_num)⟩

/-! ## The pixels the pass processes -/

/-- On a well-formed canvas with a well-formed mask at least as large, the pass returns a
canvas whose byte at a visited pixel is `pixelValue` of the pre-pass byte and of the binary
window sampled there, and whose other bytes are the pre-pass bytes. -/
theorem outlinePass_mask_spec (style : Outline) (canvas mask : QImage) (hc : canvas.WF)
    (hm : mask.WF) (hw : canvas.width ≤ mask.width) (hh : canvas.height ≤ mask.height) :
    ∃ c', outlinePass style (sampleMask mask) canvas = some c' ∧
      ∀ x y, x < canvas.bytesPerLine → y < canvas.height →
        (visited canvas x y → ∃ w d, sampleMask mask x y = some w ∧ w.Binary ∧
            canvas.pixel x y = some d ∧ c'.pixel x y = some (pixelValue style w d)) ∧
        (¬ visited canvas x y → c'.pixel x y = canvas.pixel x y) := by
  obtain ⟨c', hc', -, -, -, -, hpix⟩ := outlinePass_spec style (sampleMask mask) canvas hc
    (fun x y hv => (sampleMask_visited canvas mask hm hw hh x y hv).imp fun _ h => h.1)
  refine ⟨c', hc', ?_⟩
  intro x y hx hy
  obtain ⟨hdone, hnot⟩ := hpix x y hx hy
  refine ⟨fun hv => ?_, hnot⟩
  obtain ⟨w, d, hw', hd, hcur⟩ := hdone hv
  obtain ⟨w', hw'', hbin⟩ := sampleMask_visited canvas mask hm hw hh x y hv
  rw [hw'] at hw''
  cases hw''
  exact ⟨w, d, hw', hbin, hd, hcur⟩

theorem pixelValue_eq (style : Outline) (w : Window) (d : ℕ) :
    pixelValue style w d =
      if 0 < estimate w ∧ estimate w < 1 ∧ 0 < alpha style (estimate w) then
        composite (srcColor style (estimate w)) (alpha style (estimate w)) d
      else d := by
  have z : (0.0 : ℚ) = 0 := by norm_num
  have o : (1.0 : ℚ) = 1 := by norm_num
  unfold pixelValue
  simp only [z, o]
  by_cases h1 : estimate w ≤ 0 ∨ estimate w ≥ 1
  · rw [if_pos h1, if_neg]
    rintro ⟨a, b, -⟩
    rcases h1 with h1 | h1 <;> linarith
  · rw [if_neg h1]
    push_neg at h1
    by_cases h2 : alpha style (estimate w) > 0
    · rw [if_pos h2, if_pos ⟨h1.1, h1.2, h2⟩]
    · rw [if_neg h2, if_neg]
      rintro ⟨-, -, c⟩
      exact h2 c

/-- C11 (as stated, refuted): the pixel `(1, 1)` of the 7×7 demo canvas lies in the range
`1 ≤ x < width − 1`, `1 ≤ y < height − 1`, its sample window has `v = 3/4` and Policy A
alpha `1`, so compositing would turn its byte `64` into `223`; the pass leaves it at `64`,
because its loops start at `2` and stop before `width − 2`, `height − 2`. -/
theorem one_pixel_border_refuted :
    ∃ c' w, outlinePass Outline.bw (sampleMask demoMask) demoCanvas = some c' ∧
      (1 ≤ 1 ∧ 1 < demoCanvas.width - 1 ∧ 1 ≤ 1 ∧ 1 < demoCanvas.height - 1) ∧
      sampleMask demoMask 1 1 = some w ∧ estimate w = 3 / 4 ∧
      alpha Outline.bw (estimate w) = 1 ∧
      composite (srcColor Outline.bw (estimate w)) (alpha Outline.bw (estimate w)) 64 = 223 ∧
      demoCanvas.pixel 1 1 = some 64 ∧ c'.pixel 1 1 = some 64 := by
  obtain ⟨c', hc', hpix⟩ := outlinePass_mask_spec Outline.bw demoCanvas demoMask
    (by decide) (by decide) (by decide) (by decide)
  have h := (hpix 1 1 (by decide) (by decide)).2 (by decide)
  refine ⟨c', ⟨1, 1, 0, 1, 1, 0, 1, 1, 0⟩, hc', by decide, by decide!, by decide!, by decide!,
    by decide!, by decide, ?_⟩
  rw [h]
  decide

/-- C11 (amended): the pass processes exactly the pixels `(x, y)` with `2 ≤ x < width − 2`
and `2 ≤ y < height − 2`, a 2-pixel border is never processed.  On a well-formed canvas
with a well-formed mask at least as large the pass returns a canvas in which every pixel of
that range had its 3×3 neighbourhood sampled into a binary window `w` and holds the
composited byte when `0 < v < 1` and `alpha > 0` for `v = estimate w`, its pre-pass byte
otherwise; every pixel outside that range holds its pre-pass byte. -/
theorem outlinePass_processes (style : Outline) (canvas mask : QImage) (hc : canvas.WF)
    (hm : mask.WF) (hw : canvas.width ≤ mask.width) (hh : canvas.height ≤ mask.height) :
    ∃ c', outlinePass style (sampleMask mask) canvas = some c' ∧
      ∀ x y, x < canvas.width → y < canvas.height →
        ((2 ≤ x ∧ x < canvas.width - 2 ∧ 2 ≤ y ∧ y < canvas.height - 2) →
          ∃ w d, sampleMask mask x y = some w ∧ w.Binary ∧ canvas.pixel x y = some d ∧
            c'.pixel x y = some
              (if 0 < estimate w ∧ estimate w < 1 ∧ 0 < alpha style (estimate w) then
                composite (srcColor style (estimate w)) (alpha style (estimate w)) d
              else d)) ∧
        (¬ (2 ≤ x ∧ x < canvas.width - 2 ∧ 2 ≤ y ∧ y < canvas.height - 2) →
          c'.pixel x y = canvas.pixel x y) := by
  obtain ⟨c', hc', hpix⟩ := outlinePass_mask_spec style canvas mask hc hm hw hh
  refine ⟨c', hc', ?_⟩
  intro x y hx hy
  obtain ⟨hdone, hnot⟩ := hpix x y (lt_of_lt_of_le hx hc.1) hy
  refine ⟨fun hv => ?_, fun hv => hnot hv⟩
  obtain ⟨w, d, h1, h2, h3, h4⟩ := hdone hv
  exact ⟨w, d, h1, h2, h3, by rw [h4, pixelValue_eq]⟩

theorem outlinePass_processes_witness :
    demoCanvas.WF ∧ demoMask.WF ∧ demoCanvas.width ≤ demoMask.width ∧
    demoCanvas.height ≤ demoMask.height ∧
    ∃ c', outlinePass Outline.bw (sampleMask demoMask) demoCanvas = some c' ∧
      ∀ x y, x < demoCanvas.width → y < demoCanvas.height →
        ((2 ≤ x ∧ x < demoCanvas.width - 2 ∧ 2 ≤ y ∧ y < demoCanvas.height - 2) →
          ∃ w d, sampleMask demoMask x y = some w ∧ w.Binary ∧
            demoCanvas.pixel x y = some d ∧
            c'.pixel x y = some
              (if 0 < estimate w ∧ estimate w < 1 ∧ 0 < alpha Outline.bw (estimate w) then
                composite (srcColor Outline.bw (estimate w)) (alpha Outline.bw (estimate w)) d
              else d)) ∧
        (¬ (2 ≤ x ∧ x < demoCanvas.width - 2 ∧ 2 ≤ y ∧ y < demoCanvas.height - 2) →
          c'.pixel x y = demoCanvas.pixel x y) :=
  ⟨by decide, by decide, by decide, by decide,
    outlinePass_processes Outline.bw demoCanvas demoMask (by decide) (by decide) (by decide)
      (by decide)⟩

/-! ## The size of the mask -/

/-- The mask sampler consults the buffer and the stride of the mask only. -/
theorem sampleMask_congr (m m' : QImage) (hb : m.bits = m'.bits)
    (hs : m.bytesPerLine = m'.bytesPerLine) : sampleMask m = sampleMask m' := by
  funext x y
  unfold sampleMask QImage.read QImage.scanLine
  rw [hb, hs]

/-- C12 (as stated, refuted): `smallMask` is narrower than the demo canvas (5 < 7 columns)
and nothing rejects it: the pass runs to completion and writes the canvas.  At the visited
pixel `(4, 2)` the sampler reads the mask at column `5`, outside the mask's columns
`0..4`; the padding byte `255` found there gives the window a right column of ones, and the
pixel goes from `96` to `0`. -/
theorem small_mask_not_rejected :
    smallMask.WF ∧ demoCanvas.WF ∧ smallMask.width < demoCanvas.width ∧
    visited demoCanvas 4 2 ∧ smallMask.width ≤ 4 + 1 ∧
    smallMask.read (smallMask.scanLine 2 + 2 + ((4 : ℤ) - 2) + 1) = some 255 ∧
    sampleMask smallMask 4 2 = some ⟨0, 0, 1, 0, 0, 1, 0, 0, 1⟩ ∧
    demoCanvas.pixel 4 2 = some 96 ∧
    ∃ c', outlinePass Outline.normal (sampleMask smallMask) demoCanvas = some c' ∧
      c'.pixel 4 2 = some 0 := by
  refine ⟨by decide, by decide, by decide, by decide, by decide, by decide, by decide!,
    by decide, ?_⟩
  have h : (outlinePass Outline.normal (sampleMask smallMask) demoCanvas).bind
      (fun c => c.pixel 4 2) = some 0 := by decide!
  obtain ⟨c', h1, h2⟩ := Option.bind_eq_some.mp h
  exact ⟨c', h1, h2⟩

/-- C12 (amended): the code makes no dimension check and never consults the width or the
height of the mask.  A mask of any declared width and height, also smaller than the canvas,
whose buffer and stride are those of a well-formed mask at least as large as the canvas is
not rejected: the pass runs to completion and returns the canvas it returns for the larger
mask, reading the mask bytes at the offsets the stride gives. -/
theorem outlinePass_ignores_mask_size (style : Outline) (canvas mask big : QImage)
    (hc : canvas.WF) (hm : big.WF) (hw : canvas.width ≤ big.width)
    (hh : canvas.height ≤ big.height) (hb : mask.bits = big.bits)
    (hs : mask.bytesPerLine = big.bytesPerLine) :
    sampleMask mask = sampleMask big ∧
    ∃ c', outlinePass style (sampleMask mask) canvas = some c' ∧
      outlinePass style (sampleMask big) canvas = some c' := by
  have h := sampleMask_congr mask big hb hs
  obtain ⟨c', hc', -⟩ := outlinePass_mask_spec style canvas big hc hm hw hh
  exact ⟨h, c', by rw [h, hc'], hc'⟩

theorem outlinePass_ignores_mask_size_witness :
    demoCanvas.WF ∧ wideMask.WF ∧ demoCanvas.width ≤ wideMask.width ∧
    demoCanvas.height ≤ wideMask.height ∧ smallMask.bits = wideMask.bits ∧
    smallMask.bytesPerLine = wideMask.bytesPerLine ∧
    (sampleMask smallMask = sampleMask wideMask ∧
    ∃ c', outlinePass Outline.normal (sampleMask smallMask) demoCanvas = some c' ∧
      outlinePass Outline.normal (sampleMask wideMask) demoCanvas = some c') :=
  ⟨by decide, by decide, by decide, by decide, rfl, rfl,
    outlinePass_ignores_mask_size Outline.normal demoCanvas smallMask wideMask (by decide)
      (by decide) (by decide) (by decide) rfl rfl⟩

/-! ## Memory safety of the pass -/

theorem offset_lt_length (img : QImage) (hwf : img.WF) {x y : ℕ} (hx : x < img.bytesPerLine)
    (hy : y < img.height) : y * img.bytesPerLine + x < img.bits.length := by
  rw [hwf.2]
  have := Nat.mul_le_mul_right img.bytesPerLine (show y + 1 ≤ img.height from hy)
  rw [Nat.add_mul, Nat.one_mul] at this
  rw [Nat.mul_comm img.bytesPerLine img.height]
  linarith

/-- C17: for a well-formed canvas and a well-formed mask whose width and height are at
least those of the canvas, at every pixel `(x, y)` the pass visits: the nine mask reads, at
the pointers `src + (j − 1)·brushStride + (i − 1)` for `i, j ∈ {0, 1, 2}`, are the mask
pixels of column `x − 1 + i < mask.width` and row `y − 1 + j < mask.height` (with `1 ≤ x`,
`1 ≤ y`), and succeed; the canvas pointer `dst` is the pixel `(x, y)` with
`x < canvas.width`, `y < canvas.height`, and reading and writing it succeeds in every
canvas of the same shape; so the loop body returns a canvas, and the pass never reaches
the out-of-bounds branch. -/
theorem outlinePass_in_bounds (style : Outline) (canvas mask : QImage) (hc : canvas.WF)
    (hm : mask.WF) (hw : canvas.width ≤ mask.width) (hh : canvas.height ≤ mask.height) :
    (∀ x y, visited canvas x y →
      (1 ≤ x ∧ 1 ≤ y ∧ ∀ i j : ℕ, i ≤ 2 → j ≤ 2 →
        x - 1 + i < mask.width ∧ y - 1 + j < mask.height ∧
        ∃ b, mask.read (mask.scanLine y + 2 + ((x : ℤ) - 2) +
              ((j : ℤ) - 1) * mask.bytesPerLine + ((i : ℤ) - 1)) = some b ∧
          mask.pixel (x - 1 + i) (y - 1 + j) = some b) ∧
      (∃ w, sampleMask mask x y = some w) ∧
      x < canvas.width ∧ y < canvas.height ∧
      ∀ cur : QImage, cur.bytesPerLine = canvas.bytesPerLine →
        cur.bits.length = canvas.bits.length →
        (∃ d, cur.read (cur.scanLine y + 2 + ((x : ℤ) - 2)) = some d ∧
          cur.pixel x y = some d) ∧
        (∀ v, ∃ cur', cur.write (cur.scanLine y + 2 + ((x : ℤ) - 2)) v = some cur') ∧
        ∃ cur', pixelStep style (sampleMask mask) y cur x = some cur') ∧
    ∃ c', outlinePass style (sampleMask mask) canvas = some c' := by
  refine ⟨?_, (outlinePass_mask_spec style canvas mask hc hm hw hh).imp fun _ h => h.1⟩
  rintro x y ⟨hx1, hx2, hy1, hy2⟩
  obtain ⟨w, hws, -⟩ := sampleMask_visited canvas mask hm hw hh x y ⟨hx1, hx2, hy1, hy2⟩
  refine ⟨⟨by omega, by omega, ?_⟩, ⟨w, hws⟩, by omega, by omega, ?_⟩
  · intro i j hi hj
    have hxi : x - 1 + i < mask.width := by omega
    have hyj : y - 1 + j < mask.height := by omega
    obtain ⟨b, hb⟩ := pixel_some_of_lt mask hm (lt_of_lt_of_le hxi hm.1) hyj
    refine ⟨hxi, hyj, b, ?_, hb⟩
    rw [read_offset mask _ (x - 1 + i) (y - 1 + j) ?_, hb]
    unfold QImage.scanLine
    push_cast [Nat.cast_sub (show 1 ≤ x by omega), Nat.cast_sub (show 1 ≤ y by omega)]
    ring
  · intro cur hbpl hlen
    have hdst : cur.scanLine y + 2 + ((x : ℤ) - 2) = ((y * cur.bytesPerLine + x : ℕ) : ℤ) := by
      unfold QImage.scanLine; push_cast; ring
    have hlt : y * cur.bytesPerLine + x < cur.bits.length := by
      rw [hbpl, hlen]
      exact offset_lt_length canvas hc (by have := hc.1; omega) (by omega)
    have hpix : cur.pixel x y = some (cur.bits[y * cur.bytesPerLine + x]) := by
      unfold QImage.pixel
      exact List.getElem?_eq_getElem hlt
    refine ⟨⟨_, ?_, hpix⟩, ?_, ?_⟩
    · rw [read_offset cur _ x y hdst, hpix]
    · intro v
      unfold QImage.write
      rw [hdst, if_pos ⟨Int.ofNat_nonneg _, by rw [Int.toNat_ofNat]; exact hlt⟩]
      exact ⟨_, rfl⟩
    · exact ⟨_, pixelStep_spec style _ x y cur w _ hws hpix⟩

theorem outlinePass_in_bounds_witness :
    demoCanvas.WF ∧ demoMask.WF ∧ demoCanvas.width ≤ demoMask.width ∧
    demoCanvas.height ≤ demoMask.height ∧
    ((∀ x y, visited demoCanvas x y →
      (1 ≤ x ∧ 1 ≤ y ∧ ∀ i j : ℕ, i ≤ 2 → j ≤ 2 →
        x - 1 + i < demoMask.width ∧ y - 1 + j < demoMask.height ∧
        ∃ b, demoMask.read (demoMask.scanLine y + 2 + ((x : ℤ) - 2) +
              ((j : ℤ) - 1) * demoMask.bytesPerLine + ((i : ℤ) - 1)) = some b ∧
          demoMask.pixel (x - 1 + i) (y - 1 + j) = some b) ∧
      (∃ w, sampleMask demoMask x y = some w) ∧
      x < demoCanvas.width ∧ y < demoCanvas.height ∧
      ∀ cur : QImage, cur.bytesPerLine = demoCanvas.bytesPerLine →
        cur.bits.length = demoCanvas.bits.length →
        (∃ d, cur.read (cur.scanLine y + 2 + ((x : ℤ) - 2)) = some d ∧
          cur.pixel x y = some d) ∧
        (∀ v, ∃ cur', cur.write (cur.scanLine y + 2 + ((x : ℤ) - 2)) v = some cur') ∧
        ∃ cur', pixelStep Outline.bw (sampleMask demoMask) y cur x = some cur') ∧
    ∃ c', outlinePass Outline.bw (sampleMask demoMask) demoCanvas = some c') :=
  ⟨by decide, by decide, by decide, by decide,
    outlinePass_in_bounds Outline.bw demoCanvas demoMask (by decide) (by decide) (by decide)
      (by decide)⟩

/-! ## The pass is a pointwise map -/

/-- The invariant of the pass along any list of distinct pixels that are not yet done. -/
theorem passInOrder_inv (style : Outline) (sampler : ℕ → ℕ → Option Window) (c0 : QImage)
    (hwf : c0.WF) (order : List (ℕ × ℕ)) :
    ∀ (done : ℕ → ℕ → Prop) (cur : QImage), PassInv style sampler c0 done cur →
      order.Nodup →
      (∀ p ∈ order, ¬ done p.1 p.2 ∧ p.1 < c0.bytesPerLine ∧ p.2 < c0.height ∧
        ∃ w, sampler p.1 p.2 = some w) →
      ∃ c', passInOrder style sampler order cur = some c' ∧
        PassInv style sampler c0 (fun x y => done x y ∨ (x, y) ∈ order) c' := by
  induction order with
  | nil =>
    intro done cur hinv _ _
    refine ⟨cur, rfl, ?_⟩
    apply PassInv_congr _ _ _ _ _ _ _ hinv
    intro x y
    simp
  | cons p rest ih =>
    intro done cur hinv hnd hall
    obtain ⟨hp1, hp2, hp3, w, hw⟩ := hall p (List.mem_cons_self _ _)
    obtain ⟨cur', h1, h2⟩ := PassInv_step style sampler c0 hwf done cur p.1 p.2 w hinv hp2 hp3
      hp1 hw
    have hnd' := List.nodup_cons.mp hnd
    obtain ⟨c', h3, h4⟩ := ih (fun x' y' => done x' y' ∨ (x' = p.1 ∧ y' = p.2)) cur' h2 hnd'.2
      (by
        intro q hq
        obtain ⟨hq1, hq2, hq3, hq4⟩ := hall q (List.mem_cons_of_mem _ hq)
        refine ⟨?_, hq2, hq3, hq4⟩
        rintro (h | ⟨ha, hb⟩)
        · exact hq1 h
        · apply hnd'.1
          have : q = p := Prod.ext ha hb
          rw [← this]; exact hq)
    refine ⟨c', ?_, ?_⟩
    · unfold passInOrder at h3 ⊢
      rw [List.foldlM_cons, h1]
      exact h3
    · apply PassInv_congr _ _ _ _ _ _ _ h4
      intro x y
      simp only [List.mem_cons, Prod.mk.injEq]
      constructor
      · rintro ((h | ⟨ha, hb⟩) | h)
        · exact Or.inl h
        · exact Or.inr (Or.inl (Prod.ext ha hb))
        · exact Or.inr (Or.inr h)
      · rintro (h | h | h)
        · exact Or.inl (Or.inl h)
        · left; right
          subst h
          exact ⟨rfl, rfl⟩
        · exact Or.inr h

/-- A byte of the pointwise pass. -/
theorem pointwisePass_pixel (style : Outline) (sampler : ℕ → ℕ → Option Window)
    (canvas : QImage) (x y : ℕ) (hx : x < canvas.bytesPerLine) :
    (pointwisePass style sampler canvas).pixel x y =
      (canvas.pixel x y).map fun d =>
        if visited canvas x y then
          match sampler x y with
          | some w => pixelValue style w d
          | none => d
        else d := by
  unfold pointwisePass QImage.pixel
  simp only [List.getElem?_mapIdx]
  have h1 : (y * canvas.bytesPerLine + x) % canvas.bytesPerLine = x := by
    rw [Nat.add_comm, Nat.add_mul_mod_self_right, Nat.mod_eq_of_lt hx]
  have h2 : (y * canvas.bytesPerLine + x) / canvas.bytesPerLine = y := by
    rw [Nat.add_comm, Nat.add_mul_div_right _ _ (by omega), Nat.div_eq_of_lt hx, Nat.zero_add]
  rw [h1, h2]

/-- A canvas that satisfies the invariant of the finished pass is the pointwise pass. -/
theorem PassInv_pointwise (style : Outline) (sampler : ℕ → ℕ → Option Window) (c0 c' : QImage)
    (hwf : c0.WF) (done : ℕ → ℕ → Prop) (hdone : ∀ x y, done x y ↔ visited c0 x y)
    (h : PassInv style sampler c0 done c') : c' = pointwisePass style sampler c0 := by
  obtain ⟨h1, h2, h3, h4, h5⟩ := h
  have hbits : c'.bits = (pointwisePass style sampler c0).bits := by
    apply List.ext_getElem?
    intro i
    by_cases hi : i < c0.bits.length
    · have hpos : 0 < c0.bytesPerLine := by
        rcases Nat.eq_zero_or_pos c0.bytesPerLine with h0 | h0
        · rw [hwf.2, h0, Nat.zero_mul] at hi
          exact absurd hi (Nat.not_lt_zero _)
        · exact h0
      have hx : i % c0.bytesPerLine < c0.bytesPerLine := Nat.mod_lt _ hpos
      have hy : i / c0.bytesPerLine < c0.height := by
        rw [Nat.div_lt_iff_lt_mul hpos, Nat.mul_comm]
        rw [hwf.2] at hi
        exact hi
      have hidx : i / c0.bytesPerLine * c0.bytesPerLine + i % c0.bytesPerLine = i :=
        Nat.div_add_mod' i c0.bytesPerLine
      have hp := pointwisePass_pixel style sampler c0 _ (i / c0.bytesPerLine) hx
      obtain ⟨ha, hb⟩ := h5 _ _ hx hy
      have e1 : c'.bits[i]? = c'.pixel (i % c0.bytesPerLine) (i / c0.bytesPerLine) := by
        unfold QImage.pixel
        rw [h3, hidx]
      have e2 : (pointwisePass style sampler c0).bits[i]? =
          (pointwisePass style sampler c0).pixel (i % c0.bytesPerLine)
            (i / c0.bytesPerLine) := by
        unfold QImage.pixel
        have : (pointwisePass style sampler c0).bytesPerLine = c0.bytesPerLine := rfl
        rw [this, hidx]
      rw [e1, e2, hp]
      by_cases hv : visited c0 (i % c0.bytesPerLine) (i / c0.bytesPerLine)
      · obtain ⟨w, d, hw, hd, hcur⟩ := ha ((hdone _ _).mpr hv)
        rw [hcur, hd, Option.map_some', if_pos hv, hw]
      · rw [hb (fun hc => hv ((hdone _ _).mp hc))]
        cases hpix : c0.pixel (i % c0.bytesPerLine) (i / c0.bytesPerLine) with
        | none => rfl
        | some d => rw [Option.map_some', if_neg hv]
    · rw [List.getElem?_eq_none (by omega), List.getElem?_eq_none]
      unfold pointwisePass
      simp only [List.length_mapIdx]
      omega
  have hshape : c' = { c0 with bits := c'.bits } := by
    cases c'
    cases c0
    simp only [QImage.mk.injEq] at h1 h2 h3 ⊢
    exact ⟨h1, h2, h3, trivial⟩
  rw [hshape, hbits]
  rfl

theorem foldlM_pixels_map (style : Outline) (sampler : ℕ → ℕ → Option Window) (y : ℕ)
    (l : List ℕ) : ∀ cv : QImage,
      l.foldlM (fun cv x => pixelStep style sampler y cv x) cv =
        passInOrder style sampler (l.map fun x => (x, y)) cv := by
  unfold passInOrder
  induction l with
  | nil => intro cv; rfl
  | cons x rest ih =>
    intro cv
    rw [List.map_cons, List.foldlM_cons, List.foldlM_cons]
    cases pixelStep style sampler y cv x with
    | none => rfl
    | some cv' => exact ih cv'

/-- Running the inner loop over a list of rows is the pass along the pixels of these rows,
row after row and from left to right in each row. -/
theorem rows_eq_passInOrder (style : Outline) (sampler : ℕ → ℕ → Option Window) (width : ℕ)
    (rows : List ℕ) : ∀ cv : QImage,
      rows.foldlM (fun cv y => rowLoop style sampler width y cv) cv =
        passInOrder style sampler
          (rows.flatMap fun y => (List.range' 2 (width - 2 - 2)).map fun x => (x, y)) cv := by
  induction rows with
  | nil => intro cv; rfl
  | cons y rest ih =>
    intro cv
    rw [List.foldlM_cons, List.flatMap_cons]
    unfold passInOrder at ih ⊢
    rw [List.foldlM_append]
    have hrow : rowLoop style sampler width y cv =
        List.foldlM (fun cv p => pixelStep style sampler p.2 cv p.1) cv
          ((List.range' 2 (width - 2 - 2)).map fun x => (x, y)) := by
      unfold rowLoop forRange
      exact foldlM_pixels_map style sampler y _ cv
    rw [hrow]
    cases List.foldlM (fun cv p => pixelStep style sampler p.2 cv p.1) cv
        ((List.range' 2 (width - 2 - 2)).map fun x => (x, y)) with
    | none => rfl
    | some cv' => exact ih cv'

theorem PassInv_init (style : Outline) (sampler : ℕ → ℕ → Option Window) (c0 : QImage) :
    PassInv style sampler c0 (fun _ _ => False) c0 :=
  ⟨rfl, rfl, rfl, rfl, fun _ _ _ _ => ⟨fun h => h.elim, fun _ => rfl⟩⟩

/-- The pass along any duplicate-free list of exactly the visited pixels is the pointwise
pass. -/
theorem passInOrder_pointwise (style : Outline) (sampler : ℕ → ℕ → Option Window)
    (canvas : QImage) (hc : canvas.WF)
    (hs : ∀ x y, visited canvas x y → ∃ w, sampler x y = some w) (order : List (ℕ × ℕ))
    (hnd : order.Nodup) (hmem : ∀ x y, (x, y) ∈ order ↔ visited canvas x y) :
    passInOrder style sampler order canvas = some (pointwisePass style sampler canvas) := by
  obtain ⟨c', h1, h2⟩ := passInOrder_inv style sampler canvas hc order (fun _ _ => False) canvas
    (PassInv_init style sampler canvas) hnd (by
      rintro ⟨x, y⟩ hp
      have hv := (hmem x y).mp hp
      have := hc.1
      exact ⟨fun h => h, by have := hv.2.1; show x < _; omega,
        by have := hv.2.2.2; show y < _; omega, hs x y hv⟩)
  rw [h1, PassInv_pointwise style sampler canvas c' hc _ (fun x y => by
    rw [← hmem x y]; simp) h2]

/-- The mask sampler at `(x, y)` reads the mask pixels of the 3×3 neighbourhood only: two
masks that agree there give the same window. -/
theorem sampleMask_local (m m' : QImage) (x y : ℕ) (hx : 1 ≤ x) (hy : 1 ≤ y)
    (h : ∀ i j : ℕ, i ≤ 2 → j ≤ 2 → m.pixel (x - 1 + i) (y - 1 + j) =
      m'.pixel (x - 1 + i) (y - 1 + j)) :
    sampleMask m x y = sampleMask m' x y := by
  obtain ⟨x', rfl⟩ : ∃ x', x = x' + 1 := ⟨x - 1, by omega⟩
  obtain ⟨y', rfl⟩ : ∃ y', y = y' + 1 := ⟨y - 1, by omega⟩
  have e : ∀ (q : QImage) (i j : ℕ) (p : ℤ),
      p = q.scanLine (y' + 1) + 2 + (((x' + 1 : ℕ) : ℤ) - 2) +
        ((j : ℤ) - 1) * q.bytesPerLine + ((i : ℤ) - 1) →
      q.read p = q.pixel (x' + 1 - 1 + i) (y' + 1 - 1 + j) := by
    intro q i j p hp
    apply read_offset
    rw [hp]
    unfold QImage.scanLine
    simp only [Nat.add_sub_cancel]
    push_cast
    ring
  unfold sampleMask
  simp only [Option.bind_eq_bind, Option.pure_def]
  rw [e m 0 0 _ (by push_cast; ring), e m 1 0 _ (by push_cast; ring),
    e m 2 0 _ (by push_cast; ring), e m 0 1 _ (by push_cast; ring),
    e m 1 1 _ (by push_cast; ring), e m 2 1 _ (by push_cast; ring),
    e m 0 2 _ (by push_cast; ring), e m 1 2 _ (by push_cast; ring),
    e m 2 2 _ (by push_cast; ring),
    e m' 0 0 _ (by push_cast; ring), e m' 1 0 _ (by push_cast; ring),
    e m' 2 0 _ (by push_cast; ring), e m' 0 1 _ (by push_cast; ring),
    e m' 1 1 _ (by push_cast; ring), e m' 2 1 _ (by push_cast; ring),
    e m' 0 2 _ (by push_cast; ring), e m' 1 2 _ (by push_cast; ring),
    e m' 2 2 _ (by push_cast; ring),
    h 0 0 (by omega) (by omega), h 1 0 (by omega) (by omega), h 2 0 (by omega) (by omega),
    h 0 1 (by omega) (by omega), h 1 1 (by omega) (by omega), h 2 1 (by omega) (by omega),
    h 0 2 (by omega) (by omega), h 1 2 (by omega) (by omega), h 2 2 (by omega) (by omega)]

theorem rowPixels_nodup (width : ℕ) (rows : List ℕ) (hnd : rows.Nodup) :
    (rows.flatMap fun y => (List.range' 2 (width - 2 - 2)).map fun x => (x, y)).Nodup := by
  rw [List.nodup_flatMap]
  constructor
  · intro y _
    exact (List.nodup_range' 2 _).map (fun a b h => (Prod.mk.inj h).1)
  · refine List.Pairwise.imp ?_ hnd
    intro a b hab p hpa hpb
    obtain ⟨x1, -, rfl⟩ := List.mem_map.mp hpa
    obtain ⟨x2, -, h2⟩ := List.mem_map.mp hpb
    exact hab (Prod.mk.inj h2).2.symm

theorem passRows_pointwise (style : Outline) (sampler : ℕ → ℕ → Option Window)
    (canvas : QImage) (hc : canvas.WF)
    (hs : ∀ x y, visited canvas x y → ∃ w, sampler x y = some w) (rows : List ℕ)
    (hnd : rows.Nodup) (hmem : ∀ y, y ∈ rows ↔ 2 ≤ y ∧ y < canvas.height - 2) :
    passRows style sampler rows canvas = some (pointwisePass style sampler canvas) := by
  unfold passRows
  rw [rows_eq_passInOrder]
  apply passInOrder_pointwise style sampler canvas hc hs _ (rowPixels_nodup _ rows hnd)
  intro x y
  simp only [List.mem_flatMap, List.mem_map, List.mem_range'_1, Prod.mk.injEq, visited]
  constructor
  · rintro ⟨y', hy', x', hx', rfl, rfl⟩
    have := (hmem y').mp hy'
    omega
  · rintro ⟨h1, h2, h3, h4⟩
    exact ⟨y, (hmem y).mpr ⟨h3, h4⟩, x, by omega, rfl, rfl⟩

theorem outlinePass_eq_passRows (style : Outline) (sampler : ℕ → ℕ → Option Window)
    (canvas : QImage) :
    outlinePass style sampler canvas =
      passRows style sampler (List.range' 2 (canvas.height - 2 - 2)) canvas := rfl

/-- C18: on a well-formed canvas with a well-formed mask at least as large, the in-place
raster-order pass returns the pointwise map of the pre-pass canvas (`pointwisePass`: each
byte becomes a function of itself and of the window sampled at its pixel).  The same canvas
results when the visited pixels are processed in any order, and when the rows are processed
in any order (so for any partition of the rows among workers).  The post-pass byte of a
pixel depends only on its pre-pass byte and on the 3×3 mask neighbourhood: changing the
canvas elsewhere and the mask outside that neighbourhood does not change it. -/
theorem outlinePass_pointwise (style : Outline) (canvas mask : QImage) (hc : canvas.WF)
    (hm : mask.WF) (hw : canvas.width ≤ mask.width) (hh : canvas.height ≤ mask.height) :
    outlinePass style (sampleMask mask) canvas =
      some (pointwisePass style (sampleMask mask) canvas) ∧
    (∀ order : List (ℕ × ℕ), order.Nodup →
      (∀ x y, (x, y) ∈ order ↔ 2 ≤ x ∧ x < canvas.width - 2 ∧ 2 ≤ y ∧ y < canvas.height - 2) →
      passInOrder style (sampleMask mask) order canvas =
        some (pointwisePass style (sampleMask mask) canvas)) ∧
    (∀ rows : List ℕ, rows.Nodup → (∀ y, y ∈ rows ↔ 2 ≤ y ∧ y < canvas.height - 2) →
      passRows style (sampleMask mask) rows canvas =
        some (pointwisePass style (sampleMask mask) canvas)) ∧
    (∀ (canvas' mask' : QImage) (x y : ℕ), canvas'.width = canvas.width →
      canvas'.height = canvas.height → canvas'.bytesPerLine = canvas.bytesPerLine →
      x < canvas.width → y < canvas.height → canvas'.pixel x y = canvas.pixel x y →
      (∀ i j : ℕ, i ≤ 2 → j ≤ 2 →
        mask'.pixel (x - 1 + i) (y - 1 + j) = mask.pixel (x - 1 + i) (y - 1 + j)) →
      (pointwisePass style (sampleMask mask') canvas').pixel x y =
        (pointwisePass style (sampleMask mask) canvas).pixel x y) := by
  have hs : ∀ x y, visited canvas x y → ∃ w, sampleMask mask x y = some w :=
    fun x y hv => (sampleMask_visited canvas mask hm hw hh x y hv).imp fun _ h => h.1
  have hrows := passRows_pointwise style (sampleMask mask) canvas hc hs
  refine ⟨?_, ?_, hrows, ?_⟩
  · rw [outlinePass_eq_passRows]
    apply hrows _ (List.nodup_range' 2 _)
    intro y
    rw [List.mem_range'_1]
    omega
  · intro order hnd hmem
    exact passInOrder_pointwise style (sampleMask mask) canvas hc hs order hnd hmem
  · intro canvas' mask' x y h1 h2 h3 hx hy hpix hmask
    have hxs : x < canvas.bytesPerLine := lt_of_lt_of_le hx hc.1
    rw [pointwisePass_pixel style _ canvas' x y (by rw [h3]; exact hxs),
      pointwisePass_pixel style _ canvas x y hxs, hpix]
    have hvis : visited canvas' x y ↔ visited canvas x y := by
      unfold visited
      rw [h1, h2]
    by_cases hv : visited canvas x y
    · rw [sampleMask_local mask' mask x y (by have := hv.1; omega) (by have := hv.2.2.1; omega)
        hmask]
      simp only [hv, hvis.mpr hv, if_true]
    · have hv' : ¬ visited canvas' x y := fun h => hv (hvis.mp h)
      simp only [hv, hv', if_false]

theorem outlinePass_pointwise_witness :
    demoCanvas.WF ∧ demoMask.WF ∧ demoCanvas.width ≤ demoMask.width ∧
    demoCanvas.height ≤ demoMask.height ∧
    (outlinePass Outline.bw (sampleMask demoMask) demoCanvas =
      some (pointwisePass Outline.bw (sampleMask demoMask) demoCanvas) ∧
    (∀ order : List (ℕ × ℕ), order.Nodup →
      (∀ x y, (x, y) ∈ order ↔
        2 ≤ x ∧ x < demoCanvas.width - 2 ∧ 2 ≤ y ∧ y < demoCanvas.height - 2) →
      passInOrder Outline.bw (sampleMask demoMask) order demoCanvas =
        some (pointwisePass Outline.bw (sampleMask demoMask) demoCanvas)) ∧
    (∀ rows : List ℕ, rows.Nodup → (∀ y, y ∈ rows ↔ 2 ≤ y ∧ y < demoCanvas.height - 2) →
      passRows Outline.bw (sampleMask demoMask) rows demoCanvas =
        some (pointwisePass Outline.bw (sampleMask demoMask) demoCanvas)) ∧
    (∀ (canvas' mask' : QImage) (x y : ℕ), canvas'.width = demoCanvas.width →
      canvas'.height = demoCanvas.height → canvas'.bytesPerLine = demoCanvas.bytesPerLine →
      x < demoCanvas.width → y < demoCanvas.height →
      canvas'.pixel x y = demoCanvas.pixel x y →
      (∀ i j : ℕ, i ≤ 2 → j ≤ 2 →
        mask'.pixel (x - 1 + i) (y - 1 + j) = demoMask.pixel (x - 1 + i) (y - 1 + j)) →
      (pointwisePass Outline.bw (sampleMask mask') canvas').pixel x y =
        (pointwisePass Outline.bw (sampleMask demoMask) demoCanvas).pixel x y)) :=
  ⟨by decide, by decide, by decide, by decide,
    outlinePass_pointwise Outline.bw demoCanvas demoMask (by decide) (by decide) (by decide)
      (by decide)⟩

/-! ## No boundary pixel is missed -/

theorem specAlphaA_pos (v : ℚ) (h0 : 0 < v) (h1 : v < 1) : 0 < specAlphaA v := by
  unfold specAlphaA
  have : |2 * v - 1| < 1 := abs_lt.mpr ⟨by linarith, by linarith⟩
  exact lt_min (by linarith) one_pos

/-- A binary window whose estimator value is below `1/16` is all zeros, one whose estimator
value is above `15/16` is all ones. -/
theorem estimate_extreme (w : Window) (hb : w.Binary) :
    (estimate w < 1 / 16 → w = Window.const 0) ∧
    (15 / 16 < estimate w → w = Window.const 1) := by
  have he := (estimate_binary w hb).1
  obtain ⟨tlv, tv, trv, lv, cv, rv, blv, bv, brv⟩ := w
  obtain ⟨h1, h2, h3, h4, h5, h6, h7, h8, h9⟩ := hb
  simp only at h1 h2 h3 h4 h5 h6 h7 h8 h9 he
  have b1 : 0 ≤ tlv ∧ tlv ≤ 1 := by rcases h1 with h | h <;> rw [h] <;> norm_num
  have b2 : 0 ≤ tv ∧ tv ≤ 1 := by rcases h2 with h | h <;> rw [h] <;> norm_num
  have b3 : 0 ≤ trv ∧ trv ≤ 1 := by rcases h3 with h | h <;> rw [h] <;> norm_num
  have b4 : 0 ≤ lv ∧ lv ≤ 1 := by rcases h4 with h | h <;> rw [h] <;> norm_num
  have b5 : 0 ≤ cv ∧ cv ≤ 1 := by rcases h5 with h | h <;> rw [h] <;> norm_num
  have b6 : 0 ≤ rv ∧ rv ≤ 1 := by rcases h6 with h | h <;> rw [h] <;> norm_num
  have b7 : 0 ≤ blv ∧ blv ≤ 1 := by rcases h7 with h | h <;> rw [h] <;> norm_num
  have b8 : 0 ≤ bv ∧ bv ≤ 1 := by rcases h8 with h | h <;> rw [h] <;> norm_num
  have b9 : 0 ≤ brv ∧ brv ≤ 1 := by rcases h9 with h | h <;> rw [h] <;> norm_num
  norm_num at he
  constructor
  · intro hlt
    rw [he] at hlt
    have z : ∀ a : ℚ, (a = 0 ∨ a = 1) → a < 1 → a = 0 := by
      rintro a (h | h) hlt
      · exact h
      · linarith
    unfold Window.const
    rw [z tlv h1 (by linarith), z tv h2 (by linarith), z trv h3 (by linarith),
      z lv h4 (by linarith), z cv h5 (by linarith), z rv h6 (by linarith),
      z blv h7 (by linarith), z bv h8 (by linarith), z brv h9 (by linarith)]
  · intro hlt
    rw [he] at hlt
    have o : ∀ a : ℚ, (a = 0 ∨ a = 1) → 0 < a → a = 1 := by
      rintro a (h | h) hlt
      · linarith
      · exact h
    unfold Window.const
    rw [o tlv h1 (by linarith), o tv h2 (by linarith), o trv h3 (by linarith),
      o lv h4 (by linarith), o cv h5 (by linarith), o rv h6 (by linarith),
      o blv h7 (by linarith), o bv h8 (by linarith), o brv h9 (by linarith)]

/-- C20: for nine binary samples that are not all equal (the window is neither all zeros
nor all ones) the estimator value satisfies `1/16 ≤ v ≤ 15/16` and the skip condition
`v ≤ 0.0 || v >= 1.0` is false; the skip condition holds if and only if the nine samples
are all equal; and under Policy A every window that is not skipped has `alpha > 0.0`, so
that the value of the pixel after the pass is the composited one. -/
theorem boundary_not_missed (w : Window) (hb : w.Binary) :
    (w ≠ Window.const 0 → w ≠ Window.const 1 →
      1 / 16 ≤ estimate w ∧ estimate w ≤ 15 / 16 ∧
      ¬ (estimate w ≤ 0.0 ∨ estimate w ≥ 1.0)) ∧
    ((estimate w ≤ 0.0 ∨ estimate w ≥ 1.0) ↔ (w = Window.const 0 ∨ w = Window.const 1)) ∧
    (¬ (estimate w ≤ 0.0 ∨ estimate w ≥ 1.0) →
      alpha Outline.bw (estimate w) > 0.0 ∧
      ∀ d, pixelValue Outline.bw w d =
        composite (srcColor Outline.bw (estimate w)) (alpha Outline.bw (estimate w)) d) := by
  obtain ⟨hlo, hhi⟩ := estimate_extreme w hb
  rw [lit_zero, lit_one]
  have hmid : w ≠ Window.const 0 → w ≠ Window.const 1 →
      1 / 16 ≤ estimate w ∧ estimate w ≤ 15 / 16 := by
    intro h0 h1
    constructor
    · by_contra hc
      exact h0 (hlo (not_le.mp hc))
    · by_contra hc
      exact h1 (hhi (not_le.mp hc))
  refine ⟨?_, ?_, ?_⟩
  · intro h0 h1
    obtain ⟨ha, hb'⟩ := hmid h0 h1
    refine ⟨ha, hb', ?_⟩
    rintro (h | h) <;> linarith
  · constructor
    · intro hskip
      by_contra hc
      push_neg at hc
      obtain ⟨ha, hb'⟩ := hmid hc.1 hc.2
      rcases hskip with h | h <;> linarith
    · rintro (h | h)
      · left; rw [h, estimate_const_zero]
      · right; rw [h, estimate_const_one]
  · intro hns
    push_neg at hns
    obtain ⟨k, hk, hek⟩ := estimate_grid w hb
    have hpos : 0 < alpha Outline.bw (estimate w) := by
      rw [hek, alpha_bw_grid k hk, ← hek]
      exact specAlphaA_pos _ hns.1 hns.2
    refine ⟨hpos, fun d => ?_⟩
    rw [pixelValue_eq, if_pos ⟨hns.1, hns.2, hpos⟩]

theorem boundary_not_missed_witness :
    (Window.mk 0 0 1 0 0 0 0 0 0).Binary ∧
    ((Window.mk 0 0 1 0 0 0 0 0 0 ≠ Window.const 0 →
      Window.mk 0 0 1 0 0 0 0 0 0 ≠ Window.const 1 →
      1 / 16 ≤ estimate (Window.mk 0 0 1 0 0 0 0 0 0) ∧
      estimate (Window.mk 0 0 1 0 0 0 0 0 0) ≤ 15 / 16 ∧
      ¬ (estimate (Window.mk 0 0 1 0 0 0 0 0 0) ≤ 0.0 ∨
        estimate (Window.mk 0 0 1 0 0 0 0 0 0) ≥ 1.0)) ∧
    ((estimate (Window.mk 0 0 1 0 0 0 0 0 0) ≤ 0.0 ∨
        estimate (Window.mk 0 0 1 0 0 0 0 0 0) ≥ 1.0) ↔
      (Window.mk 0 0 1 0 0 0 0 0 0 = Window.const 0 ∨
        Window.mk 0 0 1 0 0 0 0 0 0 = Window.const 1)) ∧
    (¬ (estimate (Window.mk 0 0 1 0 0 0 0 0 0) ≤ 0.0 ∨
        estimate (Window.mk 0 0 1 0 0 0 0 0 0) ≥ 1.0) →
      alpha Outline.bw (estimate (Window.mk 0 0 1 0 0 0 0 0 0)) > 0.0 ∧
      ∀ d, pixelValue Outline.bw (Window.mk 0 0 1 0 0 0 0 0 0) d =
        composite (srcColor Outline.bw (estimate (Window.mk 0 0 1 0 0 0 0 0 0)))
          (alpha Outline.bw (estimate (Window.mk 0 0 1 0 0 0 0 0 0))) d)) :=
  ⟨by decide!, boundary_not_missed (Window.mk 0 0 1 0 0 0 0 0 0) (by decide!)⟩

/-! ## Running the pass twice -/

theorem PassInv_WF (style : Outline) (sampler : ℕ → ℕ → Option Window) (c0 c' : QImage)
    (hwf : c0.WF) (done : ℕ → ℕ → Prop) (h : PassInv style sampler c0 done c') : c'.WF := by
  obtain ⟨h1, h2, h3, h4, -⟩ := h
  unfold QImage.WF
  rw [h1, h2, h3, h4]
  exact hwf

/-- C16: the pass under Policy A is not idempotent.  With the 7×7 demo canvas and the mask
whose only non-zero pixel is `(3, 3)`, the window of the pixel `(2, 2)` has `v = 1/16`,
alpha `0.25` and source colour `0.0`: the first pass turns its byte `96` into `72`, a
second pass over the outlined canvas with the same mask turns it into `54`, so the second
pass returns a canvas different from the result of the first. -/
theorem policyA_not_idempotent :
    ∃ c1 c2 : QImage, demoCanvas.WF ∧ dotMask.WF ∧ demoCanvas.width ≤ dotMask.width ∧
      demoCanvas.height ≤ dotMask.height ∧
      outlinePass Outline.bw (sampleMask dotMask) demoCanvas = some c1 ∧
      outlinePass Outline.bw (sampleMask dotMask) c1 = some c2 ∧
      demoCanvas.pixel 2 2 = some 96 ∧ c1.pixel 2 2 = some 72 ∧ c2.pixel 2 2 = some 54 ∧
      c2 ≠ c1 := by
  have hs : ∀ (c : QImage), c.width = 7 → c.height = 7 → ∀ x y, visited c x y →
      ∃ w, sampleMask dotMask x y = some w := by
    intro c hw hh x y hv
    exact (sampleMask_visited c dotMask (by decide) (by rw [hw]; decide) (by rw [hh]; decide)
      x y hv).imp fun _ h => h.1
  obtain ⟨c1, hc1, hinv1⟩ := outlinePass_spec Outline.bw (sampleMask dotMask) demoCanvas
    (by decide) (hs demoCanvas rfl rfl)
  have hwf1 := PassInv_WF _ _ _ _ (by decide) _ hinv1
  have hw1 : c1.width = 7 := hinv1.1
  have hh1 : c1.height = 7 := hinv1.2.1
  have hb1 : c1.bytesPerLine = 8 := hinv1.2.2.1
  obtain ⟨c2, hc2, hinv2⟩ := outlinePass_spec Outline.bw (sampleMask dotMask) c1 hwf1
    (hs c1 hw1 hh1)
  have hsamp : sampleMask dotMask 2 2 = some ⟨0, 0, 0, 0, 0, 0, 0, 0, 1⟩ := by decide!
  have hp1 : c1.pixel 2 2 = some 72 := by
    obtain ⟨w, d, hw, hd, hcur⟩ := (hinv1.2.2.2.2 2 2 (by decide) (by decide)).1 (by decide)
    rw [hsamp] at hw
    cases hw
    have hd' : d = 96 := by
      have : demoCanvas.pixel 2 2 = some 96 := by decide
      rw [this] at hd
      exact (Option.some.inj hd).symm
    rw [hcur, hd']
    decide!
  have hp2 : c2.pixel 2 2 = some 54 := by
    obtain ⟨w, d, hw, hd, hcur⟩ := (hinv2.2.2.2.2 2 2 (by rw [hb1]; decide)
      (by rw [hh1]; decide)).1 (by unfold visited; rw [hw1, hh1]; decide)
    rw [hsamp] at hw
    cases hw
    rw [hp1] at hd
    rw [hcur, ← Option.some.inj hd]
    decide!
  refine ⟨c1, c2, by decide, by decide, by decide, by decide, hc1, hc2, by decide, hp1, hp2, ?_⟩
  intro heq
  rw [heq, hp1] at hp2
  exact absurd (Option.some.inj hp2) (by decide)

/-! ## A single non-zero mask pixel -/

/-- The four positions of a coordinate relative to the coordinate of the mask pixel. -/
theorem offset_cases (x x0 : ℕ) :
    ((x = x0) = True ∧ (x + 1 = x0) = False ∧ (x = x0 + 1) = False) ∨
    ((x = x0) = False ∧ (x + 1 = x0) = True ∧ (x = x0 + 1) = False) ∨
    ((x = x0) = False ∧ (x + 1 = x0) = False ∧ (x = x0 + 1) = True) ∨
    ((x = x0) = False ∧ (x + 1 = x0) = False ∧ (x = x0 + 1) = False) := by
  by_cases h1 : x = x0
  · exact Or.inl ⟨eq_true h1, eq_false (by omega), eq_false (by omega)⟩
  · by_cases h2 : x + 1 = x0
    · exact Or.inr (Or.inl ⟨eq_false h1, eq_true h2, eq_false (by omega)⟩)
    · by_cases h3 : x = x0 + 1
      · exact Or.inr (Or.inr (Or.inl ⟨eq_false h1, eq_false h2, eq_true h3⟩))
      · exact Or.inr (Or.inr (Or.inr ⟨eq_false h1, eq_false h2, eq_false h3⟩))

/-- The estimator value at `(x, y)`, when the sampler returns a window. -/
theorem estimate_single_pixel (canvas mask : QImage) (hm : mask.WF)
    (hw : canvas.width ≤ mask.width) (hh : canvas.height ≤ mask.height) (x0 y0 : ℕ)
    (hone : ∀ a b v, a < mask.width → b < mask.height → mask.pixel a b = some v →
      (0 < v ↔ a = x0 ∧ b = y0))
    (x y : ℕ) (hv : visited canvas x y) :
    ∃ w, sampleMask mask x y = some w ∧ w.Binary ∧
      estimate w =
        if x = x0 ∧ y = y0 then 1 / 4
        else if (x = x0 ∧ (y + 1 = y0 ∨ y = y0 + 1)) ∨ (y = y0 ∧ (x + 1 = x0 ∨ x = x0 + 1))
          then 1 / 8
        else if (x + 1 = x0 ∨ x = x0 + 1) ∧ (y + 1 = y0 ∨ y = y0 + 1) then 1 / 16
        else 0 := by
  obtain ⟨hx1, hx2, hy1, hy2⟩ := hv
  obtain ⟨tl, t, tr, l, c, r, bl, b, br, p1, p2, p3, p4, p5, p6, p7, p8, p9, hs⟩ :=
    sampleMask_spec mask hm x y (by omega) (by omega) (by omega) (by omega)
  have key : ∀ a b v, a < mask.width → b < mask.height → mask.pixel a b = some v →
      gtZero v = if a = x0 ∧ b = y0 then 1 else 0 := by
    intro a b v ha hb hp
    unfold gtZero
    by_cases hc : a = x0 ∧ b = y0
    · rw [if_pos hc, if_pos ((hone a b v ha hb hp).mpr hc)]
    · rw [if_neg hc, if_neg (fun h => hc ((hone a b v ha hb hp).mp h))]
  have hbin : (Window.mk (gtZero tl) (gtZero t) (gtZero tr) (gtZero l) (gtZero c) (gtZero r)
      (gtZero bl) (gtZero b) (gtZero br)).Binary :=
    ⟨gtZero_binary _, gtZero_binary _, gtZero_binary _, gtZero_binary _, gtZero_binary _,
      gtZero_binary _, gtZero_binary _, gtZero_binary _, gtZero_binary _⟩
  refine ⟨_, hs, hbin, ?_⟩
  rw [(estimate_binary _ hbin).1]
  simp only
  rw [key _ _ _ (by omega) (by omega) p1, key _ _ _ (by omega) (by omega) p2,
    key _ _ _ (by omega) (by omega) p3, key _ _ _ (by omega) (by omega) p4,
    key _ _ _ (by omega) (by omega) p5, key _ _ _ (by omega) (by omega) p6,
    key _ _ _ (by omega) (by omega) p7, key _ _ _ (by omega) (by omega) p8,
    key _ _ _ (by omega) (by omega) p9]
  have ex1 : x - 1 = x0 ↔ x = x0 + 1 := by omega
  have ey1 : y - 1 = y0 ↔ y = y0 + 1 := by omega
  simp only [ex1, ey1]
  rcases offset_cases x x0 with ⟨a1, a2, a3⟩ | ⟨a1, a2, a3⟩ | ⟨a1, a2, a3⟩ | ⟨a1, a2, a3⟩ <;>
    rcases offset_cases y y0 with ⟨b1, b2, b3⟩ | ⟨b1, b2, b3⟩ | ⟨b1, b2, b3⟩ | ⟨b1, b2, b3⟩ <;>
    simp only [a1, a2, a3, b1, b2, b3, and_self, and_true, true_and, and_false, false_and,
        or_true, true_or, or_false, false_or, or_self, if_true, if_false] <;>
    norm_num

/-- C15: for a well-formed mask, at least as large as the canvas, whose only non-zero pixel
is `(x0, y0)`, with the whole 3×3 ring around `(x0, y0)` visited by the pass: the estimator
value at a visited pixel is `0.25` at `(x0, y0)`, `0.125` at its four edge neighbours,
`0.0625` at its four diagonal neighbours and `0` at every other visited pixel; on the ring
`0 < v < 1`; and `v(x0+dx, y0+dy) = v(x0−dx, y0+dy) = v(x0+dx, y0−dy)` for all offsets
that stay among the visited pixels. -/
theorem single_pixel_ring (canvas mask : QImage) (hm : mask.WF)
    (hw : canvas.width ≤ mask.width) (hh : canvas.height ≤ mask.height) (x0 y0 : ℕ)
    (hone : ∀ a b v, a < mask.width → b < mask.height → mask.pixel a b = some v →
      (0 < v ↔ a = x0 ∧ b = y0))
    (hring1 : visited canvas (x0 - 1) (y0 - 1)) (hring2 : visited canvas (x0 + 1) (y0 + 1)) :
    (∀ x y, visited canvas x y → ∃ w, sampleMask mask x y = some w ∧
      estimate w =
        if x = x0 ∧ y = y0 then 0.25
        else if (x = x0 ∧ (y + 1 = y0 ∨ y = y0 + 1)) ∨ (y = y0 ∧ (x + 1 = x0 ∨ x = x0 + 1))
          then 0.125
        else if (x + 1 = x0 ∨ x = x0 + 1) ∧ (y + 1 = y0 ∨ y = y0 + 1) then 0.0625
        else 0) ∧
    (∀ i j : ℕ, i ≤ 2 → j ≤ 2 → ∃ w, sampleMask mask (x0 - 1 + i) (y0 - 1 + j) = some w ∧
      0 < estimate w ∧ estimate w < 1) ∧
    (∀ dx dy : ℕ, dx ≤ x0 → dy ≤ y0 → visited canvas (x0 - dx) (y0 - dy) →
      visited canvas (x0 + dx) (y0 + dy) →
      ∃ v : ℚ, (sampleMask mask (x0 + dx) (y0 + dy)).map estimate = some v ∧
        (sampleMask mask (x0 - dx) (y0 + dy)).map estimate = some v ∧
        (sampleMask mask (x0 + dx) (y0 - dy)).map estimate = some v ∧
        (sampleMask mask (x0 - dx) (y0 - dy)).map estimate = some v) := by
  have hall := estimate_single_pixel canvas mask hm hw hh x0 y0 hone
  have q1 : (0.25 : ℚ) = 1 / 4 := by norm_num
  have q2 : (0.125 : ℚ) = 1 / 8 := by norm_num
  have q3 : (0.0625 : ℚ) = 1 / 16 := by norm_num
  rw [q1, q2, q3]
  obtain ⟨r1, r2, r3, r4⟩ := hring1
  obtain ⟨s1, s2, s3, s4⟩ := hring2
  refine ⟨?_, ?_, ?_⟩
  · intro x y hv
    obtain ⟨w, h1, -, h2⟩ := hall x y hv
    exact ⟨w, h1, h2⟩
  · intro i j hi hj
    obtain ⟨w, h1, -, h2⟩ := hall (x0 - 1 + i) (y0 - 1 + j)
      ⟨by omega, by omega, by omega, by omega⟩
    refine ⟨w, h1, ?_⟩
    rw [h2]
    rcases offset_cases (x0 - 1 + i) x0 with ⟨a1, a2, a3⟩ | ⟨a1, a2, a3⟩ | ⟨a1, a2, a3⟩ |
        ⟨a1, a2, a3⟩ <;>
      rcases offset_cases (y0 - 1 + j) y0 with ⟨b1, b2, b3⟩ | ⟨b1, b2, b3⟩ | ⟨b1, b2, b3⟩ |
        ⟨b1, b2, b3⟩ <;>
      first
      | (exfalso
         have c1 := of_eq_false a1
         have c2 := of_eq_false a2
         have c3 := of_eq_false a3
         omega)
      | (exfalso
         have c1 := of_eq_false b1
         have c2 := of_eq_false b2
         have c3 := of_eq_false b3
         omega)
      | (simp only [a1, a2, a3, b1, b2, b3, and_self, and_true, true_and, and_false,
          false_and, or_true, true_or, or_false, false_or, or_self, if_true, if_false]
         norm_num)
  · intro dx dy hdx hdy hv1 hv2
    obtain ⟨t1, t2, t3, t4⟩ := hv1
    obtain ⟨u1, u2, u3, u4⟩ := hv2
    obtain ⟨w1, h1, -, e1⟩ := hall (x0 + dx) (y0 + dy) ⟨by omega, by omega, by omega, by omega⟩
    obtain ⟨w2, h2, -, e2⟩ := hall (x0 - dx) (y0 + dy) ⟨by omega, by omega, by omega, by omega⟩
    obtain ⟨w3, h3, -, e3⟩ := hall (x0 + dx) (y0 - dy) ⟨by omega, by omega, by omega, by omega⟩
    obtain ⟨w4, h4, -, e4⟩ := hall (x0 - dx) (y0 - dy) ⟨by omega, by omega, by omega, by omega⟩
    have x1 : (x0 + dx = x0) = (dx = 0) := propext (by omega)
    have x2 : (x0 + dx + 1 = x0) = False := eq_false (by omega)
    have x3 : (x0 + dx = x0 + 1) = (dx = 1) := propext (by omega)
    have x4 : (x0 - dx = x0) = (dx = 0) := propext (by omega)
    have x5 : (x0 - dx + 1 = x0) = (dx = 1) := propext (by omega)
    have x6 : (x0 - dx = x0 + 1) = False := eq_false (by omega)
    have y1 : (y0 + dy = y0) = (dy = 0) := propext (by omega)
    have y2 : (y0 + dy + 1 = y0) = False := eq_false (by omega)
    have y3 : (y0 + dy = y0 + 1) = (dy = 1) := propext (by omega)
    have y4 : (y0 - dy = y0) = (dy = 0) := propext (by omega)
    have y5 : (y0 - dy + 1 = y0) = (dy = 1) := propext (by omega)
    have y6 : (y0 - dy = y0 + 1) = False := eq_false (by omega)
    simp only [x1, x2, x3, x4, x5, x6, y1, y2, y3, y4, y5, y6, or_false, false_or]
      at e1 e2 e3 e4
    rw [h1, h2, h3, h4]
    simp only [Option.map_some']
    rw [e1, e2, e3, e4]
    exact ⟨_, rfl, rfl, rfl, rfl⟩

theorem single_pixel_ring_witness :
    dotMask.WF ∧ demoCanvas.width ≤ dotMask.width ∧ demoCanvas.height ≤ dotMask.height ∧
    (∀ a b v, a < dotMask.width → b < dotMask.height → dotMask.pixel a b = some v →
      (0 < v ↔ a = 3 ∧ b = 3)) ∧
    visited demoCanvas (3 - 1) (3 - 1) ∧ visited demoCanvas (3 + 1) (3 + 1) ∧
    ((∀ x y, visited demoCanvas x y → ∃ w, sampleMask dotMask x y = some w ∧
      estimate w =
        if x = 3 ∧ y = 3 then 0.25
        else if (x = 3 ∧ (y + 1 = 3 ∨ y = 3 + 1)) ∨ (y = 3 ∧ (x + 1 = 3 ∨ x = 3 + 1))
          then 0.125
        else if (x + 1 = 3 ∨ x = 3 + 1) ∧ (y + 1 = 3 ∨ y = 3 + 1) then 0.0625
        else 0) ∧
    (∀ i j : ℕ, i ≤ 2 → j ≤ 2 → ∃ w, sampleMask dotMask (3 - 1 + i) (3 - 1 + j) = some w ∧
      0 < estimate w ∧ estimate w < 1) ∧
    (∀ dx dy : ℕ, dx ≤ 3 → dy ≤ 3 → visited demoCanvas (3 - dx) (3 - dy) →
      visited demoCanvas (3 + dx) (3 + dy) →
      ∃ v : ℚ, (sampleMask dotMask (3 + dx) (3 + dy)).map estimate = some v ∧
        (sampleMask dotMask (3 - dx) (3 + dy)).map estimate = some v ∧
        (sampleMask dotMask (3 + dx) (3 - dy)).map estimate = some v ∧
        (sampleMask dotMask (3 - dx) (3 - dy)).map estimate = some v)) :=
  have hone : ∀ a b v, a < dotMask.width → b < dotMask.height → dotMask.pixel a b = some v →
      (0 < v ↔ a = 3 ∧ b = 3) := by
    intro a b v ha hb
    have ha' : a < 7 := ha
    have hb' : b < 7 := hb
    interval_cases a <;> interval_cases b <;> intro h <;>
      cases (Option.some.inj h) <;> decide
  ⟨by decide, by decide, by decide, hone, by decide, by decide,
    single_pixel_ring demoCanvas dotMask (by decide) (by decide) (by decide) 3 3 hone
      (by decide) (by decide)⟩

/-! ## Policy B never brightens -/

/-- The alpha of the normal outline at the estimator outputs: `k/4` up to `v = 1/4`, then
`(8 − k)/4` down to `0` at `v = 1/2`, and `0` from there on. -/
theorem alpha_normal_quarters (k : ℕ) (hk : k ≤ 16) :
    alpha Outline.normal ((k : ℚ) / 16) =
      if k ≤ 4 then (k : ℚ) / 4 else if k ≤ 8 then ((8 - k : ℕ) : ℚ) / 4 else 0 := by
  interval_cases k <;> decide!

/-- Compositing black with alpha `j/4`: the binary64 blend is `(d/255)·(1 − j/4)` up to
four roundings. -/
theorem blend_black_near (d : ℕ) (hd : d ≤ 255) (j : ℕ) (hj1 : 1 ≤ j) (hj4 : j ≤ 4) :
    |blend 0 ((j : ℚ) / 4) d - (d : ℚ) / 255 * (1 - (j : ℚ) / 4)| ≤ 1 / 2 ^ 50 := by
  obtain ⟨hc0, hc1⟩ := dstColor_range d hd
  have hx0 : (0 : ℚ) ≤ (d : ℚ) / 255 := by positivity
  have hx1 : (d : ℚ) / 255 ≤ 1 := by
    rw [div_le_one (by norm_num)]; exact_mod_cast hd
  have e0 := fl_err_one ((d : ℚ) / 255) (abs_le.mpr ⟨by linarith, hx1⟩)
  obtain ⟨e0a, e0b⟩ := abs_le.mp e0
  simp only [blend, fdiv, fadd, fmul, fsub, lit_255]
  set x := (d : ℚ) / 255 with hx
  set dc := fl x with hdc
  have e1 := fl_err_one (0 - dc) (abs_le.mpr ⟨by linarith, by linarith⟩)
  obtain ⟨e1a, e1b⟩ := abs_le.mp e1
  set t1 := fl (0 - dc) with ht1
  interval_cases j
  · have e2 := fl_err_two (t1 * ((1 : ℕ) / 4 : ℚ)) (abs_le.mpr
      ⟨by norm_num at e1a ⊢; linarith, by norm_num at e1b ⊢; linarith⟩)
    obtain ⟨e2a, e2b⟩ := abs_le.mp e2
    set t2 := fl (t1 * ((1 : ℕ) / 4 : ℚ)) with ht2
    have e3 := fl_err_four (dc + t2) (abs_le.mpr
      ⟨by norm_num at e1a e2a ⊢; linarith, by norm_num at e1b e2b ⊢; linarith⟩)
    obtain ⟨e3a, e3b⟩ := abs_le.mp e3
    rw [abs_le]
    constructor
    · norm_num at e0a e0b e1a e1b e2a e2b e3a e3b ⊢; linarith
    · norm_num at e0a e0b e1a e1b e2a e2b e3a e3b ⊢; linarith
  · have e2 := fl_err_two (t1 * ((2 : ℕ) / 4 : ℚ)) (abs_le.mpr
      ⟨by norm_num at e1a ⊢; linarith, by norm_num at e1b ⊢; linarith⟩)
    obtain ⟨e2a, e2b⟩ := abs_le.mp e2
    set t2 := fl (t1 * ((2 : ℕ) / 4 : ℚ)) with ht2
    have e3 := fl_err_four (dc + t2) (abs_le.mpr
      ⟨by norm_num at e1a e2a ⊢; linarith, by norm_num at e1b e2b ⊢; linarith⟩)
    obtain ⟨e3a, e3b⟩ := abs_le.mp e3
    rw [abs_le]
    constructor
    · norm_num at e0a e0b e1a e1b e2a e2b e3a e3b ⊢; linarith
    · norm_num at e0a e0b e1a e1b e2a e2b e3a e3b ⊢; linarith
  · have e2 := fl_err_two (t1 * ((3 : ℕ) / 4 : ℚ)) (abs_le.mpr
      ⟨by norm_num at e1a ⊢; linarith, by norm_num at e1b ⊢; linarith⟩)
    obtain ⟨e2a, e2b⟩ := abs_le.mp e2
    set t2 := fl (t1 * ((3 : ℕ) / 4 : ℚ)) with ht2
    have e3 := fl_err_four (dc + t2) (abs_le.mpr
      ⟨by norm_num at e1a e2a ⊢; linarith, by norm_num at e1b e2b ⊢; linarith⟩)
    obtain ⟨e3a, e3b⟩ := abs_le.mp e3
    rw [abs_le]
    constructor
    · norm_num at e0a e0b e1a e1b e2a e2b e3a e3b ⊢; linarith
    · norm_num at e0a e0b e1a e1b e2a e2b e3a e3b ⊢; linarith
  · have e2 := fl_err_two (t1 * ((4 : ℕ) / 4 : ℚ)) (abs_le.mpr
      ⟨by norm_num at e1a ⊢; linarith, by norm_num at e1b ⊢; linarith⟩)
    obtain ⟨e2a, e2b⟩ := abs_le.mp e2
    set t2 := fl (t1 * ((4 : ℕ) / 4 : ℚ)) with ht2
    have e3 := fl_err_four (dc + t2) (abs_le.mpr
      ⟨by norm_num at e1a e2a ⊢; linarith, by norm_num at e1b e2b ⊢; linarith⟩)
    obtain ⟨e3a, e3b⟩ := abs_le.mp e3
    rw [abs_le]
    constructor
    · norm_num at e0a e0b e1a e1b e2a e2b e3a e3b ⊢; linarith
    · norm_num at e0a e0b e1a e1b e2a e2b e3a e3b ⊢; linarith

/-- Compositing black with alpha `j/4`: the value converted to a byte is non-negative and
is `d·(4 − j)/4` up to `2^-41`. -/
theorem scaled_black_near (d : ℕ) (hd : d ≤ 255) (j : ℕ) (hj1 : 1 ≤ j) (hj4 : j ≤ 4) :
    0 ≤ fmul (blend 0 ((j : ℚ) / 4) d) 255.0 ∧
    |fmul (blend 0 ((j : ℚ) / 4) d) 255.0 - ((d * (4 - j) : ℕ) : ℚ) / 4| ≤ 1 / 2 ^ 41 := by
  have hj0 : (0 : ℚ) ≤ (j : ℚ) / 4 := by positivity
  have hj1' : (j : ℚ) / 4 ≤ 1 := by
    rw [div_le_one (by norm_num)]; exact_mod_cast hj4
  obtain ⟨hb0, hb1⟩ := blend_range d hd ((j : ℚ) / 4) 0 hj0 hj1' le_rfl zero_le_one
  have hb := blend_black_near d hd j hj1 hj4
  obtain ⟨hba, hbb⟩ := abs_le.mp hb
  have hR : ((d * (4 - j) : ℕ) : ℚ) / 4 = (d : ℚ) / 255 * (1 - (j : ℚ) / 4) * 255 := by
    rw [Nat.cast_mul, Nat.cast_sub hj4]
    push_cast
    ring
  simp only [fmul, lit_255]
  have e4 := fl_err_256 (blend 0 ((j : ℚ) / 4) d * 255) (abs_le.mpr
    ⟨by linarith, by linarith⟩)
  obtain ⟨e4a, e4b⟩ := abs_le.mp e4
  refine ⟨fl_nonneg (by positivity), ?_⟩
  rw [hR, abs_le]
  constructor
  · norm_num at hba e4a ⊢; linarith
  · norm_num at hbb e4b ⊢; linarith

/-- Compositing black with alpha `j/4` stores the integer part of `d·(1 − j/4)` or the
integer below it, never more than `3·d/4`. -/
theorem composite_black_floor (d : ℕ) (hd : d ≤ 255) (j : ℕ) (hj1 : 1 ≤ j) (hj4 : j ≤ 4) :
    (composite 0 ((j : ℚ) / 4) d = d * (4 - j) / 4 ∨
      composite 0 ((j : ℚ) / 4) d + 1 = d * (4 - j) / 4) ∧
    ⌊(d : ℚ) * (1 - (j : ℚ) / 4)⌋ = ((d * (4 - j) / 4 : ℕ) : ℤ) := by
  obtain ⟨h0, hn⟩ := scaled_black_near d hd j hj1 hj4
  obtain ⟨hna, hnb⟩ := abs_le.mp hn
  have hR : (d : ℚ) * (1 - (j : ℚ) / 4) = ((d * (4 - j) : ℕ) : ℚ) / 4 := by
    rw [Nat.cast_mul, Nat.cast_sub hj4]
    push_cast
    ring
  rw [hR]
  have hn255 : d * (4 - j) ≤ 255 * 3 := Nat.mul_le_mul hd (by omega)
  generalize hW : fmul (blend 0 ((j : ℚ) / 4) d) 255.0 = W at h0 hna hnb
  have hcomp : ∀ W256 : W < 256, (composite 0 ((j : ℚ) / 4) d : ℤ) = ⌊W⌋ := by
    intro W256
    unfold composite
    rw [hW]
    exact (toQuint8_of_range W h0 W256).1
  generalize d * (4 - j) = n at hna hnb hn255 ⊢
  have hdiv : n = 4 * (n / 4) + n % 4 := (Nat.div_add_mod n 4).symm
  have hmod : n % 4 < 4 := Nat.mod_lt _ (by norm_num)
  have hq : n / 4 ≤ 191 := by omega
  generalize n / 4 = q at hdiv hq ⊢
  generalize n % 4 = r at hdiv hmod
  have hnq : (n : ℚ) = 4 * (q : ℚ) + (r : ℚ) := by exact_mod_cast hdiv
  have hqq : (q : ℚ) ≤ 191 := by exact_mod_cast hq
  have hrq : (r : ℚ) ≤ 3 := by exact_mod_cast (show r ≤ 3 by omega)
  have hr0 : (0 : ℚ) ≤ (r : ℚ) := Nat.cast_nonneg _
  have hW256 : W < 256 := by norm_num at hnb ⊢; linarith
  have hc := hcomp hW256
  constructor
  · rcases Nat.eq_zero_or_pos r with hr | hr
    · -- d·(1 − j/4) is an integer: the rounded value may fall just below it
      have hr' : (r : ℚ) = 0 := by exact_mod_cast hr
      by_cases hlt : W < (q : ℚ)
      · right
        have hfl : ⌊W⌋ = (q : ℤ) - 1 := by
          rw [Int.floor_eq_iff]
          push_cast
          constructor
          · norm_num at hna ⊢; linarith
          · linarith
        have : (composite 0 ((j : ℚ) / 4) d : ℤ) + 1 = (q : ℤ) := by
          rw [hc, hfl]; ring
        exact_mod_cast this
      · left
        have hfl : ⌊W⌋ = (q : ℤ) := by
          rw [Int.floor_eq_iff]
          constructor
          · push_cast; linarith
          · push_cast; norm_num at hnb ⊢; linarith
        have : (composite 0 ((j : ℚ) / 4) d : ℤ) = (q : ℤ) := by
          rw [hc, hfl]
        exact_mod_cast this
    · left
      have hr' : (1 : ℚ) ≤ (r : ℚ) := by exact_mod_cast hr
      have hfl : ⌊W⌋ = (q : ℤ) := by
        rw [Int.floor_eq_iff]
        constructor
        · push_cast; norm_num at hna ⊢; linarith
        · push_cast; norm_num at hnb ⊢; linarith
      have : (composite 0 ((j : ℚ) / 4) d : ℤ) = (q : ℤ) := by
        rw [hc, hfl]
      exact_mod_cast this
  · rw [Int.floor_eq_iff]
    push_cast
    constructor
    · linarith
    · linarith

/-- C19 (as stated, refuted): for the window with a single diagonal sample `v = 1/16`, the
Policy B alpha is `0.25` and `d·(1 − alpha) = 33` for `d = 44`; the binary64 blend
`44/255 + (0.0 − 44/255)·0.25`, multiplied by `255.0`, falls just below `33` and the byte
written is `32`, not `trunc(d·(1 − alpha)) = 33`. -/
theorem policyB_trunc_refuted :
    (Window.mk 1 0 0 0 0 0 0 0 0).Binary ∧
    estimate (Window.mk 1 0 0 0 0 0 0 0 0) = 1 / 16 ∧
    alpha Outline.normal (1 / 16) = 1 / 4 ∧
    ⌊(44 : ℚ) * (1 - alpha Outline.normal (1 / 16))⌋ = 33 ∧
    composite (srcColor Outline.normal (1 / 16)) (alpha Outline.normal (1 / 16)) 44 = 32 ∧
    pixelValue Outline.normal (Window.mk 1 0 0 0 0 0 0 0 0) 44 = 32 := by
  refine ⟨by decide!, by decide!, by decide!, ?_, by decide!, by decide!⟩
  have h : alpha Outline.normal (1 / 16) = 1 / 4 := by decide!
  rw [h]
  norm_num

/-- The alpha of the normal outline on the estimate of a binary window is `0`, and then
the loop body keeps the byte, or it is `j/4` with `1 ≤ j ≤ 4`, and then the loop body
composites black with that alpha. -/
theorem pixelValue_normal_cases (w : Window) (hb : w.Binary) (d : ℕ) :
    (alpha Outline.normal (estimate w) = 0 ∧ pixelValue Outline.normal w d = d ∧
      (estimate w ≤ 0 ∨ 1 / 2 ≤ estimate w)) ∨
    ∃ j : ℕ, 1 ≤ j ∧ j ≤ 4 ∧ alpha Outline.normal (estimate w) = (j : ℚ) / 4 ∧
      pixelValue Outline.normal w d = composite 0 ((j : ℚ) / 4) d := by
  obtain ⟨k, hk, hek⟩ := estimate_grid w hb
  have hq := alpha_normal_quarters k hk
  rw [← hek] at hq
  have hskip : alpha Outline.normal (estimate w) = 0 → pixelValue Outline.normal w d = d :=
    fun ha => pixelValue_skip _ w d (Or.inr (Or.inr (le_of_eq ha)))
  have hcomp : ∀ j : ℕ, 1 ≤ j → 1 ≤ k → k ≤ 7 →
      alpha Outline.normal (estimate w) = (j : ℚ) / 4 →
      pixelValue Outline.normal w d = composite 0 ((j : ℚ) / 4) d := by
    intro j hj1 hk1 hk7 ha
    have hv0 : 0 < estimate w := by
      rw [hek]
      have : (1 : ℚ) ≤ (k : ℚ) := by exact_mod_cast hk1
      positivity
    have hv1 : estimate w < 1 := by
      rw [hek, div_lt_one (by norm_num)]
      have : (k : ℚ) ≤ 7 := by exact_mod_cast hk7
      linarith
    have hapos : 0 < alpha Outline.normal (estimate w) := by
      rw [ha]
      have : (1 : ℚ) ≤ (j : ℚ) := by exact_mod_cast hj1
      positivity
    rw [pixelValue_eq, if_pos ⟨hv0, hv1, hapos⟩, ha]
    simp only [srcColor, lit_zero]
  by_cases h4 : k ≤ 4
  · rw [if_pos h4] at hq
    rcases Nat.eq_zero_or_pos k with h0 | h0
    · left
      have ha : alpha Outline.normal (estimate w) = 0 := by rw [hq, h0]; norm_num
      refine ⟨ha, hskip ha, Or.inl ?_⟩
      rw [hek, h0]; norm_num
    · exact Or.inr ⟨k, h0, h4, hq, hcomp k h0 h0 (by omega) hq⟩
  · rw [if_neg h4] at hq
    have h8q : k ≤ 7 ∨ 8 ≤ k := by omega
    rcases h8q with h7 | h8
    · rw [if_pos (by omega)] at hq
      exact Or.inr ⟨8 - k, by omega, by omega, hq, hcomp (8 - k) (by omega) (by omega) h7 hq⟩
    · left
      have ha : alpha Outline.normal (estimate w) = 0 := by
        rw [hq]
        split_ifs with h
        · have : k = 8 := by omega
          rw [this]; norm_num
        · rfl
      refine ⟨ha, hskip ha, Or.inr ?_⟩
      rw [hek]
      have : (8 : ℚ) ≤ (k : ℚ) := by exact_mod_cast h8
      linarith

/-- Compositing black with alpha `j/4` never stores more than the byte found, and stores
less when that byte is not `0`. -/
theorem composite_black_lt (d : ℕ) (hd : d ≤ 255) (j : ℕ) (hj1 : 1 ≤ j) (hj4 : j ≤ 4) :
    composite 0 ((j : ℚ) / 4) d ≤ d ∧ (1 ≤ d → composite 0 ((j : ℚ) / 4) d < d) := by
  obtain ⟨hor, -⟩ := composite_black_floor d hd j hj1 hj4
  have h3 : d * (4 - j) ≤ d * 3 := Nat.mul_le_mul_left d (by omega)
  constructor
  · rcases hor with h | h <;> omega
  · intro h1
    rcases hor with h | h <;> omega

/-- C19 (amended): under Policy B the pass never brightens a pixel.  For every pre-pass
value `d` in `0..255` and every estimator value `v` (the estimate of a binary window) the
value of the pixel after the loop body is at most `d`; it is `trunc(d·(1 − alpha(v)))` or
one less than that (binary64 rounding of `d/255` and of the blend can bring the product
just below an integer); and it is strictly less than `d` whenever `0 < v < 0.5` and
`d ≥ 1`. -/
theorem policyB_never_brightens (w : Window) (hb : w.Binary) (d : ℕ) (hd : d ≤ 255) :
    pixelValue Outline.normal w d ≤ d ∧
    ((pixelValue Outline.normal w d : ℤ) =
        ⌊(d : ℚ) * (1 - alpha Outline.normal (estimate w))⌋ ∨
      (pixelValue Outline.normal w d : ℤ) + 1 =
        ⌊(d : ℚ) * (1 - alpha Outline.normal (estimate w))⌋) ∧
    (0 < estimate w → estimate w < 1 / 2 → 1 ≤ d → pixelValue Outline.normal w d < d) := by
  rcases pixelValue_normal_cases w hb d with ⟨ha, hpv, hv⟩ | ⟨j, hj1, hj4, ha, hpv⟩
  · rw [hpv, ha]
    refine ⟨le_rfl, Or.inl (by simp), ?_⟩
    intro h0 h2 _
    exfalso
    rcases hv with h | h <;> linarith
  · obtain ⟨hor, hfloor⟩ := composite_black_floor d hd j hj1 hj4
    obtain ⟨hle, hlt⟩ := composite_black_lt d hd j hj1 hj4
    rw [hpv, ha, hfloor]
    refine ⟨hle, ?_, fun _ _ h1 => hlt h1⟩
    rcases hor with h | h
    · left; exact_mod_cast h
    · right; exact_mod_cast h

theorem policyB_never_brightens_witness :
    (Window.mk 1 0 0 0 0 0 0 0 0).Binary ∧ 44 ≤ 255 ∧
    (pixelValue Outline.normal (Window.mk 1 0 0 0 0 0 0 0 0) 44 ≤ 44 ∧
    ((pixelValue Outline.normal (Window.mk 1 0 0 0 0 0 0 0 0) 44 : ℤ) =
        ⌊((44 : ℕ) : ℚ) * (1 - alpha Outline.normal (estimate (Window.mk 1 0 0 0 0 0 0 0 0)))⌋ ∨
      (pixelValue Outline.normal (Window.mk 1 0 0 0 0 0 0 0 0) 44 : ℤ) + 1 =
        ⌊((44 : ℕ) : ℚ) *
          (1 - alpha Outline.normal (estimate (Window.mk 1 0 0 0 0 0 0 0 0)))⌋) ∧
    (0 < estimate (Window.mk 1 0 0 0 0 0 0 0 0) →
      estimate (Window.mk 1 0 0 0 0 0 0 0 0) < 1 / 2 → 1 ≤ 44 →
      pixelValue Outline.normal (Window.mk 1 0 0 0 0 0 0 0 0) 44 < 44)) :=
  ⟨by decide!, by decide, policyB_never_brightens (Window.mk 1 0 0 0 0 0 0 0 0) (by decide!) 44
    (by decide)⟩

/-! ## The binary64 square root and the circle function -/

theorem pow2_two_mul (e : ℤ) : pow2 (2 * e) = pow2 e * pow2 e := by
  rw [pow2_eq, pow2_eq, ← zpow_add₀ (by norm_num : (2 : ℚ) ≠ 0)]
  congr 1
  ring

/-- The square root of a value that is at most the square of a point `n · 2^e` of the
grid of the result is at most that point. -/
theorem fsqrt_le_grid (x : ℚ) (hx : 0 < x) (n : ℕ)
    (hg : x ≤ ((n : ℚ) * pow2 (max (ilog2 x / 2 - 52) (-1074))) ^ 2) :
    fsqrt x ≤ (n : ℚ) * pow2 (max (ilog2 x / 2 - 52) (-1074)) := by
  unfold fsqrt
  rw [if_neg (not_le.mpr hx)]
  simp only
  generalize max (ilog2 x / 2 - 52) (-1074) = e at hg ⊢
  have hp := pow2_pos e
  have hz : x / pow2 (2 * e) ≤ (n : ℚ) * n := by
    rw [pow2_two_mul, div_le_iff₀ (mul_pos hp hp)]
    calc x ≤ ((n : ℚ) * pow2 e) ^ 2 := hg
      _ = (n : ℚ) * n * (pow2 e * pow2 e) := by ring
  generalize x / pow2 (2 * e) = z at hz ⊢
  have hz0 : 0 ≤ z ∨ z < 0 := le_or_lt 0 z
  have hf : Nat.sqrt ⌊z⌋₊ ≤ n := by
    rw [← Nat.lt_succ_iff, Nat.sqrt_lt']
    have h1 : ⌊z⌋₊ ≤ n * n := by
      apply Nat.floor_le_of_le
      push_cast
      exact hz
    calc ⌊z⌋₊ ≤ n * n := h1
      _ < (n + 1) ^ 2 := by ring_nf; omega
  have hf2 : ((Nat.sqrt ⌊z⌋₊ : ℕ) : ℚ) * (Nat.sqrt ⌊z⌋₊ : ℕ) ≤ z ∨ z < 0 := by
    rcases hz0 with h | h
    · left
      have h1 : Nat.sqrt ⌊z⌋₊ * Nat.sqrt ⌊z⌋₊ ≤ ⌊z⌋₊ := Nat.sqrt_le _
      have h2 : ((⌊z⌋₊ : ℕ) : ℚ) ≤ z := Nat.floor_le h
      have h3 : ((Nat.sqrt ⌊z⌋₊ * Nat.sqrt ⌊z⌋₊ : ℕ) : ℚ) ≤ (⌊z⌋₊ : ℚ) := by exact_mod_cast h1
      push_cast at h3
      linarith
    · exact Or.inr h
  generalize Nat.sqrt ⌊z⌋₊ = f at hf hf2 ⊢
  apply mul_le_mul_of_nonneg_right _ hp.le
  rcases hf.lt_or_eq with hlt | heq
  · have : ((f + 1 : ℕ) : ℚ) ≤ (n : ℚ) := by exact_mod_cast hlt
    have hff : (f : ℚ) ≤ ((f + 1 : ℕ) : ℚ) := by push_cast; linarith
    split_ifs
    · linarith
    · exact this
    · linarith
    · exact this
  · subst heq
    have hfq : (0 : ℚ) ≤ (f : ℚ) := Nat.cast_nonneg _
    have hlt : z < (f : ℚ) * f + f + 1 / 4 := by linarith
    rw [if_pos hlt]

/-- The square root of a value above the square of the midpoint between the grid points
`n · 2^e` and `(n + 1) · 2^e` of the result is above `n · 2^e`. -/
theorem fsqrt_gt_grid (x : ℚ) (hx : 0 < x) (n : ℕ)
    (hg : (((n : ℚ) + 1 / 2) * pow2 (max (ilog2 x / 2 - 52) (-1074))) ^ 2 < x) :
    (n : ℚ) * pow2 (max (ilog2 x / 2 - 52) (-1074)) < fsqrt x := by
  unfold fsqrt
  rw [if_neg (not_le.mpr hx)]
  simp only
  generalize max (ilog2 x / 2 - 52) (-1074) = e at hg ⊢
  have hp := pow2_pos e
  have hz : (n : ℚ) * n + n + 1 / 4 < x / pow2 (2 * e) := by
    rw [pow2_two_mul, lt_div_iff₀ (mul_pos hp hp)]
    calc ((n : ℚ) * n + n + 1 / 4) * (pow2 e * pow2 e)
        = (((n : ℚ) + 1 / 2) * pow2 e) ^ 2 := by ring
      _ < x := hg
  generalize x / pow2 (2 * e) = z at hz ⊢
  have hn0 : (0 : ℚ) ≤ (n : ℚ) := Nat.cast_nonneg _
  have hz0 : 0 ≤ z := by nlinarith
  have hf : n ≤ Nat.sqrt ⌊z⌋₊ := by
    rw [Nat.le_sqrt]
    apply Nat.le_floor
    push_cast
    linarith
  generalize Nat.sqrt ⌊z⌋₊ = f at hf ⊢
  apply mul_lt_mul_of_pos_right _ hp
  rcases hf.lt_or_eq with hlt | heq
  · have h1 : (n : ℚ) < (f : ℚ) := by exact_mod_cast hlt
    have hff : (f : ℚ) ≤ ((f + 1 : ℕ) : ℚ) := by push_cast; linarith
    split_ifs
    · exact h1
    · linarith
    · exact h1
    · linarith
  · subst heq
    rw [if_neg (not_lt.mpr hz.le), if_pos hz]
    push_cast
    linarith

/-- Comparison of the binary64 square root with the radius `100`: exact on values up to
`10000`, and values from `10000.5` on have a root above `100`. -/
theorem fsqrt_hundred (s : ℚ) (h0 : 0 < s) (h1 : s < 2 ^ 18) :
    (s ≤ 10000 → fsqrt s ≤ 100) ∧ (10000 + 1 / 2 ≤ s → 100 < fsqrt s) := by
  have hlog : ilog2 s ≤ 17 := by
    have h2 := (ilog2_spec s h0.ne').1
    rw [abs_of_pos h0] at h2
    have h3 : (2 : ℚ) ^ ilog2 s < (2 : ℚ) ^ (18 : ℤ) := lt_of_le_of_lt h2 (by exact_mod_cast h1)
    have := (zpow_lt_zpow_iff_right₀ (by norm_num : (1 : ℚ) < 2)).mp h3
    omega
  have he : max (ilog2 s / 2 - 52) (-1074) ≤ -44 := by omega
  have hle := fsqrt_le_grid s h0
  have hgt := fsqrt_gt_grid s h0
  generalize max (ilog2 s / 2 - 52) (-1074) = e at he hle hgt
  obtain ⟨k, hk⟩ : ∃ k : ℕ, e = -(44 + k : ℕ) := ⟨(-44 - e).toNat, by omega⟩
  have hpe : pow2 e = 1 / ((2 ^ 44 * 2 ^ k : ℕ) : ℚ) := by
    rw [pow2_eq, hk, zpow_neg, zpow_natCast, pow_add]
    push_cast
    norm_num
  have hK : (1 : ℚ) ≤ ((2 ^ k : ℕ) : ℚ) := by exact_mod_cast Nat.one_le_two_pow
  have hgrid : ((100 * (2 ^ 44 * 2 ^ k) : ℕ) : ℚ) * pow2 e = 100 := by
    rw [hpe]
    push_cast
    field_simp
  constructor
  · intro hs
    have := hle (100 * (2 ^ 44 * 2 ^ k)) (by rw [hgrid]; norm_num; exact hs)
    rwa [hgrid] at this
  · intro hs
    have := hgt (100 * (2 ^ 44 * 2 ^ k)) (by
      have e1 : (((100 * (2 ^ 44 * 2 ^ k) : ℕ) : ℚ) + 1 / 2) * pow2 e =
          100 + 1 / 2 * pow2 e := by rw [add_mul, hgrid]
      rw [e1]
      have hp0 := pow2_pos e
      have hp1 : pow2 e ≤ 1 / 2 ^ 44 := by
        rw [hpe]
        push_cast
        apply one_div_le_one_div_of_le (by positivity)
        have : (0 : ℚ) < 2 ^ 44 := by positivity
        push_cast at hK
        nlinarith
      have hp2 : pow2 e ≤ 1 := le_trans hp1 (by norm_num)
      have hp3 : pow2 e * pow2 e ≤ pow2 e := by nlinarith
      have : (100 + 1 / 2 * pow2 e) ^ 2 = 10000 + 100 * pow2 e + 1 / 4 * (pow2 e * pow2 e) := by
        ring
      rw [this]
      have : (1 : ℚ) / 2 ^ 44 < 1 / 256 := by norm_num
      linarith)
    rwa [hgrid] at this

/-- Quarter-integers below `2^50` are binary64 values: they round to themselves. -/
theorem fl_quarter (N : ℤ) (h : |N| < 2 ^ 52) : fl ((N : ℚ) / 4) = (N : ℚ) / 4 := by
  by_cases hN : N = 0
  · subst hN
    simp [fl_zero]
  have hx : (N : ℚ) / 4 ≠ 0 := by
    have : (N : ℚ) ≠ 0 := by exact_mod_cast hN
    positivity
  have habs : |(N : ℚ) / 4| < (2 : ℚ) ^ (50 : ℤ) := by
    rw [abs_div, abs_of_pos (by norm_num : (0 : ℚ) < 4), div_lt_iff₀ (by norm_num)]
    have : ((|N| : ℤ) : ℚ) < ((2 ^ 52 : ℤ) : ℚ) := by exact_mod_cast h
    push_cast at this
    norm_num at this ⊢
    exact this
  have hlog : ilog2 ((N : ℚ) / 4) < 50 := by
    have h2 := (ilog2_spec _ hx).1
    exact (zpow_lt_zpow_iff_right₀ (by norm_num : (1 : ℚ) < 2)).mp (lt_of_le_of_lt h2 habs)
  have hu : ulpExp ((N : ℚ) / 4) ≤ -2 := by
    unfold ulpExp
    omega
  rw [fl_def]
  generalize ulpExp ((N : ℚ) / 4) = u at hu
  obtain ⟨k, hk⟩ : ∃ k : ℕ, u = -(2 + k : ℕ) := ⟨(-2 - u).toNat, by omega⟩
  have hpe : pow2 u = 1 / (4 * (2 : ℚ) ^ k) := by
    rw [pow2_eq, hk, zpow_neg, zpow_natCast, pow_add]
    norm_num
  have hK : (0 : ℚ) < (2 : ℚ) ^ k := by positivity
  have hq : (N : ℚ) / 4 / pow2 u = ((N * 2 ^ k : ℤ) : ℚ) := by
    rw [hpe]
    push_cast
    field_simp
    ring
  rw [hq, roundHalfEven_intCast, hpe]
  push_cast
  field_simp
  ring

theorem lit_half : (0.5 : ℚ) = 1 / 2 := by norm_num

/-- The centre of a pixel column or row: `n + 0.5` is computed without rounding. -/
theorem fadd_half (n : ℤ) (h : |n| ≤ 1024) : fadd (n : ℚ) 0.5 = (n : ℚ) + 1 / 2 := by
  unfold fadd
  rw [lit_half]
  have e : (n : ℚ) + 1 / 2 = ((4 * n + 2 : ℤ) : ℚ) / 4 := by push_cast; ring
  rw [e]
  apply fl_quarter
  have := abs_le.mp h
  rw [abs_lt]
  constructor <;> norm_num <;> omega

/-- The squared distance from a pixel centre to the centre of the circle is computed
without rounding. -/
theorem squaredDistance_exact (n m : ℤ) (hn : |n| ≤ 1024) (hm : |m| ≤ 1024) :
    squaredDistanceToPoint ⟨(n : ℚ) + 1 / 2, (m : ℚ) + 1 / 2⟩ windowCircle.center =
      ((n : ℚ) + 1 / 2 - 256) ^ 2 + ((m : ℚ) + 1 / 2 - 256) ^ 2 := by
  obtain ⟨hn1, hn2⟩ := abs_le.mp hn
  obtain ⟨hm1, hm2⟩ := abs_le.mp hm
  have hcx : windowCircle.center.x = 256 := by
    simp [windowCircle, canvasWidth]
  have hcy : windowCircle.center.y = 256 := by
    simp [windowCircle, canvasHeight]
  unfold squaredDistanceToPoint
  simp only [hcx, hcy, fsub, fmul, fadd]
  have e1 : (256 : ℚ) - ((n : ℚ) + 1 / 2) = ((1022 - 4 * n : ℤ) : ℚ) / 4 := by push_cast; ring
  have e2 : (256 : ℚ) - ((m : ℚ) + 1 / 2) = ((1022 - 4 * m : ℤ) : ℚ) / 4 := by push_cast; ring
  have b1 : |1022 - 4 * n| < 2 ^ 13 := by rw [abs_lt]; constructor <;> norm_num <;> omega
  have b2 : |1022 - 4 * m| < 2 ^ 13 := by rw [abs_lt]; constructor <;> norm_num <;> omega
  rw [e1, e2, fl_quarter _ (lt_trans b1 (by norm_num)), fl_quarter _ (lt_trans b2 (by norm_num))]
  have s1 : ((1022 - 4 * n : ℤ) : ℚ) / 4 * (((1022 - 4 * n : ℤ) : ℚ) / 4) =
      (((511 - 2 * n) * (511 - 2 * n) : ℤ) : ℚ) / 4 := by push_cast; ring
  have s2 : ((1022 - 4 * m : ℤ) : ℚ) / 4 * (((1022 - 4 * m : ℤ) : ℚ) / 4) =
      (((511 - 2 * m) * (511 - 2 * m) : ℤ) : ℚ) / 4 := by push_cast; ring
  have c1 : |(511 - 2 * n) * (511 - 2 * n)| < 2 ^ 24 := by
    rw [abs_mul]
    have : |511 - 2 * n| < 2 ^ 12 := by rw [abs_lt]; constructor <;> norm_num <;> omega
    have h0 := abs_nonneg (511 - 2 * n)
    nlinarith
  have c2 : |(511 - 2 * m) * (511 - 2 * m)| < 2 ^ 24 := by
    rw [abs_mul]
    have : |511 - 2 * m| < 2 ^ 12 := by rw [abs_lt]; constructor <;> norm_num <;> omega
    have h0 := abs_nonneg (511 - 2 * m)
    nlinarith
  rw [s1, s2, fl_quarter _ (lt_trans c1 (by norm_num)), fl_quarter _ (lt_trans c2 (by norm_num))]
  have s3 : (((511 - 2 * n) * (511 - 2 * n) : ℤ) : ℚ) / 4 +
      (((511 - 2 * m) * (511 - 2 * m) : ℤ) : ℚ) / 4 =
      (((511 - 2 * n) * (511 - 2 * n) + (511 - 2 * m) * (511 - 2 * m) : ℤ) : ℚ) / 4 := by
    push_cast; ring
  have c3 : |(511 - 2 * n) * (511 - 2 * n) + (511 - 2 * m) * (511 - 2 * m)| < 2 ^ 25 := by
    have := abs_add ((511 - 2 * n) * (511 - 2 * n)) ((511 - 2 * m) * (511 - 2 * m))
    have : (2 : ℤ) ^ 25 = 2 ^ 24 + 2 ^ 24 := by norm_num
    linarith
  rw [s3, fl_quarter _ (lt_trans c3 (by norm_num))]
  push_cast
  ring

/-- The circle function of the code at the centre of the pixel `(n, m)` is the exact
comparison of the squared distance with `100²`: the squared distance is computed without
rounding, is an integer plus `1/2`, and the binary64 square root is at most `100` exactly
when its argument is at most `10000`. -/
theorem sampleCircleFunction_exact (n m : ℤ) (hn1 : -1 ≤ n) (hn2 : n ≤ 512) (hm1 : -1 ≤ m)
    (hm2 : m ≤ 512) :
    sampleCircleFunction ⟨(n : ℚ) + 1 / 2, (m : ℚ) + 1 / 2⟩ windowCircle = exactCircle n m := by
  have hsq := squaredDistance_exact n m (abs_le.mpr ⟨by omega, by omega⟩)
    (abs_le.mpr ⟨by omega, by omega⟩)
  have hr : windowCircle.radius = 100 := rfl
  unfold sampleCircleFunction isInsideCircle distanceToPoint exactCircle
  simp only [hsq, hr, decide_eq_true_eq]
  -- the squared distance is `J + 1/2` for an integer `J`
  have hJ : ((n : ℚ) + 1 / 2 - 256) ^ 2 + ((m : ℚ) + 1 / 2 - 256) ^ 2 =
      (((n - 255) * (n - 256) + (m - 255) * (m - 256) : ℤ) : ℚ) + 1 / 2 := by
    push_cast; ring
  have hJ0 : 0 ≤ (n - 255) * (n - 256) + (m - 255) * (m - 256) := by
    have h1 : 0 ≤ (n - 255) * (n - 256) := by
      rcases le_or_lt n 255 with h | h
      · exact mul_nonneg_of_nonpos_of_nonpos (by omega) (by omega)
      · exact mul_nonneg (by omega) (by omega)
    have h2 : 0 ≤ (m - 255) * (m - 256) := by
      rcases le_or_lt m 255 with h | h
      · exact mul_nonneg_of_nonpos_of_nonpos (by omega) (by omega)
      · exact mul_nonneg (by omega) (by omega)
    omega
  have hJ1 : (n - 255) * (n - 256) + (m - 255) * (m - 256) < 2 ^ 17 + 2 ^ 16 := by
    have h1 : (n - 255) * (n - 256) ≤ 257 * 257 := by
      rcases le_or_lt n 255 with h | h
      · nlinarith
      · nlinarith
    have h2 : (m - 255) * (m - 256) ≤ 257 * 257 := by
      rcases le_or_lt m 255 with h | h
      · nlinarith
      · nlinarith
    norm_num
    omega
  rw [hJ]
  generalize (n - 255) * (n - 256) + (m - 255) * (m - 256) = J at hJ0 hJ1
  have hJq0 : (0 : ℚ) ≤ (J : ℚ) := by exact_mod_cast hJ0
  have hJq1 : (J : ℚ) < 2 ^ 17 + 2 ^ 16 := by exact_mod_cast hJ1
  obtain ⟨hle, hgt⟩ := fsqrt_hundred ((J : ℚ) + 1 / 2) (by linarith) (by norm_num at hJq1 ⊢; linarith)
  by_cases h : (J : ℚ) + 1 / 2 ≤ 100 ^ 2
  · rw [if_pos h, if_pos (hle (by norm_num at h ⊢; exact h))]
  · rw [if_neg h, if_neg]
    apply not_le.mpr
    apply hgt
    have h' : (10000 : ℚ) < (J : ℚ) + 1 / 2 := by norm_num at h ⊢; exact h
    have h'' : (9999 : ℤ) < J := by
      by_contra hc
      have : (J : ℚ) ≤ 9999 := by exact_mod_cast (not_lt.mp hc)
      linarith
    have : (10000 : ℚ) ≤ (J : ℚ) := by exact_mod_cast h''
    linarith

/-- The window of the circle sampler at a pixel of the canvas. -/
theorem sampleCircle_exact (x y : ℕ) (hx : x < 512) (hy : y < 512) :
    sampleCircle windowCircle x y = some
      ⟨exactCircle ((x : ℤ) - 1) ((y : ℤ) - 1), exactCircle x ((y : ℤ) - 1),
        exactCircle ((x : ℤ) + 1) ((y : ℤ) - 1), exactCircle ((x : ℤ) - 1) y,
        exactCircle x y, exactCircle ((x : ℤ) + 1) y,
        exactCircle ((x : ℤ) - 1) ((y : ℤ) + 1), exactCircle x ((y : ℤ) + 1),
        exactCircle ((x : ℤ) + 1) ((y : ℤ) + 1)⟩ := by
  have cx : ((x : ℕ) : ℚ) = (((x : ℤ) : ℤ) : ℚ) := (Int.cast_natCast x).symm
  have cy : ((y : ℕ) : ℚ) = (((y : ℤ) : ℤ) : ℚ) := (Int.cast_natCast y).symm
  have hxi : (x : ℤ) < 512 := by exact_mod_cast hx
  have hyi : (y : ℤ) < 512 := by exact_mod_cast hy
  have hx0 : (0 : ℤ) ≤ (x : ℤ) := Int.ofNat_nonneg x
  have hy0 : (0 : ℤ) ≤ (y : ℤ) := Int.ofNat_nonneg y
  unfold sampleCircle
  simp only [cx, cy]
  rw [fadd_half ((x : ℤ) - 1) (abs_le.mpr ⟨by omega, by omega⟩),
    fadd_half (x : ℤ) (abs_le.mpr ⟨by omega, by omega⟩),
    fadd_half ((x : ℤ) + 1) (abs_le.mpr ⟨by omega, by omega⟩),
    fadd_half ((y : ℤ) - 1) (abs_le.mpr ⟨by omega, by omega⟩),
    fadd_half (y : ℤ) (abs_le.mpr ⟨by omega, by omega⟩),
    fadd_half ((y : ℤ) + 1) (abs_le.mpr ⟨by omega, by omega⟩)]
  rw [sampleCircleFunction_exact _ _ (by omega) (by omega) (by omega) (by omega),
    sampleCircleFunction_exact _ _ (by omega) (by omega) (by omega) (by omega),
    sampleCircleFunction_exact _ _ (by omega) (by omega) (by omega) (by omega),
    sampleCircleFunction_exact _ _ (by omega) (by omega) (by omega) (by omega),
    sampleCircleFunction_exact _ _ (by omega) (by omega) (by omega) (by omega),
    sampleCircleFunction_exact _ _ (by omega) (by omega) (by omega) (by omega),
    sampleCircleFunction_exact _ _ (by omega) (by omega) (by omega) (by omega),
    sampleCircleFunction_exact _ _ (by omega) (by omega) (by omega) (by omega),
    sampleCircleFunction_exact _ _ (by omega) (by omega) (by omega) (by omega)]

/-! ## Pixels far from the circle and pixels on it -/

/-- Moving a point by at most one pixel in each direction changes its squared distance
`S` to the centre by `2c + q` with `c² ≤ 2S` and `0 ≤ q ≤ 2`. -/
theorem neighbour_sq (a b s t : ℚ) (hs : s = -1 ∨ s = 0 ∨ s = 1) (ht : t = -1 ∨ t = 0 ∨ t = 1) :
    (a + s) ^ 2 + (b + t) ^ 2 = a ^ 2 + b ^ 2 + 2 * (a * s + b * t) + (s ^ 2 + t ^ 2) ∧
    (a * s + b * t) ^ 2 ≤ 2 * (a ^ 2 + b ^ 2) ∧ 0 ≤ s ^ 2 + t ^ 2 ∧ s ^ 2 + t ^ 2 ≤ 2 := by
  refine ⟨by ring, ?_, by positivity, ?_⟩
  · rcases hs with rfl | rfl | rfl <;> rcases ht with rfl | rfl | rfl <;>
      nlinarith [sq_nonneg (a - b), sq_nonneg (a + b), sq_nonneg a, sq_nonneg b]
  · rcases hs with rfl | rfl | rfl <;> rcases ht with rfl | rfl | rfl <;> norm_num

theorem far_core (S c q : ℚ) (hq0 : 0 ≤ q) (hq2 : q ≤ 2) (hc : c ^ 2 ≤ 2 * S) :
    (102 ^ 2 < S → 100 ^ 2 < S + 2 * c + q) ∧ (S < 98 ^ 2 → S + 2 * c + q ≤ 100 ^ 2) := by
  constructor
  · intro h
    by_contra hn
    push_neg at hn
    have h1 : S - 10000 ≤ -(2 * c) := by linarith
    have h2 : 0 < S - 10000 := by linarith
    have h3 : (S - 10000) ^ 2 ≤ (-(2 * c)) ^ 2 := pow_le_pow_left₀ h2.le h1 2
    nlinarith [sq_nonneg (S - 10404)]
  · intro h
    by_contra hn
    push_neg at hn
    have h1 : 9998 - S ≤ 2 * c := by linarith
    have h2 : 0 < 9998 - S := by linarith
    have h3 : (9998 - S) ^ 2 ≤ (2 * c) ^ 2 := pow_le_pow_left₀ h2.le h1 2
    have h4 : 0 ≤ S := by nlinarith [sq_nonneg c]
    nlinarith [sq_nonneg (9604 - S)]

/-- Around a pixel whose centre is farther than `102` from the centre of the circle no
sample is inside the circle; around one nearer than `98` every sample is. -/
theorem exactCircle_far (n m : ℤ) (s t : ℤ) (hs : s = -1 ∨ s = 0 ∨ s = 1)
    (ht : t = -1 ∨ t = 0 ∨ t = 1) :
    ((100 + 2) ^ 2 < ((n : ℚ) + 1 / 2 - 256) ^ 2 + ((m : ℚ) + 1 / 2 - 256) ^ 2 →
      exactCircle (n + s) (m + t) = 0) ∧
    (((n : ℚ) + 1 / 2 - 256) ^ 2 + ((m : ℚ) + 1 / 2 - 256) ^ 2 < (100 - 2) ^ 2 →
      exactCircle (n + s) (m + t) = 1) := by
  have hs' : (s : ℚ) = -1 ∨ (s : ℚ) = 0 ∨ (s : ℚ) = 1 := by
    rcases hs with h | h | h <;> simp [h]
  have ht' : (t : ℚ) = -1 ∨ (t : ℚ) = 0 ∨ (t : ℚ) = 1 := by
    rcases ht with h | h | h <;> simp [h]
  obtain ⟨e1, e2, e3, e4⟩ := neighbour_sq ((n : ℚ) + 1 / 2 - 256) ((m : ℚ) + 1 / 2 - 256)
    (s : ℚ) (t : ℚ) hs' ht'
  obtain ⟨f1, f2⟩ := far_core _ _ _ e3 e4 e2
  have hrew : (((n + s : ℤ) : ℚ) + 1 / 2 - 256) ^ 2 + (((m + t : ℤ) : ℚ) + 1 / 2 - 256) ^ 2 =
      ((n : ℚ) + 1 / 2 - 256 + s) ^ 2 + ((m : ℚ) + 1 / 2 - 256 + t) ^ 2 := by
    push_cast; ring
  unfold exactCircle
  rw [hrew, e1]
  constructor
  · intro h
    rw [if_neg (not_le.mpr (f1 (by norm_num at h ⊢; exact h)))]
  · intro h
    rw [if_pos (f2 (by norm_num at h ⊢; exact h))]

/-- The window of the circle sampler around a far pixel is uniform. -/
theorem sampleCircle_far (x y : ℕ) (hx : x < 512) (hy : y < 512) :
    ((100 + 2) ^ 2 < ((x : ℚ) + 1 / 2 - 256) ^ 2 + ((y : ℚ) + 1 / 2 - 256) ^ 2 →
      sampleCircle windowCircle x y = some (Window.const 0)) ∧
    (((x : ℚ) + 1 / 2 - 256) ^ 2 + ((y : ℚ) + 1 / 2 - 256) ^ 2 < (100 - 2) ^ 2 →
      sampleCircle windowCircle x y = some (Window.const 1)) := by
  have hs := sampleCircle_exact x y hx hy
  have cx : ((x : ℕ) : ℚ) = (((x : ℤ) : ℤ) : ℚ) := (Int.cast_natCast x).symm
  have cy : ((y : ℕ) : ℚ) = (((y : ℤ) : ℤ) : ℚ) := (Int.cast_natCast y).symm
  rw [cx, cy]
  have key := exactCircle_far (x : ℤ) (y : ℤ)
  have k0 : ∀ n : ℤ, n + 0 = n := Int.add_zero
  have km : ∀ n : ℤ, n + -1 = n - 1 := fun n => by ring
  constructor
  · intro h
    have a1 := (key (-1) (-1) (by simp) (by simp)).1 h
    have a2 := (key 0 (-1) (by simp) (by simp)).1 h
    have a3 := (key 1 (-1) (by simp) (by simp)).1 h
    have a4 := (key (-1) 0 (by simp) (by simp)).1 h
    have a5 := (key 0 0 (by simp) (by simp)).1 h
    have a6 := (key 1 0 (by simp) (by simp)).1 h
    have a7 := (key (-1) 1 (by simp) (by simp)).1 h
    have a8 := (key 0 1 (by simp) (by simp)).1 h
    have a9 := (key 1 1 (by simp) (by simp)).1 h
    simp only [k0, km] at a1 a2 a3 a4 a5 a6 a7 a8 a9
    rw [hs, a1, a2, a3, a4, a5, a6, a7, a8, a9]
    rfl
  · intro h
    have a1 := (key (-1) (-1) (by simp) (by simp)).2 h
    have a2 := (key 0 (-1) (by simp) (by simp)).2 h
    have a3 := (key 1 (-1) (by simp) (by simp)).2 h
    have a4 := (key (-1) 0 (by simp) (by simp)).2 h
    have a5 := (key 0 0 (by simp) (by simp)).2 h
    have a6 := (key 1 0 (by simp) (by simp)).2 h
    have a7 := (key (-1) 1 (by simp) (by simp)).2 h
    have a8 := (key 0 1 (by simp) (by simp)).2 h
    have a9 := (key 1 1 (by simp) (by simp)).2 h
    simp only [k0, km] at a1 a2 a3 a4 a5 a6 a7 a8 a9
    rw [hs, a1, a2, a3, a4, a5, a6, a7, a8, a9]
    rfl

/-- The pass with the circle sampler on a 512×512 canvas: the pointwise description. -/
theorem outlinePass_circle_spec (style : Outline) (canvas : QImage) (hc : canvas.WF)
    (hw : canvas.width = canvasWidth) (hh : canvas.height = canvasHeight) :
    ∃ c', outlinePass style (sampleCircle windowCircle) canvas = some c' ∧
      ∀ x y, x < canvasWidth → y < canvasHeight →
        (visited canvas x y → ∃ w d, sampleCircle windowCircle x y = some w ∧
            canvas.pixel x y = some d ∧ c'.pixel x y = some (pixelValue style w d)) ∧
        (¬ visited canvas x y → c'.pixel x y = canvas.pixel x y) := by
  obtain ⟨c', hc', -, -, -, -, hpix⟩ := outlinePass_spec style (sampleCircle windowCircle)
    canvas hc (fun x y _ => ⟨_, rfl⟩)
  refine ⟨c', hc', ?_⟩
  intro x y hx hy
  exact hpix x y (lt_of_lt_of_le (by rw [hw]; exact hx) hc.1) (by rw [hh]; exact hy)

theorem grayCanvas_WF : grayCanvas.WF := by
  unfold QImage.WF grayCanvas
  simp

/-- C13: with the circle sampler (centre `(256, 256)`, radius `100`) on a well-formed
512×512 canvas the pass returns a canvas in which every pixel whose centre
`(x + 0.5, y + 0.5)` lies at distance greater than `radius + 2` or less than `radius − 2`
from the centre of the circle (distances compared through their squares) holds exactly its
pre-pass value; under Policy B, and under Policy A as well. -/
theorem circle_far_unchanged (style : Outline) (canvas : QImage) (hc : canvas.WF)
    (hw : canvas.width = canvasWidth) (hh : canvas.height = canvasHeight) :
    windowCircle = ⟨⟨256, 256⟩, 100⟩ ∧ canvasWidth = 512 ∧ canvasHeight = 512 ∧
    ∃ c', outlinePass style (sampleCircle windowCircle) canvas = some c' ∧
      ∀ x y, x < canvasWidth → y < canvasHeight →
        ((100 + 2) ^ 2 < ((x : ℚ) + 0.5 - 256) ^ 2 + ((y : ℚ) + 0.5 - 256) ^ 2 ∨
          ((x : ℚ) + 0.5 - 256) ^ 2 + ((y : ℚ) + 0.5 - 256) ^ 2 < (100 - 2) ^ 2) →
        c'.pixel x y = canvas.pixel x y := by
  refine ⟨by simp [windowCircle, canvasWidth, canvasHeight], rfl, rfl, ?_⟩
  obtain ⟨c', hc', hpix⟩ := outlinePass_circle_spec style canvas hc hw hh
  refine ⟨c', hc', ?_⟩
  intro x y hx hy hfar
  rw [lit_half] at hfar
  obtain ⟨hdone, hnot⟩ := hpix x y hx hy
  by_cases hv : visited canvas x y
  · obtain ⟨w, d, hw', hd, hcur⟩ := hdone hv
    obtain ⟨hout, hin⟩ := sampleCircle_far x y hx hy
    rw [hcur, hd]
    rcases hfar with h | h
    · rw [hout h] at hw'
      cases hw'
      rw [pixelValue_skip style _ d (Or.inl (le_of_eq estimate_const_zero))]
    · rw [hin h] at hw'
      cases hw'
      rw [pixelValue_skip style _ d (Or.inr (Or.inl (ge_of_eq estimate_const_one)))]
  · exact hnot hv

theorem circle_far_unchanged_witness :
    grayCanvas.WF ∧ grayCanvas.width = canvasWidth ∧ grayCanvas.height = canvasHeight ∧
    (windowCircle = ⟨⟨256, 256⟩, 100⟩ ∧ canvasWidth = 512 ∧ canvasHeight = 512 ∧
    ∃ c', outlinePass Outline.normal (sampleCircle windowCircle) grayCanvas = some c' ∧
      ∀ x y, x < canvasWidth → y < canvasHeight →
        ((100 + 2) ^ 2 < ((x : ℚ) + 0.5 - 256) ^ 2 + ((y : ℚ) + 0.5 - 256) ^ 2 ∨
          ((x : ℚ) + 0.5 - 256) ^ 2 + ((y : ℚ) + 0.5 - 256) ^ 2 < (100 - 2) ^ 2) →
        c'.pixel x y = grayCanvas.pixel x y) :=
  ⟨grayCanvas_WF, rfl, rfl,
    circle_far_unchanged Outline.normal grayCanvas grayCanvas_WF rfl rfl⟩

theorem exactCircle_binary (n m : ℤ) : exactCircle n m = 0 ∨ exactCircle n m = 1 := by
  unfold exactCircle
  split_ifs
  · exact Or.inr rfl
  · exact Or.inl rfl

/-- From a point just outside the circle, one diagonal step toward the centre leads
inside. -/
theorem toward_centre (a b : ℚ) (ha : 0 ≤ a) (hb : 0 ≤ b) (h1 : 100 ^ 2 < a ^ 2 + b ^ 2)
    (h2 : a ^ 2 + b ^ 2 ≤ (100 + 1 / 2) ^ 2) : (a - 1) ^ 2 + (b - 1) ^ 2 ≤ 100 ^ 2 := by
  have hu : 100 < a + b := by
    by_contra hc
    push_neg at hc
    nlinarith [mul_nonneg ha hb]
  nlinarith

/-- Around a pixel whose centre is outside the circle, at most half a pixel beyond the
radius: the centre sample is `0`, of two opposite samples at most one is `1`, and one of
the four diagonal samples is `1`. -/
theorem exactCircle_boundary (n m : ℤ)
    (h1 : 100 ^ 2 < ((n : ℚ) + 1 / 2 - 256) ^ 2 + ((m : ℚ) + 1 / 2 - 256) ^ 2)
    (h2 : ((n : ℚ) + 1 / 2 - 256) ^ 2 + ((m : ℚ) + 1 / 2 - 256) ^ 2 ≤ (100 + 1 / 2) ^ 2) :
    exactCircle n m = 0 ∧
    exactCircle (n - 1) m + exactCircle (n + 1) m ≤ 1 ∧
    exactCircle n (m - 1) + exactCircle n (m + 1) ≤ 1 ∧
    exactCircle (n - 1) (m - 1) + exactCircle (n + 1) (m + 1) ≤ 1 ∧
    exactCircle (n + 1) (m - 1) + exactCircle (n - 1) (m + 1) ≤ 1 ∧
    1 ≤ exactCircle (n - 1) (m - 1) + exactCircle (n + 1) (m - 1) +
      exactCircle (n - 1) (m + 1) + exactCircle (n + 1) (m + 1) := by
  have pair : ∀ s t : ℤ, exactCircle (n - s) (m - t) + exactCircle (n + s) (m + t) ≤ 1 := by
    intro s t
    unfold exactCircle
    split_ifs with p q
    · exfalso
      have e : (((n - s : ℤ) : ℚ) + 1 / 2 - 256) ^ 2 + (((m - t : ℤ) : ℚ) + 1 / 2 - 256) ^ 2 +
          ((((n + s : ℤ) : ℚ) + 1 / 2 - 256) ^ 2 + (((m + t : ℤ) : ℚ) + 1 / 2 - 256) ^ 2) =
          2 * (((n : ℚ) + 1 / 2 - 256) ^ 2 + ((m : ℚ) + 1 / 2 - 256) ^ 2) +
            2 * ((s : ℚ) ^ 2 + (t : ℚ) ^ 2) := by
        push_cast; ring
      have : (0 : ℚ) ≤ (s : ℚ) ^ 2 + (t : ℚ) ^ 2 := by positivity
      linarith
    · norm_num
    · norm_num
    · norm_num
  have p1 := pair 1 0
  have p2 := pair 0 1
  have p3 := pair 1 1
  have p4 := pair (-1) 1
  simp only [Int.sub_zero, Int.add_zero, Int.sub_neg, ← Int.sub_eq_add_neg] at p1 p2 p3 p4
  have nn : ∀ a b : ℤ, 0 ≤ exactCircle a b := by
    intro a b
    rcases exactCircle_binary a b with h | h
    · exact le_of_eq h.symm
    · rw [h]; exact zero_le_one
  refine ⟨?_, p1, p2, p3, p4, ?_⟩
  · unfold exactCircle
    rw [if_neg (not_le.mpr h1)]
  · -- the diagonal neighbour on the side of the centre is inside
    have inside : ∀ s t : ℤ, ((((n + s : ℤ) : ℚ) + 1 / 2 - 256) ^ 2 +
        (((m + t : ℤ) : ℚ) + 1 / 2 - 256) ^ 2 ≤ 100 ^ 2) → exactCircle (n + s) (m + t) = 1 := by
      intro s t h
      unfold exactCircle
      rw [if_pos h]
    have hn := nn (n - 1) (m - 1)
    have hn' := nn (n + 1) (m - 1)
    have hn'' := nn (n - 1) (m + 1)
    have hn''' := nn (n + 1) (m + 1)
    rcases le_or_lt 256 n with hx | hx <;> rcases le_or_lt 256 m with hy | hy
    · have ha : (0 : ℚ) ≤ (n : ℚ) + 1 / 2 - 256 := by
        have : (256 : ℚ) ≤ (n : ℚ) := by exact_mod_cast hx
        linarith
      have hb : (0 : ℚ) ≤ (m : ℚ) + 1 / 2 - 256 := by
        have : (256 : ℚ) ≤ (m : ℚ) := by exact_mod_cast hy
        linarith
      have := toward_centre _ _ ha hb h1 h2
      have e := inside (-1) (-1) (by push_cast; ring_nf at this ⊢; exact this)
      simp only [← Int.sub_eq_add_neg] at e
      linarith
    · have ha : (0 : ℚ) ≤ (n : ℚ) + 1 / 2 - 256 := by
        have : (256 : ℚ) ≤ (n : ℚ) := by exact_mod_cast hx
        linarith
      have hb : (0 : ℚ) ≤ -((m : ℚ) + 1 / 2 - 256) := by
        have : (m : ℚ) ≤ 255 := by exact_mod_cast (show m ≤ 255 by omega)
        linarith
      have := toward_centre _ _ ha hb (by rw [neg_sq]; exact h1) (by rw [neg_sq]; exact h2)
      have e := inside (-1) 1 (by push_cast; ring_nf at this ⊢; exact this)
      simp only [← Int.sub_eq_add_neg] at e
      linarith
    · have ha : (0 : ℚ) ≤ -((n : ℚ) + 1 / 2 - 256) := by
        have : (n : ℚ) ≤ 255 := by exact_mod_cast (show n ≤ 255 by omega)
        linarith
      have hb : (0 : ℚ) ≤ (m : ℚ) + 1 / 2 - 256 := by
        have : (256 : ℚ) ≤ (m : ℚ) := by exact_mod_cast hy
        linarith
      have := toward_centre _ _ ha hb (by rw [neg_sq]; exact h1) (by rw [neg_sq]; exact h2)
      have e := inside 1 (-1) (by push_cast; ring_nf at this ⊢; exact this)
      simp only [← Int.sub_eq_add_neg] at e
      linarith
    · have ha : (0 : ℚ) ≤ -((n : ℚ) + 1 / 2 - 256) := by
        have : (n : ℚ) ≤ 255 := by exact_mod_cast (show n ≤ 255 by omega)
        linarith
      have hb : (0 : ℚ) ≤ -((m : ℚ) + 1 / 2 - 256) := by
        have : (m : ℚ) ≤ 255 := by exact_mod_cast (show m ≤ 255 by omega)
        linarith
      have := toward_centre _ _ ha hb (by rw [neg_sq, neg_sq]; exact h1)
        (by rw [neg_sq, neg_sq]; exact h2)
      have e := inside 1 1 (by push_cast; ring_nf at this ⊢; exact this)
      linarith

theorem grayCanvas_pixel (x y : ℕ) (hx : x < 512) (hy : y < 512) :
    grayCanvas.pixel x y = some 128 := by
  show (List.replicate (canvasWidth * canvasHeight) 128)[y * canvasWidth + x]? = some 128
  rw [List.getElem?_replicate, if_pos]
  show y * 512 + x < 512 * 512
  omega

/-- C14 (as stated, refuted): the centre `(355.5, 255.5)` of the pixel `(355, 255)` is at
squared distance `9900.5` from `(256, 256)`, between `99.5²` and `100.5²`: the pixel is
within half a pixel of the circle.  Its window has the right column outside the circle,
`v = 3/4`, the Policy B alpha is `0`, and the pass leaves the pixel at its pre-pass value
`128 ≥ 1`. -/
theorem circle_inner_boundary_unchanged :
    ((100 - 0.5) ^ 2 ≤ ((355 : ℚ) + 0.5 - 256) ^ 2 + ((255 : ℚ) + 0.5 - 256) ^ 2 ∧
      ((355 : ℚ) + 0.5 - 256) ^ 2 + ((255 : ℚ) + 0.5 - 256) ^ 2 ≤ (100 + 0.5) ^ 2) ∧
    sampleCircle windowCircle 355 255 = some ⟨1, 1, 0, 1, 1, 0, 1, 1, 0⟩ ∧
    estimate ⟨1, 1, 0, 1, 1, 0, 1, 1, 0⟩ = 3 / 4 ∧ alpha Outline.normal (3 / 4) = 0 ∧
    grayCanvas.pixel 355 255 = some 128 ∧
    ∃ c', outlinePass Outline.normal (sampleCircle windowCircle) grayCanvas = some c' ∧
      c'.pixel 355 255 = some 128 := by
  have hs : sampleCircle windowCircle 355 255 = some ⟨1, 1, 0, 1, 1, 0, 1, 1, 0⟩ := by
    rw [sampleCircle_exact 355 255 (by norm_num) (by norm_num)]
    unfold exactCircle
    norm_num
  have hpv : ∀ d, pixelValue Outline.normal ⟨1, 1, 0, 1, 1, 0, 1, 1, 0⟩ d = d := by
    intro d
    apply pixelValue_skip
    right; right
    have : estimate ⟨1, 1, 0, 1, 1, 0, 1, 1, 0⟩ = 3 / 4 := by decide!
    rw [this]
    exact le_of_eq (by decide!)
  refine ⟨by norm_num, hs, by decide!, by decide!, grayCanvas_pixel 355 255 (by norm_num)
    (by norm_num), ?_⟩
  obtain ⟨c', hc', hpix⟩ := outlinePass_circle_spec Outline.normal grayCanvas grayCanvas_WF
    rfl rfl
  refine ⟨c', hc', ?_⟩
  obtain ⟨w, d, hw, hd, hcur⟩ := (hpix 355 255 (by decide) (by decide)).1 (by decide)
  rw [hs] at hw
  cases hw
  rw [hcur, hpv, ← hd, grayCanvas_pixel 355 255 (by norm_num) (by norm_num)]

/-- Around a pixel whose centre is inside the circle: the centre sample is `1`, and so is
one of the two horizontal and one of the two vertical neighbour samples. -/
theorem exactCircle_inner (n m : ℤ)
    (h : ((n : ℚ) + 1 / 2 - 256) ^ 2 + ((m : ℚ) + 1 / 2 - 256) ^ 2 ≤ 100 ^ 2) :
    exactCircle n m = 1 ∧ 1 ≤ exactCircle (n - 1) m + exactCircle (n + 1) m ∧
    1 ≤ exactCircle n (m - 1) + exactCircle n (m + 1) := by
  have nn : ∀ a b : ℤ, 0 ≤ exactCircle a b := by
    intro a b
    rcases exactCircle_binary a b with h | h
    · exact le_of_eq h.symm
    · rw [h]; exact zero_le_one
  have inside : ∀ a b : ℤ, (((a : ℚ) + 1 / 2 - 256) ^ 2 + ((b : ℚ) + 1 / 2 - 256) ^ 2 ≤
      100 ^ 2) → exactCircle a b = 1 := by
    intro a b h
    unfold exactCircle
    rw [if_pos h]
  refine ⟨inside n m h, ?_, ?_⟩
  · rcases le_or_lt 256 n with hx | hx
    · have hq : (256 : ℚ) ≤ (n : ℚ) := by exact_mod_cast hx
      have e := inside (n - 1) m (by push_cast; nlinarith)
      have := nn (n + 1) m
      linarith
    · have hq : (n : ℚ) ≤ 255 := by exact_mod_cast (show n ≤ 255 by omega)
      have e := inside (n + 1) m (by push_cast; nlinarith)
      have := nn (n - 1) m
      linarith
  · rcases le_or_lt 256 m with hy | hy
    · have hq : (256 : ℚ) ≤ (m : ℚ) := by exact_mod_cast hy
      have e := inside n (m - 1) (by push_cast; nlinarith)
      have := nn n (m + 1)
      linarith
    · have hq : (m : ℚ) ≤ 255 := by exact_mod_cast (show m ≤ 255 by omega)
      have e := inside n (m + 1) (by push_cast; nlinarith)
      have := nn n (m - 1)
      linarith

/-- C14 (amended): with the circle sampler (centre `(256, 256)`, radius `100`) on a
well-formed 512×512 canvas and Policy B, every pixel on the outer side of the circle
boundary, its centre `(x + 0.5, y + 0.5)` outside the circle and at most half a pixel
beyond the radius (`radius < distance ≤ radius + 0.5`, compared through the squares), whose
pre-pass value `d` is a byte with `d ≥ 1`, ends the pass with a value strictly less than
`d`; a pixel whose centre is inside the circle (`distance ≤ radius`) keeps its pre-pass
value. -/
theorem circle_outer_boundary_darkened (canvas : QImage) (hc : canvas.WF)
    (hw : canvas.width = canvasWidth) (hh : canvas.height = canvasHeight) :
    ∃ c', outlinePass Outline.normal (sampleCircle windowCircle) canvas = some c' ∧
      (∀ x y d, x < canvasWidth → y < canvasHeight →
        100 ^ 2 < ((x : ℚ) + 0.5 - 256) ^ 2 + ((y : ℚ) + 0.5 - 256) ^ 2 →
        ((x : ℚ) + 0.5 - 256) ^ 2 + ((y : ℚ) + 0.5 - 256) ^ 2 ≤ (100 + 0.5) ^ 2 →
        canvas.pixel x y = some d → 1 ≤ d → d ≤ 255 →
        ∃ d', c'.pixel x y = some d' ∧ d' < d) ∧
      (∀ x y, x < canvasWidth → y < canvasHeight →
        ((x : ℚ) + 0.5 - 256) ^ 2 + ((y : ℚ) + 0.5 - 256) ^ 2 ≤ 100 ^ 2 →
        c'.pixel x y = canvas.pixel x y) := by
  obtain ⟨c', hc', hpix⟩ := outlinePass_circle_spec Outline.normal canvas hc hw hh
  have hnn : ∀ a b : ℤ, 0 ≤ exactCircle a b := by
    intro a b
    rcases exactCircle_binary a b with h | h
    · exact le_of_eq h.symm
    · rw [h]; exact zero_le_one
  have hbinw : ∀ (x y : ℕ) (w : Window), x < 512 → y < 512 →
      sampleCircle windowCircle x y = some w → w.Binary := by
    intro x y w hx hy hws
    rw [sampleCircle_exact x y hx hy] at hws
    cases hws
    exact ⟨exactCircle_binary _ _, exactCircle_binary _ _, exactCircle_binary _ _,
      exactCircle_binary _ _, exactCircle_binary _ _, exactCircle_binary _ _,
      exactCircle_binary _ _, exactCircle_binary _ _, exactCircle_binary _ _⟩
  refine ⟨c', hc', ?_, ?_⟩
  · intro x y d hx hy h1 h2 hd hd1 hd255
    rw [lit_half] at h1 h2
    have hx' : x < 512 := hx
    have hy' : y < 512 := hy
    -- the pixel is one the loops visit
    have hxq : (2 : ℚ) ≤ (x : ℚ) ∧ (x : ℚ) < 510 := by
      constructor
      · by_contra hcn
        push_neg at hcn
        nlinarith [sq_nonneg ((y : ℚ) + 1 / 2 - 256)]
      · by_contra hcn
        push_neg at hcn
        nlinarith [sq_nonneg ((y : ℚ) + 1 / 2 - 256)]
    have hyq : (2 : ℚ) ≤ (y : ℚ) ∧ (y : ℚ) < 510 := by
      constructor
      · by_contra hcn
        push_neg at hcn
        nlinarith [sq_nonneg ((x : ℚ) + 1 / 2 - 256)]
      · by_contra hcn
        push_neg at hcn
        nlinarith [sq_nonneg ((x : ℚ) + 1 / 2 - 256)]
    have hv : visited canvas x y := by
      unfold visited
      rw [hw, hh]
      have a1 : 2 ≤ x := by exact_mod_cast hxq.1
      have a2 : x < 510 := by exact_mod_cast hxq.2
      have a3 : 2 ≤ y := by exact_mod_cast hyq.1
      have a4 : y < 510 := by exact_mod_cast hyq.2
      exact ⟨a1, a2, a3, a4⟩
    obtain ⟨w, d0, hws, hd0, hcur⟩ := (hpix x y hx hy).1 hv
    rw [hd] at hd0
    cases hd0
    have hbin := hbinw x y w hx' hy' hws
    rw [sampleCircle_exact x y hx' hy'] at hws
    have cx : ((x : ℕ) : ℚ) = (((x : ℤ) : ℤ) : ℚ) := (Int.cast_natCast x).symm
    have cy : ((y : ℕ) : ℚ) = (((y : ℤ) : ℤ) : ℚ) := (Int.cast_natCast y).symm
    rw [cx, cy] at h1 h2
    obtain ⟨b0, b1, b2, b3, b4, b5⟩ := exactCircle_boundary (x : ℤ) (y : ℤ) h1 h2
    have hest := (estimate_binary w hbin).1
    have hrange : 0 < estimate w ∧ estimate w < 1 / 2 := by
      cases hws
      simp only at hest
      rw [hest]
      have n1 := hnn ((x : ℤ) - 1) ((y : ℤ) - 1)
      have n2 := hnn (x : ℤ) ((y : ℤ) - 1)
      have n3 := hnn ((x : ℤ) + 1) ((y : ℤ) - 1)
      have n4 := hnn ((x : ℤ) - 1) (y : ℤ)
      have n6 := hnn ((x : ℤ) + 1) (y : ℤ)
      have n7 := hnn ((x : ℤ) - 1) ((y : ℤ) + 1)
      have n8 := hnn (x : ℤ) ((y : ℤ) + 1)
      have n9 := hnn ((x : ℤ) + 1) ((y : ℤ) + 1)
      constructor
      · norm_num
        linarith
      · norm_num
        linarith
    refine ⟨_, hcur, ?_⟩
    rcases pixelValue_normal_cases w hbin d with ⟨-, -, hv0⟩ | ⟨j, hj1, hj4, -, hpv⟩
    · exfalso
      rcases hv0 with h | h <;> linarith [hrange.1, hrange.2]
    · rw [hpv]
      exact (composite_black_lt d hd255 j hj1 hj4).2 hd1
  · intro x y hx hy h
    rw [lit_half] at h
    obtain ⟨hdone, hnot⟩ := hpix x y hx hy
    by_cases hv : visited canvas x y
    · obtain ⟨w, d, hws, hd, hcur⟩ := hdone hv
      have hbin := hbinw x y w hx hy hws
      rw [sampleCircle_exact x y hx hy] at hws
      have cx : ((x : ℕ) : ℚ) = (((x : ℤ) : ℤ) : ℚ) := (Int.cast_natCast x).symm
      have cy : ((y : ℕ) : ℚ) = (((y : ℤ) : ℤ) : ℚ) := (Int.cast_natCast y).symm
      rw [cx, cy] at h
      obtain ⟨b0, b1, b2⟩ := exactCircle_inner (x : ℤ) (y : ℤ) h
      have hest := (estimate_binary w hbin).1
      have hhalf : 1 / 2 ≤ estimate w := by
        cases hws
        simp only at hest
        rw [hest]
        have n1 := hnn ((x : ℤ) - 1) ((y : ℤ) - 1)
        have n3 := hnn ((x : ℤ) + 1) ((y : ℤ) - 1)
        have n7 := hnn ((x : ℤ) - 1) ((y : ℤ) + 1)
        have n9 := hnn ((x : ℤ) + 1) ((y : ℤ) + 1)
        norm_num
        linarith
      rw [hcur, hd, pixelValue_skip Outline.normal w d
        (Or.inr (Or.inr (le_of_eq (alpha_normal_zero _ (Or.inl hhalf)))))]
    · exact hnot hv

theorem circle_outer_boundary_darkened_witness :
    grayCanvas.WF ∧ grayCanvas.width = canvasWidth ∧ grayCanvas.height = canvasHeight ∧
    ∃ c', outlinePass Outline.normal (sampleCircle windowCircle) grayCanvas = some c' ∧
      (∀ x y d, x < canvasWidth → y < canvasHeight →
        100 ^ 2 < ((x : ℚ) + 0.5 - 256) ^ 2 + ((y : ℚ) + 0.5 - 256) ^ 2 →
        ((x : ℚ) + 0.5 - 256) ^ 2 + ((y : ℚ) + 0.5 - 256) ^ 2 ≤ (100 + 0.5) ^ 2 →
        grayCanvas.pixel x y = some d → 1 ≤ d → d ≤ 255 →
        ∃ d', c'.pixel x y = some d' ∧ d' < d) ∧
      (∀ x y, x < canvasWidth → y < canvasHeight →
        ((x : ℚ) + 0.5 - 256) ^ 2 + ((y : ℚ) + 0.5 - 256) ^ 2 ≤ 100 ^ 2 →
        c'.pixel x y = grayCanvas.pixel x y) :=
  ⟨grayCanvas_WF, rfl, rfl, circle_outer_boundary_darkened grayCanvas grayCanvas_WF rfl rfl⟩

end BrushOutline
